import Mathlib

/-!
Listener dispatchers of `ipa_can_interface/dispatcher.h`: a shallow embedding
of `SimpleDispatcher`, its nested `DispatcherBase` and `GuardedListener`, and
of `FilteredDispatcher`, with the properties of subscription, dispatch and
handle drop proved over it.

Objects live in an explicit `Memory`:

* a `DispatcherBase` is held through `boost::shared_ptr`; the memory maps the
  identity of its control block (`CorePtr`) to the object while a strong
  reference exists, and to `none` afterwards, which is what
  `weak_ptr::lock()` observes;
* a listener object is addressed by a raw `Listener*` (`ListenerPtr`); the
  memory maps the address to the object while it is alive.  The address of a
  new listener object is an argument of the operation that creates it, so the
  allocator may hand out again the address of an object that is gone.

What is not in the source file is a parameter: `Listener`, its `Callable` and
its payload `Type` are declared in `interface.h`; `throws f obj` tells whether
a call of a listener wrapping `f` with `obj` throws, and `keyOf` is the
conversion of a payload to the key type used by `filtered_[obj]`.

The mutex is not modelled: every operation below is one critical section, and
the operations are composed sequentially.  A listener call does not touch the
dispatcher or the memory (a callable that re-enters the dispatcher would block
on the mutex the round holds).
-/

namespace ipa_can

/-- Address of a listener object: the raw `Listener*` kept in `listeners_`. -/
abbrev ListenerPtr := Nat

/-- Identity of the control block of a `boost::shared_ptr<DispatcherBase>`. -/
abbrev CorePtr := Nat

/-- The data member `std::list<Listener*> listeners_` of `DispatcherBase`
(the reference `mutex_` carries no data of its own). -/
structure DispatcherBase where
  listeners_ : List ListenerPtr
deriving DecidableEq

/-- A `GuardedListener`: the callable stored by the `Listener` base class and
the `boost::weak_ptr<DispatcherBase> guard_`. -/
structure GuardedListener (Callable : Type) where
  callable_ : Callable
  guard_ : CorePtr
deriving DecidableEq

/-- The objects that are alive.  `nextCore` is the identity the next control
block receives; a control block identity is never handed out twice, so an
expired `weak_ptr` never resolves again. -/
structure Memory (Callable : Type) where
  cores : CorePtr → Option DispatcherBase
  listeners : ListenerPtr → Option (GuardedListener Callable)
  nextCore : CorePtr

/-- Pointwise update of a memory component. -/
def upd {V : Type} (f : Nat → Option V) (a : Nat) (v : Option V) : Nat → Option V :=
  fun b => if b = a then v else f b

/-- A memory without objects. -/
def Memory.empty (Callable : Type) : Memory Callable :=
  { cores := fun _ => none, listeners := fun _ => none, nextCore := 0 }

/-- The expression `new DispatcherBase(mutex_)` wrapped in a `shared_ptr`: a
core with an empty `listeners_` under a fresh control block. -/
def Memory.newCore {Callable : Type} (m : Memory Callable) : Memory Callable × CorePtr :=
  ({ m with cores := upd m.cores m.nextCore (some ⟨[]⟩), nextCore := m.nextCore + 1 },
    m.nextCore)

/-- One call `(**it)(obj)`: which listener object was called, the callable it
wraps and the payload it was given. -/
structure Invocation (Callable T : Type) where
  listener : ListenerPtr
  callable : Callable
  obj : T
deriving DecidableEq

/-- How a dispatch round ends: it returns, a listener call throws (nothing in
the dispatcher catches it), or an access to an object that is not alive
(undefined behaviour in the source). -/
inductive Outcome where
  | returned
  | thrown
  | fault
deriving DecidableEq

/-- The listener calls made by one dispatch round, in order, and how it ended. -/
structure Round (Callable T : Type) where
  calls : List (Invocation Callable T)
  outcome : Outcome
deriving DecidableEq

/-- `DispatcherBase::remove`: `listeners_.remove(d)`; `std::list::remove`
erases every element equal to `d` and keeps the order of the others. -/
def DispatcherBase.remove (self : DispatcherBase) (d : ListenerPtr) : DispatcherBase :=
  ⟨self.listeners_.filter (fun x => x != d)⟩

/-- `DispatcherBase::numListeners`: `return listeners_.size();`. -/
def DispatcherBase.numListeners (self : DispatcherBase) : Nat :=
  self.listeners_.length

/-- The loop of `DispatcherBase::dispatch_nolock` over the iterator range:
each `Listener*` is dereferenced and called with `obj`; a call that throws
ends the loop.  `throws f obj` tells whether `Listener::operator()` on a
listener wrapping `f` throws for `obj`. -/
def dispatch_loop {Callable T : Type} (throws : Callable → T → Bool)
    (m : Memory Callable) (obj : T) : List ListenerPtr → Round Callable T
  | [] => ⟨[], Outcome.returned⟩
  | it :: rest =>
    match m.listeners it with
    | none => ⟨[], Outcome.fault⟩
    | some g =>
      if throws g.callable_ obj then ⟨[⟨it, g.callable_, obj⟩], Outcome.thrown⟩
      else
        let r := dispatch_loop throws m obj rest
        ⟨⟨it, g.callable_, obj⟩ :: r.calls, r.outcome⟩

/-- `DispatcherBase::dispatch_nolock`. -/
def DispatcherBase.dispatch_nolock {Callable T : Type} (throws : Callable → T → Bool)
    (m : Memory Callable) (self : DispatcherBase) (obj : T) : Round Callable T :=
  dispatch_loop throws m obj self.listeners_

/-- `DispatcherBase::createListener(dispatcher, callable)`: a new
`GuardedListener(dispatcher, callable)` is placed at address `l` (the address
is what `new` returned) and `l` is pushed to the back of the core's
`listeners_`.  `none` when `dispatcher` does not refer to a live core. -/
def DispatcherBase.createListener {Callable : Type} (m : Memory Callable) (l : ListenerPtr)
    (dispatcher : CorePtr) (callable : Callable) : Option (Memory Callable) :=
  match m.cores dispatcher with
  | none => none
  | some core =>
    some { m with
      listeners := upd m.listeners l (some ⟨callable, dispatcher⟩)
      cores := upd m.cores dispatcher (some ⟨core.listeners_ ++ [l]⟩) }

/-- The destructor `~GuardedListener` run on the object at address `this`:
`guard_.lock()`; when it yields a core, `d->remove(this)`; then the object is
gone.  `none` when there is no listener object at `this`. -/
def GuardedListener.destructor {Callable : Type} (m : Memory Callable) (this : ListenerPtr) :
    Option (Memory Callable) :=
  match m.listeners this with
  | none => none
  | some g =>
    match m.cores g.guard_ with
    | some d =>
      some { m with
        cores := upd m.cores g.guard_ (some (d.remove this))
        listeners := upd m.listeners this none }
    | none => some { m with listeners := upd m.listeners this none }

/-- The data member `dispatcher_` of `SimpleDispatcher` (a `shared_ptr`). -/
structure SimpleDispatcher where
  dispatcher_ : CorePtr
deriving DecidableEq

/-- The constructor `SimpleDispatcher() : dispatcher_(new DispatcherBase(mutex_))`. -/
def SimpleDispatcher.create {Callable : Type} (m : Memory Callable) :
    Memory Callable × SimpleDispatcher :=
  ((m.newCore).1, ⟨(m.newCore).2⟩)

/-- `SimpleDispatcher::createListener(callable)`. -/
def SimpleDispatcher.createListener {Callable : Type} (m : Memory Callable)
    (self : SimpleDispatcher) (l : ListenerPtr) (callable : Callable) :
    Option (Memory Callable) :=
  DispatcherBase.createListener m l self.dispatcher_ callable

/-- `SimpleDispatcher::dispatch(obj)`: `dispatcher_->dispatch_nolock(obj)`. -/
def SimpleDispatcher.dispatch {Callable T : Type} (throws : Callable → T → Bool)
    (m : Memory Callable) (self : SimpleDispatcher) (obj : T) : Round Callable T :=
  match m.cores self.dispatcher_ with
  | some core => core.dispatch_nolock throws m obj
  | none => ⟨[], Outcome.fault⟩

/-- `SimpleDispatcher::numListeners`, whose body is the single expression
statement `dispatcher_->numListeners();`: the count of the core is computed
and dropped, and control reaches the closing brace without a `return`.  The
result is `some n` when the function returns the value `n` to its caller and
`none` when it returns no value. -/
def SimpleDispatcher.numListeners {Callable : Type} (m : Memory Callable)
    (self : SimpleDispatcher) : Option Nat :=
  let _dropped := (m.cores self.dispatcher_).map DispatcherBase.numListeners
  none

/-- The destructor of `SimpleDispatcher`: the only strong reference to its
core goes away. -/
def SimpleDispatcher.destructor {Callable : Type} (m : Memory Callable)
    (self : SimpleDispatcher) : Memory Callable :=
  { m with cores := upd m.cores self.dispatcher_ none }

/-- Lookup in the `boost::unordered_map` kept as an association list:
`none` when the key has no entry, `some ptr` for an entry holding the
(possibly null) `shared_ptr` `ptr`. -/
def mapFind {K V : Type} [DecidableEq K] : List (K × V) → K → Option V
  | [], _ => none
  | (k, v) :: rest, key => if k = key then some v else mapFind rest key

/-- Assignment to the entry of `key`, which is created when missing. -/
def mapSet {K V : Type} [DecidableEq K] : List (K × V) → K → V → List (K × V)
  | [], key, v => [(key, v)]
  | (k, x) :: rest, key, v =>
    if k = key then (k, v) :: rest else (k, x) :: mapSet rest key v

/-- The map after evaluating `filtered_[key]`: `operator[]` inserts a
value-initialised (null) `shared_ptr` when `key` has no entry. -/
def mapIndex {K : Type} [DecidableEq K] (fm : List (K × Option CorePtr)) (key : K) :
    List (K × Option CorePtr) :=
  match mapFind fm key with
  | some _ => fm
  | none => mapSet fm key none

/-- A `FilteredDispatcher`: the `SimpleDispatcher` base class and the map
`filtered_` from keys to `shared_ptr<DispatcherBase>`. -/
structure FilteredDispatcher (K : Type) extends SimpleDispatcher where
  filtered_ : List (K × Option CorePtr)
deriving DecidableEq

/-- The constructor of `FilteredDispatcher`: the base class constructor and an
empty map. -/
def FilteredDispatcher.create (K : Type) {Callable : Type} (m : Memory Callable) :
    Memory Callable × FilteredDispatcher K :=
  ((SimpleDispatcher.create m).1, ⟨(SimpleDispatcher.create m).2, []⟩)

/-- `FilteredDispatcher::createListener(key, callable)`:
`ptr = filtered_[key]; if(!ptr) ptr.reset(new DispatcherBase(mutex_));`
then `DispatcherBase::createListener(ptr, callable)`. -/
def FilteredDispatcher.createListener {K Callable : Type} [DecidableEq K]
    (m : Memory Callable) (self : FilteredDispatcher K) (l : ListenerPtr) (key : K)
    (callable : Callable) : Option (Memory Callable × FilteredDispatcher K) :=
  let fm := mapIndex self.filtered_ key
  match mapFind fm key with
  | some (some ptr) =>
    (DispatcherBase.createListener m l ptr callable).map
      (fun m1 => (m1, { self with filtered_ := fm }))
  | _ =>
    (DispatcherBase.createListener (m.newCore).1 l (m.newCore).2 callable).map
      (fun m1 => (m1, { self with filtered_ := mapSet fm key (some (m.newCore).2) }))

/-- `FilteredDispatcher::dispatch(obj)`: `ptr = filtered_[obj]` (the payload is
converted to the key by `keyOf`), `if(ptr) ptr->dispatch_nolock(obj);` and then
`dispatcher_->dispatch_nolock(obj)`, which is not reached when the first loop
throws.  The result is the dispatcher afterwards and the round. -/
def FilteredDispatcher.dispatch {K Callable T : Type} [DecidableEq K]
    (throws : Callable → T → Bool) (keyOf : T → K) (m : Memory Callable)
    (self : FilteredDispatcher K) (obj : T) : FilteredDispatcher K × Round Callable T :=
  let fm := mapIndex self.filtered_ (keyOf obj)
  let r1 : Round Callable T :=
    match mapFind fm (keyOf obj) with
    | some (some ptr) =>
      (match m.cores ptr with
       | some core => core.dispatch_nolock throws m obj
       | none => ⟨[], Outcome.fault⟩)
    | _ => ⟨[], Outcome.returned⟩
  match r1.outcome with
  | Outcome.returned =>
    let r2 : Round Callable T :=
      match m.cores self.dispatcher_ with
      | some core => core.dispatch_nolock throws m obj
      | none => ⟨[], Outcome.fault⟩
    ({ self with filtered_ := fm }, ⟨r1.calls ++ r2.calls, r2.outcome⟩)
  | _ => ({ self with filtered_ := fm }, r1)

/-- The control blocks owned by the entries of `filtered_`. -/
def ownedCores {K : Type} (fm : List (K × Option CorePtr)) : List CorePtr :=
  fm.filterMap (fun e => e.2)

/-- The destructor of `FilteredDispatcher`: the map releases the strong
reference of every entry, then the base class releases `dispatcher_`. -/
def FilteredDispatcher.destructor {K Callable : Type} (m : Memory Callable)
    (self : FilteredDispatcher K) : Memory Callable :=
  { m with
    cores := fun c =>
      if c ∈ ownedCores self.filtered_ ∨ c = self.dispatcher_ then none else m.cores c }

/-- A `SimpleDispatcher` together with the memory its objects live in. -/
structure SimpleWorld (Callable : Type) where
  mem : Memory Callable
  disp : SimpleDispatcher

/-- What a client does with a `SimpleDispatcher`: `createListener(callable)`
(the new listener object is placed at address `l`), letting go of the handle
of the listener at `l` (its destructor runs), and `dispatch(obj)`. -/
inductive SimpleOp (Callable T : Type) where
  | subscribe (l : ListenerPtr) (callable : Callable)
  | drop (l : ListenerPtr)
  | dispatch (obj : T)

/-- A fresh `SimpleDispatcher` in an empty memory. -/
def SimpleWorld.init (Callable : Type) : SimpleWorld Callable :=
  ⟨(SimpleDispatcher.create (Memory.empty Callable)).1,
    (SimpleDispatcher.create (Memory.empty Callable)).2⟩

/-- The world after one client operation.  A dispatch leaves a
`SimpleDispatcher` and the memory as they are. -/
def SimpleWorld.step {Callable T : Type} (w : SimpleWorld Callable) :
    SimpleOp Callable T → SimpleWorld Callable
  | SimpleOp.subscribe l f =>
    match w.disp.createListener w.mem l f with
    | some m => { w with mem := m }
    | none => w
  | SimpleOp.drop l =>
    match GuardedListener.destructor w.mem l with
    | some m => { w with mem := m }
    | none => w
  | SimpleOp.dispatch _ => w

/-- The world after a sequence of client operations. -/
def SimpleWorld.run {Callable T : Type} (w : SimpleWorld Callable) :
    List (SimpleOp Callable T) → SimpleWorld Callable
  | [] => w
  | op :: rest => SimpleWorld.run (w.step op) rest

/-- What the client and the allocator can do: `new` returns an address at
which no listener object is alive, and only the handle of a live listener can
be dropped. -/
def SimpleWorld.enabled {Callable T : Type} (w : SimpleWorld Callable) :
    SimpleOp Callable T → Bool
  | SimpleOp.subscribe l _ => (w.mem.listeners l).isNone
  | SimpleOp.drop l => (w.mem.listeners l).isSome
  | SimpleOp.dispatch _ => true

/-- Every operation of the sequence is enabled when its turn comes. -/
def SimpleWorld.admissible {Callable T : Type} (w : SimpleWorld Callable) :
    List (SimpleOp Callable T) → Bool
  | [] => true
  | op :: rest => w.enabled op && SimpleWorld.admissible (w.step op) rest

/-- A `FilteredDispatcher`, or `none` once it has been destroyed, together
with the memory. -/
structure World (K Callable : Type) where
  mem : Memory Callable
  disp : Option (FilteredDispatcher K)

/-- What a client does with a `FilteredDispatcher`: the inherited
`createListener(callable)`, `createListener(key, callable)`, `dispatch(obj)`,
letting go of a listener handle, and destroying the dispatcher. -/
inductive Op (K Callable T : Type) where
  | subscribe (l : ListenerPtr) (callable : Callable)
  | subscribeKey (l : ListenerPtr) (key : K) (callable : Callable)
  | dispatch (obj : T)
  | drop (l : ListenerPtr)
  | destroy

/-- A fresh `FilteredDispatcher` in an empty memory. -/
def World.init (K Callable : Type) : World K Callable :=
  ⟨(FilteredDispatcher.create K (Memory.empty Callable)).1,
    some (FilteredDispatcher.create K (Memory.empty Callable)).2⟩

/-- The world after one client operation. -/
def World.step {K Callable T : Type} [DecidableEq K] (throws : Callable → T → Bool)
    (keyOf : T → K) (w : World K Callable) : Op K Callable T → World K Callable
  | Op.subscribe l f =>
    match w.disp with
    | some d =>
      (match d.toSimpleDispatcher.createListener w.mem l f with
       | some m => { w with mem := m }
       | none => w)
    | none => w
  | Op.subscribeKey l key f =>
    match w.disp with
    | some d =>
      (match d.createListener w.mem l key f with
       | some r => ⟨r.1, some r.2⟩
       | none => w)
    | none => w
  | Op.dispatch obj =>
    match w.disp with
    | some d => { w with disp := some (d.dispatch throws keyOf w.mem obj).1 }
    | none => w
  | Op.drop l =>
    match GuardedListener.destructor w.mem l with
    | some m => { w with mem := m }
    | none => w
  | Op.destroy =>
    match w.disp with
    | some d => ⟨d.destructor w.mem, none⟩
    | none => w

/-- The world after a sequence of client operations. -/
def World.run {K Callable T : Type} [DecidableEq K] (throws : Callable → T → Bool)
    (keyOf : T → K) (w : World K Callable) : List (Op K Callable T) → World K Callable
  | [] => w
  | op :: rest => World.run throws keyOf (w.step throws keyOf op) rest

/-- What the client and the allocator can do: member functions are called on
a dispatcher that exists, `new` returns an address at which no listener object
is alive, and only the handle of a live listener can be dropped. -/
def World.enabled {K Callable T : Type} (w : World K Callable) : Op K Callable T → Bool
  | Op.subscribe l _ => w.disp.isSome && (w.mem.listeners l).isNone
  | Op.subscribeKey l _ _ => w.disp.isSome && (w.mem.listeners l).isNone
  | Op.dispatch _ => w.disp.isSome
  | Op.drop l => (w.mem.listeners l).isSome
  | Op.destroy => w.disp.isSome

/-- Every operation of the sequence is enabled when its turn comes. -/
def World.admissible {K Callable T : Type} [DecidableEq K] (throws : Callable → T → Bool)
    (keyOf : T → K) (w : World K Callable) : List (Op K Callable T) → Bool
  | [] => true
  | op :: rest =>
    w.enabled op && World.admissible throws keyOf (w.step throws keyOf op) rest

/-- The `listeners_` of the core behind `c`, empty when there is none. -/
def Memory.listenersOf {Callable : Type} (m : Memory Callable) (c : CorePtr) :
    List ListenerPtr :=
  match m.cores c with
  | some core => core.listeners_
  | none => []

/-- The `listeners_` of the unfiltered core of a `FilteredDispatcher`. -/
def World.unfiltered {K Callable : Type} (w : World K Callable) : List ListenerPtr :=
  match w.disp with
  | some d => w.mem.listenersOf d.dispatcher_
  | none => []

/-- The `listeners_` of the core `filtered_` holds for `key`, empty when the
key has no entry or a null entry. -/
def World.keyed {K Callable : Type} [DecidableEq K] (w : World K Callable) (key : K) :
    List ListenerPtr :=
  match w.disp with
  | some d =>
    (match mapFind d.filtered_ key with
     | some (some c) => w.mem.listenersOf c
     | _ => [])
  | none => []

/-- The registrations a core holds, in the order of `listeners_`: each
listener address with the callable of the object alive there. -/
def Memory.regs {Callable : Type} (m : Memory Callable) (c : CorePtr) :
    List (ListenerPtr × Callable) :=
  (m.listenersOf c).filterMap (fun l => (m.listeners l).map (fun g => (l, g.callable_)))

/-- The call a dispatch of `obj` makes for a registration. -/
def toInvocation {Callable T : Type} (obj : T) (r : ListenerPtr × Callable) :
    Invocation Callable T :=
  ⟨r.1, r.2, obj⟩

/-- The consistency of a memory that the operations maintain: a core lists
only live listeners that were registered on it, lists none twice, and control
block identities below `nextCore` are the only ones in use. -/
structure Memory.Sound {Callable : Type} (m : Memory Callable) : Prop where
  live_of_mem : ∀ c core l, m.cores c = some core → l ∈ core.listeners_ →
    ∃ g, m.listeners l = some g ∧ g.guard_ = c
  nodup : ∀ c core, m.cores c = some core → core.listeners_.Nodup
  cores_lt : ∀ c core, m.cores c = some core → c < m.nextCore
  guard_lt : ∀ l g, m.listeners l = some g → g.guard_ < m.nextCore

/-- The round a traversal of the given registrations makes when every listed
listener is alive: the calls up to and including the first one that throws. -/
def roundOver {Callable T : Type} (throws : Callable → T → Bool) (obj : T) :
    List (ListenerPtr × Callable) → Round Callable T
  | [] => ⟨[], Outcome.returned⟩
  | r :: rest =>
    if throws r.2 obj then ⟨[toInvocation obj r], Outcome.thrown⟩
    else
      ⟨toInvocation obj r :: (roundOver throws obj rest).calls,
        (roundOver throws obj rest).outcome⟩

/-- The registrations held by the core of a `SimpleDispatcher`. -/
def SimpleWorld.regs {Callable : Type} (w : SimpleWorld Callable) :
    List (ListenerPtr × Callable) :=
  w.mem.regs w.disp.dispatcher_

/-- Consistency of a `SimpleDispatcher` with its memory: the memory is sound
and `dispatcher_` refers to a live core. -/
structure SimpleWorld.Sound {Callable : Type} (w : SimpleWorld Callable) : Prop where
  mem : w.mem.Sound
  core : (w.mem.cores w.disp.dispatcher_).isSome = true

/-- Follows the spec, "dropping it is the only way to unsubscribe": the handle
of the listener at `l` is dropped somewhere in the operations. -/
def SimpleSpec.dropped {Callable T : Type} (l : ListenerPtr) :
    List (SimpleOp Callable T) → Bool
  | [] => false
  | SimpleOp.drop x :: rest => x == l || SimpleSpec.dropped l rest
  | _ :: rest => SimpleSpec.dropped l rest

/-- Follows the spec, "every currently-registered listener ... in registration
order": the subscriptions of a history whose handle is not dropped later in
it, in the order in which they were made. -/
def SimpleSpec.registered {Callable T : Type} :
    List (SimpleOp Callable T) → List (ListenerPtr × Callable)
  | [] => []
  | SimpleOp.subscribe l f :: rest =>
    if SimpleSpec.dropped l rest then SimpleSpec.registered rest
    else (l, f) :: SimpleSpec.registered rest
  | _ :: rest => SimpleSpec.registered rest

/-- The registrations held by the unfiltered core of a `FilteredDispatcher`. -/
def World.unfilteredRegs {K Callable : Type} (w : World K Callable) :
    List (ListenerPtr × Callable) :=
  match w.disp with
  | some d => w.mem.regs d.dispatcher_
  | none => []

/-- The registrations held by the core of `key`; none when `filtered_` has no
core for the key. -/
def World.keyedRegs {K Callable : Type} [DecidableEq K] (w : World K Callable) (key : K) :
    List (ListenerPtr × Callable) :=
  match w.disp with
  | some d =>
    (match mapFind d.filtered_ key with
     | some (some c) => w.mem.regs c
     | _ => [])
  | none => []

/-- Consistency of a `FilteredDispatcher` with its memory: the memory is
sound, every `shared_ptr` the dispatcher holds refers to a live core, no core
is held twice, and every live core is held by the dispatcher. -/
structure World.Sound {K Callable : Type} [DecidableEq K] (w : World K Callable) : Prop where
  mem : w.mem.Sound
  base : ∀ d, w.disp = some d → (w.mem.cores d.dispatcher_).isSome = true
  keyed : ∀ d k c, w.disp = some d → mapFind d.filtered_ k = some (some c) →
    (w.mem.cores c).isSome = true
  keyed_ne_base : ∀ d k c, w.disp = some d → mapFind d.filtered_ k = some (some c) →
    c ≠ d.dispatcher_
  keyed_inj : ∀ d k1 k2 c, w.disp = some d → mapFind d.filtered_ k1 = some (some c) →
    mapFind d.filtered_ k2 = some (some c) → k1 = k2
  owned : ∀ c, (w.mem.cores c).isSome = true →
    ∃ d, w.disp = some d ∧ (c = d.dispatcher_ ∨ ∃ k, mapFind d.filtered_ k = some (some c))

/-- Follows the spec, "dropping it is the only way to unsubscribe": the handle
of the listener at `l` is dropped somewhere in the operations. -/
def FilteredSpec.dropped {K Callable T : Type} (l : ListenerPtr) :
    List (Op K Callable T) → Bool
  | [] => false
  | Op.drop x :: rest => x == l || FilteredSpec.dropped l rest
  | _ :: rest => FilteredSpec.dropped l rest

/-- Follows the spec, "all unfiltered listeners, in their registration order":
the unfiltered subscriptions of a history whose handle is not dropped later in
it, in the order in which they were made. -/
def FilteredSpec.unfiltered {K Callable T : Type} :
    List (Op K Callable T) → List (ListenerPtr × Callable)
  | [] => []
  | Op.subscribe l f :: rest =>
    if FilteredSpec.dropped l rest then FilteredSpec.unfiltered rest
    else (l, f) :: FilteredSpec.unfiltered rest
  | _ :: rest => FilteredSpec.unfiltered rest

/-- Follows the spec, "all listeners registered for K, in their registration
order": the subscriptions of a history made for `key` whose handle is not
dropped later in it, in the order in which they were made. -/
def FilteredSpec.keyed {K Callable T : Type} [DecidableEq K] (key : K) :
    List (Op K Callable T) → List (ListenerPtr × Callable)
  | [] => []
  | Op.subscribeKey l k f :: rest =>
    if k = key ∧ FilteredSpec.dropped l rest = false then
      (l, f) :: FilteredSpec.keyed key rest
    else FilteredSpec.keyed key rest
  | _ :: rest => FilteredSpec.keyed key rest

/-- The keys that have an entry in `filtered_`. -/
def World.keys {K Callable : Type} (w : World K Callable) : List K :=
  match w.disp with
  | some d => d.filtered_.map Prod.fst
  | none => []

/-- Follows the spec, "the set of distinct keys ever subscribed to": the keys
of the key-scoped subscriptions of a history. -/
def FilteredSpec.subscribedKeys {K Callable T : Type} :
    List (Op K Callable T) → List K
  | [] => []
  | Op.subscribeKey _ key _ :: rest => key :: FilteredSpec.subscribedKeys rest
  | _ :: rest => FilteredSpec.subscribedKeys rest

/-- The keys of the payloads dispatched in a history. -/
def FilteredSpec.dispatchedKeys {K Callable T : Type} (keyOf : T → K) :
    List (Op K Callable T) → List K
  | [] => []
  | Op.dispatch obj :: rest => keyOf obj :: FilteredSpec.dispatchedKeys keyOf rest
  | _ :: rest => FilteredSpec.dispatchedKeys keyOf rest

/-- The listener count of the core of a `SimpleDispatcher`: what
`dispatcher_->numListeners()` evaluates to. -/
def SimpleWorld.count {Callable : Type} (w : SimpleWorld Callable) : Option Nat :=
  (w.mem.cores w.disp.dispatcher_).map DispatcherBase.numListeners

/-- What one call of a driver operation yields: the value it returns, the
driver afterwards, and the frames and bus states it delivered during the call
through the two delegates it was constructed with (`frame_dispatcher_` and
`state_dispatcher_` converted to their `Callable`, that is, their `dispatch`). -/
structure DriverResult (D Frame State : Type) where
  value : Bool
  driver : D
  frames : List Frame
  states : List State

/-- The operations of the template parameter `Driver` that
`DispatchedInterface` forwards to.  The driver is not part of the source file;
`translateError` also yields the content of `str` after the call. -/
structure Driver (D Frame State : Type) where
  init : D → String → Nat → DriverResult D Frame State
  recover : D → DriverResult D Frame State
  send : D → Frame → DriverResult D Frame State
  translateError : D → Nat → String → DriverResult D Frame State × String

/-- The data members of `DispatchedInterface`: `driver_`, the
`FilteredDispatcher<const unsigned int, FrameListener> frame_dispatcher_` and
the `SimpleDispatcher<StateListener> state_dispatcher_`, each dispatcher with
the memory of its objects. -/
structure DispatchedInterface (D FrameDelegate StateDelegate : Type) where
  driver_ : D
  frame_dispatcher_ : World Nat FrameDelegate
  state_dispatcher_ : SimpleWorld StateDelegate

/-- The interface after a driver call: the driver as the call left it, and the
dispatchers after the deliveries the driver made. -/
def DispatchedInterface.deliver {D Frame State FrameDelegate StateDelegate : Type}
    (throws : FrameDelegate → Frame → Bool) (keyOf : Frame → Nat)
    (self : DispatchedInterface D FrameDelegate StateDelegate)
    (r : DriverResult D Frame State) : DispatchedInterface D FrameDelegate StateDelegate :=
  { driver_ := r.driver
    frame_dispatcher_ :=
      self.frame_dispatcher_.run throws keyOf (r.frames.map (fun fr => Op.dispatch fr))
    state_dispatcher_ :=
      self.state_dispatcher_.run
        (r.states.map (fun st => (SimpleOp.dispatch st : SimpleOp StateDelegate State))) }

/-- `DispatchedInterface::init`:
`if(driver_.init(device, bitrate)){ return true; } return false;`. -/
def DispatchedInterface.init {D Frame State FrameDelegate StateDelegate : Type}
    (drv : Driver D Frame State) (throws : FrameDelegate → Frame → Bool)
    (keyOf : Frame → Nat) (self : DispatchedInterface D FrameDelegate StateDelegate)
    (device : String) (bitrate : Nat) :
    DispatchedInterface D FrameDelegate StateDelegate × Bool :=
  if (drv.init self.driver_ device bitrate).value then
    (self.deliver throws keyOf (drv.init self.driver_ device bitrate), true)
  else (self.deliver throws keyOf (drv.init self.driver_ device bitrate), false)

/-- `DispatchedInterface::recover`: `return driver_.recover();`. -/
def DispatchedInterface.recover {D Frame State FrameDelegate StateDelegate : Type}
    (drv : Driver D Frame State) (throws : FrameDelegate → Frame → Bool)
    (keyOf : Frame → Nat) (self : DispatchedInterface D FrameDelegate StateDelegate) :
    DispatchedInterface D FrameDelegate StateDelegate × Bool :=
  (self.deliver throws keyOf (drv.recover self.driver_), (drv.recover self.driver_).value)

/-- `DispatchedInterface::send`: `return driver_.send(msg);`. -/
def DispatchedInterface.send {D Frame State FrameDelegate StateDelegate : Type}
    (drv : Driver D Frame State) (throws : FrameDelegate → Frame → Bool)
    (keyOf : Frame → Nat) (self : DispatchedInterface D FrameDelegate StateDelegate)
    (msg : Frame) : DispatchedInterface D FrameDelegate StateDelegate × Bool :=
  (self.deliver throws keyOf (drv.send self.driver_ msg), (drv.send self.driver_ msg).value)

/-- `DispatchedInterface::translateError`, whose body is the single expression
statement `driver_.translateError(internal_error, str);`: the driver writes
`str`, its result is dropped, and control reaches the closing brace without a
`return`.  The second component is `some b` when the function returns `b` to
its caller and `none` when it returns no value; the third is `str` after the
call. -/
def DispatchedInterface.translateError {D Frame State FrameDelegate StateDelegate : Type}
    (drv : Driver D Frame State) (throws : FrameDelegate → Frame → Bool)
    (keyOf : Frame → Nat) (self : DispatchedInterface D FrameDelegate StateDelegate)
    (internal_error : Nat) (str : String) :
    DispatchedInterface D FrameDelegate StateDelegate × Option Bool × String :=
  let _dropped := (drv.translateError self.driver_ internal_error str).1.value
  (self.deliver throws keyOf (drv.translateError self.driver_ internal_error str).1,
    none, (drv.translateError self.driver_ internal_error str).2)

/-! ## Theorems -/

/-! ### Memory updates and the association list -/

@[simp]
theorem upd_same {V : Type} (f : Nat → Option V) (a : Nat) (v : Option V) :
    upd f a v a = v := by
  simp [upd]

theorem upd_ne {V : Type} (f : Nat → Option V) {a b : Nat} (v : Option V) (h : b ≠ a) :
    upd f a v b = f b := by
  simp [upd, h]

theorem mapFind_mapSet_self {K V : Type} [DecidableEq K] (fm : List (K × V)) (key : K)
    (v : V) : mapFind (mapSet fm key v) key = some v := by
  induction fm with
  | nil => simp [mapSet, mapFind]
  | cons e rest ih =>
    obtain ⟨k, x⟩ := e
    by_cases h : k = key
    · simp [mapSet, mapFind, h]
    · simp [mapSet, mapFind, h, ih]

theorem mapFind_mapSet_ne {K V : Type} [DecidableEq K] (fm : List (K × V)) {key k2 : K}
    (v : V) (h : k2 ≠ key) : mapFind (mapSet fm key v) k2 = mapFind fm k2 := by
  induction fm with
  | nil =>
    have h2 : ¬ key = k2 := fun e => h e.symm
    simp [mapSet, mapFind, h2]
  | cons e rest ih =>
    obtain ⟨k, x⟩ := e
    by_cases hk : k = key
    · subst hk
      have h2 : ¬ k = k2 := fun e => h e.symm
      simp [mapSet, mapFind, h2]
    · by_cases hk2 : k = k2
      · subst hk2
        simp [mapSet, mapFind, hk]
      · simp [mapSet, mapFind, hk, hk2, ih]

theorem mapFind_mapIndex_self {K : Type} [DecidableEq K] (fm : List (K × Option CorePtr))
    (key : K) : mapFind (mapIndex fm key) key = some ((mapFind fm key).getD none) := by
  unfold mapIndex
  cases h : mapFind fm key with
  | none => simp [mapFind_mapSet_self]
  | some v => simp [h]

theorem mapFind_mapIndex_ne {K : Type} [DecidableEq K] (fm : List (K × Option CorePtr))
    {key k2 : K} (h : k2 ≠ key) : mapFind (mapIndex fm key) k2 = mapFind fm k2 := by
  unfold mapIndex
  cases hf : mapFind fm key with
  | none => simp [mapFind_mapSet_ne _ _ h]
  | some v => simp

theorem mapFind_mapIndex_core {K : Type} [DecidableEq K] (fm : List (K × Option CorePtr))
    (key k2 : K) (c : CorePtr) :
    mapFind (mapIndex fm key) k2 = some (some c) ↔ mapFind fm k2 = some (some c) := by
  by_cases h : k2 = key
  · subst h
    rw [mapFind_mapIndex_self]
    cases hf : mapFind fm k2 with
    | none => simp
    | some v => simp
  · rw [mapFind_mapIndex_ne _ h]

/-! ### The operations on the memory -/

theorem Memory.sound_empty (Callable : Type) : (Memory.empty Callable).Sound := by
  constructor <;> simp [Memory.empty]

theorem Memory.sound_newCore {Callable : Type} {m : Memory Callable} (h : m.Sound) :
    (m.newCore).1.Sound := by
  constructor
  · intro c core l hc hl
    by_cases hcn : c = m.nextCore
    · subst hcn
      simp [Memory.newCore] at hc
      subst hc
      simp at hl
    · simp [Memory.newCore, upd_ne _ _ hcn] at hc
      exact h.live_of_mem c core l hc hl
  · intro c core hc
    by_cases hcn : c = m.nextCore
    · subst hcn
      simp [Memory.newCore] at hc
      subst hc
      simp
    · simp [Memory.newCore, upd_ne _ _ hcn] at hc
      exact h.nodup c core hc
  · intro c core hc
    by_cases hcn : c = m.nextCore
    · subst hcn
      simp [Memory.newCore]
    · simp [Memory.newCore, upd_ne _ _ hcn] at hc
      have h1 : c < m.nextCore := h.cores_lt c core hc
      show c < m.nextCore + 1
      exact Nat.lt_succ_of_lt h1
  · intro l g hl
    simp [Memory.newCore] at hl
    have h1 : g.guard_ < m.nextCore := h.guard_lt l g hl
    show g.guard_ < m.nextCore + 1
    exact Nat.lt_succ_of_lt h1

theorem DispatcherBase.createListener_spec {Callable : Type} {m m1 : Memory Callable}
    {l : ListenerPtr} {c : CorePtr} {f : Callable}
    (h : DispatcherBase.createListener m l c f = some m1) :
    ∃ core, m.cores c = some core ∧
      m1.cores = upd m.cores c (some ⟨core.listeners_ ++ [l]⟩) ∧
      m1.listeners = upd m.listeners l (some ⟨f, c⟩) ∧ m1.nextCore = m.nextCore := by
  unfold DispatcherBase.createListener at h
  cases hc : m.cores c with
  | none => simp [hc] at h
  | some core =>
    simp [hc] at h
    subst h
    exact ⟨core, rfl, rfl, rfl, rfl⟩

theorem DispatcherBase.createListener_isSome {Callable : Type} (m : Memory Callable)
    (l : ListenerPtr) {c : CorePtr} (f : Callable) (h : (m.cores c).isSome) :
    (DispatcherBase.createListener m l c f).isSome := by
  unfold DispatcherBase.createListener
  cases hc : m.cores c with
  | none => simp [hc] at h
  | some core => simp

theorem GuardedListener.destructor_spec {Callable : Type} {m m1 : Memory Callable}
    {l : ListenerPtr} (h : GuardedListener.destructor m l = some m1) :
    ∃ g, m.listeners l = some g ∧ m1.listeners = upd m.listeners l none ∧
      m1.nextCore = m.nextCore ∧
      ((∃ d, m.cores g.guard_ = some d ∧
          m1.cores = upd m.cores g.guard_ (some (d.remove l))) ∨
        (m.cores g.guard_ = none ∧ m1.cores = m.cores)) := by
  unfold GuardedListener.destructor at h
  cases hl : m.listeners l with
  | none => simp [hl] at h
  | some g =>
    cases hc : m.cores g.guard_ with
    | none =>
      simp [hl, hc] at h
      subst h
      exact ⟨g, rfl, rfl, rfl, Or.inr ⟨hc, rfl⟩⟩
    | some d =>
      simp [hl, hc] at h
      subst h
      exact ⟨g, rfl, rfl, rfl, Or.inl ⟨d, hc, rfl⟩⟩

theorem GuardedListener.destructor_isSome {Callable : Type} (m : Memory Callable)
    {l : ListenerPtr} (h : (m.listeners l).isSome) :
    (GuardedListener.destructor m l).isSome := by
  unfold GuardedListener.destructor
  cases hl : m.listeners l with
  | none => simp [hl] at h
  | some g =>
    cases hc : m.cores g.guard_ <;> simp [hc]

theorem DispatcherBase.createListener_sound {Callable : Type} {m m1 : Memory Callable}
    {l : ListenerPtr} {c : CorePtr} {f : Callable} (hs : m.Sound)
    (hfresh : m.listeners l = none)
    (h : DispatcherBase.createListener m l c f = some m1) : m1.Sound := by
  obtain ⟨core, hc, hcores, hlis, hnext⟩ := DispatcherBase.createListener_spec h
  have hnot : ∀ c2 core2, m.cores c2 = some core2 → l ∉ core2.listeners_ := by
    intro c2 core2 h2 hmem
    obtain ⟨g, hg, _⟩ := hs.live_of_mem c2 core2 l h2 hmem
    rw [hfresh] at hg
    exact Option.noConfusion hg
  constructor
  · intro c2 core2 x hc2 hx
    rw [hcores] at hc2
    rw [hlis]
    by_cases hcc : c2 = c
    · subst hcc
      simp at hc2
      subst hc2
      simp at hx
      rcases hx with hx | hx
      · obtain ⟨g, hg, hgc⟩ := hs.live_of_mem c2 core x hc hx
        have hxl : x ≠ l := by
          intro e
          subst e
          exact hnot c2 core hc hx
        exact ⟨g, by rw [upd_ne _ _ hxl]; exact hg, hgc⟩
      · subst hx
        exact ⟨⟨f, c2⟩, by simp, rfl⟩
    · rw [upd_ne _ _ hcc] at hc2
      obtain ⟨g, hg, hgc⟩ := hs.live_of_mem c2 core2 x hc2 hx
      have hxl : x ≠ l := by
        intro e
        subst e
        exact hnot c2 core2 hc2 hx
      exact ⟨g, by rw [upd_ne _ _ hxl]; exact hg, hgc⟩
  · intro c2 core2 hc2
    rw [hcores] at hc2
    by_cases hcc : c2 = c
    · subst hcc
      simp at hc2
      subst hc2
      simp only
      rw [List.nodup_append]
      refine ⟨hs.nodup c2 core hc, List.nodup_singleton l, ?_⟩
      intro a ha hb
      simp at hb
      subst hb
      exact hnot c2 core hc ha
    · rw [upd_ne _ _ hcc] at hc2
      exact hs.nodup c2 core2 hc2
  · intro c2 core2 hc2
    rw [hcores] at hc2
    rw [hnext]
    by_cases hcc : c2 = c
    · subst hcc
      exact hs.cores_lt c2 core hc
    · rw [upd_ne _ _ hcc] at hc2
      exact hs.cores_lt c2 core2 hc2
  · intro x g hx
    rw [hlis] at hx
    rw [hnext]
    by_cases hxl : x = l
    · subst hxl
      simp at hx
      subst hx
      exact hs.cores_lt c core hc
    · rw [upd_ne _ _ hxl] at hx
      exact hs.guard_lt x g hx

theorem GuardedListener.destructor_sound {Callable : Type} {m m1 : Memory Callable}
    {l : ListenerPtr} (hs : m.Sound) (h : GuardedListener.destructor m l = some m1) :
    m1.Sound := by
  obtain ⟨g, hg, hlis, hnext, hcase⟩ := GuardedListener.destructor_spec h
  have hsub : ∀ c2 core2, m1.cores c2 = some core2 →
      ∃ core, m.cores c2 = some core ∧ core2 = core.remove l := by
    intro c2 core2 hc2
    rcases hcase with ⟨d, hd, hcores⟩ | ⟨hd, hcores⟩
    · rw [hcores] at hc2
      by_cases hcc : c2 = g.guard_
      · subst hcc
        simp at hc2
        exact ⟨d, hd, hc2.symm⟩
      · rw [upd_ne _ _ hcc] at hc2
        refine ⟨core2, hc2, ?_⟩
        have hnot : l ∉ core2.listeners_ := by
          intro hmem
          obtain ⟨g2, hg2, hgc⟩ := hs.live_of_mem c2 core2 l hc2 hmem
          rw [hg] at hg2
          cases hg2
          exact hcc hgc.symm
        cases core2 with
        | mk ls =>
          simp only [DispatcherBase.remove, DispatcherBase.mk.injEq]
          symm
          rw [List.filter_eq_self]
          intro a ha
          have : a ≠ l := fun e => hnot (e ▸ ha)
          simpa using this
    · rw [hcores] at hc2
      refine ⟨core2, hc2, ?_⟩
      have hnot : l ∉ core2.listeners_ := by
        intro hmem
        obtain ⟨g2, hg2, hgc⟩ := hs.live_of_mem c2 core2 l hc2 hmem
        rw [hg] at hg2
        cases hg2
        rw [hgc] at hd
        rw [hd] at hc2
        exact Option.noConfusion hc2
      cases core2 with
      | mk ls =>
        simp only [DispatcherBase.remove, DispatcherBase.mk.injEq]
        symm
        rw [List.filter_eq_self]
        intro a ha
        have : a ≠ l := fun e => hnot (e ▸ ha)
        simpa using this
  constructor
  · intro c2 core2 x hc2 hx
    obtain ⟨core, hcore, he⟩ := hsub c2 core2 hc2
    subst he
    simp [DispatcherBase.remove] at hx
    obtain ⟨g2, hg2, hgc⟩ := hs.live_of_mem c2 core x hcore hx.1
    exact ⟨g2, by rw [hlis, upd_ne _ _ hx.2]; exact hg2, hgc⟩
  · intro c2 core2 hc2
    obtain ⟨core, hcore, he⟩ := hsub c2 core2 hc2
    subst he
    exact (hs.nodup c2 core hcore).filter _
  · intro c2 core2 hc2
    obtain ⟨core, hcore, _⟩ := hsub c2 core2 hc2
    rw [hnext]
    exact hs.cores_lt c2 core hcore
  · intro x g2 hx
    rw [hlis] at hx
    rw [hnext]
    by_cases hxl : x = l
    · subst hxl
      simp at hx
    · rw [upd_ne _ _ hxl] at hx
      exact hs.guard_lt x g2 hx

theorem Memory.listenersOf_eq {Callable : Type} {m : Memory Callable} {c : CorePtr}
    {core : DispatcherBase} (h : m.cores c = some core) :
    m.listenersOf c = core.listeners_ := by
  simp [Memory.listenersOf, h]

theorem Memory.Sound.live {Callable : Type} {m : Memory Callable} (hs : m.Sound)
    {c : CorePtr} {l : ListenerPtr} (h : l ∈ m.listenersOf c) :
    ∃ g, m.listeners l = some g ∧ g.guard_ = c := by
  unfold Memory.listenersOf at h
  cases hc : m.cores c with
  | none => simp [hc] at h
  | some core =>
    simp [hc] at h
    exact hs.live_of_mem c core l hc h

theorem Memory.Sound.nodup_listenersOf {Callable : Type} {m : Memory Callable} (hs : m.Sound)
    (c : CorePtr) : (m.listenersOf c).Nodup := by
  unfold Memory.listenersOf
  cases hc : m.cores c with
  | none => simp
  | some core => exact hs.nodup c core hc

theorem Memory.regs_map_fst {Callable : Type} {m : Memory Callable} (hs : m.Sound)
    (c : CorePtr) : (m.regs c).map Prod.fst = m.listenersOf c := by
  unfold Memory.regs
  have key : ∀ L : List ListenerPtr, (∀ l ∈ L, ∃ g, m.listeners l = some g) →
      (L.filterMap (fun l => (m.listeners l).map (fun g => (l, g.callable_)))).map Prod.fst
        = L := by
    intro L
    induction L with
    | nil => simp
    | cons a rest ih =>
      intro hall
      obtain ⟨g, hg⟩ := hall a (by simp)
      rw [List.filterMap_cons]
      simp only [hg, Option.map_some']
      rw [List.map_cons, ih (fun l hl => hall l (List.mem_cons_of_mem _ hl))]
  apply key
  intro l hl
  obtain ⟨g, hg, _⟩ := hs.live hl
  exact ⟨g, hg⟩

theorem DispatcherBase.createListener_listenersOf {Callable : Type} {m m1 : Memory Callable}
    {l : ListenerPtr} {c : CorePtr} {f : Callable}
    (h : DispatcherBase.createListener m l c f = some m1) (c2 : CorePtr) :
    m1.listenersOf c2 = if c2 = c then m.listenersOf c ++ [l] else m.listenersOf c2 := by
  obtain ⟨core, hc, hcores, _, _⟩ := DispatcherBase.createListener_spec h
  by_cases hcc : c2 = c
  · subst hcc
    simp [Memory.listenersOf, hcores, hc]
  · simp [Memory.listenersOf, hcores, upd_ne _ _ hcc, hcc]

theorem DispatcherBase.createListener_cores_isSome {Callable : Type} {m m1 : Memory Callable}
    {l : ListenerPtr} {c : CorePtr} {f : Callable}
    (h : DispatcherBase.createListener m l c f = some m1) (c2 : CorePtr) :
    (m1.cores c2).isSome = (m.cores c2).isSome := by
  obtain ⟨core, hc, hcores, _, _⟩ := DispatcherBase.createListener_spec h
  by_cases hcc : c2 = c
  · subst hcc
    simp [hcores, hc]
  · simp [hcores, upd_ne _ _ hcc]

theorem GuardedListener.destructor_cores_isSome {Callable : Type} {m m1 : Memory Callable}
    {l : ListenerPtr} (h : GuardedListener.destructor m l = some m1) (c2 : CorePtr) :
    (m1.cores c2).isSome = (m.cores c2).isSome := by
  obtain ⟨g, _, _, _, hcase⟩ := GuardedListener.destructor_spec h
  rcases hcase with ⟨d, hd, hcores⟩ | ⟨_, hcores⟩
  · by_cases hcc : c2 = g.guard_
    · subst hcc
      simp [hcores, hd]
    · simp [hcores, upd_ne _ _ hcc]
  · rw [hcores]

theorem GuardedListener.destructor_listenersOf {Callable : Type} {m m1 : Memory Callable}
    {l : ListenerPtr} (hs : m.Sound) (h : GuardedListener.destructor m l = some m1)
    (c2 : CorePtr) :
    m1.listenersOf c2 = (m.listenersOf c2).filter (fun x => x != l) := by
  obtain ⟨g, hg, _, _, hcase⟩ := GuardedListener.destructor_spec h
  have hid : c2 ≠ g.guard_ → (m.listenersOf c2).filter (fun x => x != l) = m.listenersOf c2 := by
    intro hcc
    rw [List.filter_eq_self]
    intro a ha
    have : a ≠ l := by
      intro e
      subst e
      obtain ⟨g2, hg2, hgc⟩ := hs.live ha
      rw [hg] at hg2
      cases hg2
      exact hcc hgc.symm
    simpa using this
  rcases hcase with ⟨d, hd, hcores⟩ | ⟨hd, hcores⟩
  · by_cases hcc : c2 = g.guard_
    · subst hcc
      simp [Memory.listenersOf, hcores, hd, DispatcherBase.remove]
    · rw [hid hcc]
      simp [Memory.listenersOf, hcores, upd_ne _ _ hcc]
  · by_cases hcc : c2 = g.guard_
    · subst hcc
      simp [Memory.listenersOf, hcores, hd]
    · rw [hid hcc]
      simp [Memory.listenersOf, hcores]

theorem DispatcherBase.createListener_regs {Callable : Type} {m m1 : Memory Callable}
    {l : ListenerPtr} {c : CorePtr} {f : Callable} (hs : m.Sound)
    (hfresh : m.listeners l = none)
    (h : DispatcherBase.createListener m l c f = some m1) (c2 : CorePtr) :
    m1.regs c2 = if c2 = c then m.regs c ++ [(l, f)] else m.regs c2 := by
  obtain ⟨core, hc, hcores, hlis, _⟩ := DispatcherBase.createListener_spec h
  have hold : ∀ c3, (m.listenersOf c3).filterMap
        (fun x => (m1.listeners x).map (fun g => (x, g.callable_))) = m.regs c3 := by
    intro c3
    unfold Memory.regs
    apply List.filterMap_congr
    intro x hx
    have hxl : x ≠ l := by
      intro e
      subst e
      obtain ⟨g, hg, _⟩ := hs.live hx
      rw [hfresh] at hg
      exact Option.noConfusion hg
    rw [hlis, upd_ne _ _ hxl]
  have hl : m1.listenersOf c2 = _ := DispatcherBase.createListener_listenersOf h c2
  by_cases hcc : c2 = c
  · subst hcc
    simp only [if_true] at hl ⊢
    show (m1.listenersOf c2).filterMap _ = _
    rw [hl, List.filterMap_append, hold c2]
    simp [hlis]
  · simp only [hcc, if_false] at hl ⊢
    show (m1.listenersOf c2).filterMap _ = _
    rw [hl, hold c2]

theorem GuardedListener.destructor_regs {Callable : Type} {m m1 : Memory Callable}
    {l : ListenerPtr} (hs : m.Sound) (h : GuardedListener.destructor m l = some m1)
    (c2 : CorePtr) :
    m1.regs c2 = (m.regs c2).filter (fun r => r.1 != l) := by
  obtain ⟨g, hg, hlis, _, _⟩ := GuardedListener.destructor_spec h
  show (m1.listenersOf c2).filterMap _ = _
  rw [GuardedListener.destructor_listenersOf hs h c2]
  unfold Memory.regs
  generalize m.listenersOf c2 = L
  induction L with
  | nil => simp
  | cons a rest ih =>
    by_cases hal : a = l
    · subst hal
      simp [hg, ih]
    · have hm1 : m1.listeners a = m.listeners a := by rw [hlis, upd_ne _ _ hal]
      cases hm : m.listeners a with
      | none => simp [List.filter_cons, hal, hm1, hm, ih]
      | some g2 => simp [List.filter_cons, hal, hm1, hm, ih]

/-! ### Dispatch rounds -/

theorem dispatch_loop_eq_roundOver {Callable T : Type} (throws : Callable → T → Bool)
    (m : Memory Callable) (obj : T) (L : List ListenerPtr)
    (hall : ∀ l ∈ L, ∃ g, m.listeners l = some g) :
    dispatch_loop throws m obj L = roundOver throws obj
      (L.filterMap (fun l => (m.listeners l).map (fun g => (l, g.callable_)))) := by
  induction L with
  | nil => simp [dispatch_loop, roundOver]
  | cons a rest ih =>
    obtain ⟨g, hg⟩ := hall a (by simp)
    have ih2 := ih (fun l hl => hall l (List.mem_cons_of_mem _ hl))
    rw [List.filterMap_cons]
    simp only [hg, Option.map_some']
    unfold dispatch_loop roundOver
    simp only [hg]
    by_cases ht : throws g.callable_ obj = true
    · simp [ht, toInvocation]
    · simp [ht, toInvocation, ih2]

theorem DispatcherBase.dispatch_nolock_eq {Callable T : Type} (throws : Callable → T → Bool)
    {m : Memory Callable} (hs : m.Sound) {c : CorePtr} {core : DispatcherBase}
    (hc : m.cores c = some core) (obj : T) :
    core.dispatch_nolock throws m obj = roundOver throws obj (m.regs c) := by
  unfold DispatcherBase.dispatch_nolock Memory.regs
  rw [Memory.listenersOf_eq hc]
  apply dispatch_loop_eq_roundOver
  intro l hl
  obtain ⟨g, hg, _⟩ := hs.live_of_mem c core l hc hl
  exact ⟨g, hg⟩

theorem roundOver_of_no_throw {Callable T : Type} (throws : Callable → T → Bool) (obj : T)
    (regs : List (ListenerPtr × Callable)) (h : ∀ r ∈ regs, throws r.2 obj = false) :
    roundOver throws obj regs = ⟨regs.map (toInvocation obj), Outcome.returned⟩ := by
  induction regs with
  | nil => simp [roundOver]
  | cons r rest ih =>
    have h1 := h r (by simp)
    have ih2 := ih (fun x hx => h x (List.mem_cons_of_mem _ hx))
    simp [roundOver, h1, ih2]

theorem roundOver_of_throw {Callable T : Type} (throws : Callable → T → Bool) (obj : T)
    (pre post : List (ListenerPtr × Callable)) (x : ListenerPtr × Callable)
    (h : ∀ r ∈ pre, throws r.2 obj = false) (hx : throws x.2 obj = true) :
    roundOver throws obj (pre ++ x :: post)
      = ⟨(pre ++ [x]).map (toInvocation obj), Outcome.thrown⟩ := by
  induction pre with
  | nil => simp [roundOver, hx]
  | cons r rest ih =>
    have h1 := h r (by simp)
    have ih2 := ih (fun y hy => h y (List.mem_cons_of_mem _ hy))
    simp only [List.cons_append, roundOver, h1, List.append_eq]
    rw [ih2]
    simp

theorem roundOver_append {Callable T : Type} (throws : Callable → T → Bool) (obj : T)
    (A B : List (ListenerPtr × Callable)) :
    roundOver throws obj (A ++ B) =
      match (roundOver throws obj A).outcome with
      | Outcome.returned =>
        ⟨(roundOver throws obj A).calls ++ (roundOver throws obj B).calls,
          (roundOver throws obj B).outcome⟩
      | _ => roundOver throws obj A := by
  induction A with
  | nil => simp [roundOver]
  | cons r rest ih =>
    by_cases ht : throws r.2 obj = true
    · simp [roundOver, ht]
    · simp only [List.cons_append, roundOver, ht, List.append_eq]
      rw [ih]
      cases ho : (roundOver throws obj rest).outcome <;> simp [ho]

theorem roundOver_outcome_ne_fault {Callable T : Type} (throws : Callable → T → Bool)
    (obj : T) (regs : List (ListenerPtr × Callable)) :
    (roundOver throws obj regs).outcome ≠ Outcome.fault := by
  induction regs with
  | nil => simp [roundOver]
  | cons r rest ih =>
    by_cases ht : throws r.2 obj = true
    · simp [roundOver, ht]
    · simpa [roundOver, ht] using ih

theorem roundOver_calls_initial {Callable T : Type} (throws : Callable → T → Bool)
    (obj : T) (regs : List (ListenerPtr × Callable)) :
    (roundOver throws obj regs).calls <+: regs.map (toInvocation obj) := by
  induction regs with
  | nil => simp [roundOver]
  | cons r rest ih =>
    by_cases ht : throws r.2 obj = true
    · simp [roundOver, ht, List.prefix_cons_inj, List.nil_prefix]
    · simpa [roundOver, ht, List.prefix_cons_inj] using ih

theorem roundOver_listener_mem {Callable T : Type} (throws : Callable → T → Bool)
    (obj : T) (regs : List (ListenerPtr × Callable)) {i : Invocation Callable T}
    (h : i ∈ (roundOver throws obj regs).calls) : i.listener ∈ regs.map Prod.fst := by
  have hp := (roundOver_calls_initial throws obj regs).subset h
  simp only [List.mem_map] at hp ⊢
  obtain ⟨r, hr, he⟩ := hp
  exact ⟨r, hr, by rw [← he]; rfl⟩

/-! ### The `SimpleDispatcher` over a history of operations -/

theorem SimpleWorld.simple_sound_init (Callable : Type) : (SimpleWorld.init Callable).Sound := by
  constructor
  · exact Memory.sound_newCore (Memory.sound_empty Callable)
  · simp [SimpleWorld.init, SimpleDispatcher.create, Memory.newCore]

theorem SimpleWorld.simple_step_subscribe {Callable : Type} (T : Type) {w : SimpleWorld Callable}
    (hs : w.Sound) (l : ListenerPtr) (f : Callable) :
    ∃ m1, DispatcherBase.createListener w.mem l w.disp.dispatcher_ f = some m1 ∧
      w.step (SimpleOp.subscribe l f : SimpleOp Callable T) = { w with mem := m1 } := by
  have h := DispatcherBase.createListener_isSome w.mem l f hs.core
  obtain ⟨m1, hm1⟩ := Option.isSome_iff_exists.mp h
  refine ⟨m1, hm1, ?_⟩
  simp [SimpleWorld.step, SimpleDispatcher.createListener, hm1]

theorem SimpleWorld.simple_step_drop {Callable : Type} (T : Type) {w : SimpleWorld Callable}
    {l : ListenerPtr} (hl : (w.mem.listeners l).isSome = true) :
    ∃ m1, GuardedListener.destructor w.mem l = some m1 ∧
      w.step (SimpleOp.drop l : SimpleOp Callable T) = { w with mem := m1 } := by
  have h := GuardedListener.destructor_isSome w.mem hl
  obtain ⟨m1, hm1⟩ := Option.isSome_iff_exists.mp h
  refine ⟨m1, hm1, ?_⟩
  simp [SimpleWorld.step, hm1]

theorem SimpleWorld.simple_step_sound {Callable T : Type} {w : SimpleWorld Callable}
    (hs : w.Sound) {op : SimpleOp Callable T} (he : w.enabled op = true) :
    (w.step op).Sound := by
  cases op with
  | subscribe l f =>
    obtain ⟨m1, hm1, hstep⟩ := SimpleWorld.simple_step_subscribe T hs l f
    rw [hstep]
    have hfresh : w.mem.listeners l = none := by
      simpa [SimpleWorld.enabled] using he
    constructor
    · exact DispatcherBase.createListener_sound hs.mem hfresh hm1
    · show (m1.cores w.disp.dispatcher_).isSome = true
      rw [DispatcherBase.createListener_cores_isSome hm1]
      exact hs.core
  | drop l =>
    have hl : (w.mem.listeners l).isSome = true := by
      simpa [SimpleWorld.enabled] using he
    obtain ⟨m1, hm1, hstep⟩ := SimpleWorld.simple_step_drop T hl
    rw [hstep]
    constructor
    · exact GuardedListener.destructor_sound hs.mem hm1
    · show (m1.cores w.disp.dispatcher_).isSome = true
      rw [GuardedListener.destructor_cores_isSome hm1]
      exact hs.core
  | dispatch obj => exact hs

theorem SimpleWorld.simple_run_sound {Callable T : Type} {w : SimpleWorld Callable}
    (hs : w.Sound) (ops : List (SimpleOp Callable T)) (ha : w.admissible ops = true) :
    (w.run ops).Sound := by
  induction ops generalizing w with
  | nil => exact hs
  | cons op rest ih =>
    simp only [SimpleWorld.admissible, Bool.and_eq_true] at ha
    exact ih (SimpleWorld.simple_step_sound hs ha.1) ha.2

theorem SimpleWorld.step_regs {Callable T : Type} {w : SimpleWorld Callable}
    (hs : w.Sound) {op : SimpleOp Callable T} (he : w.enabled op = true) :
    (w.step op).regs =
      match op with
      | SimpleOp.subscribe l f => w.regs ++ [(l, f)]
      | SimpleOp.drop l => w.regs.filter (fun r => r.1 != l)
      | SimpleOp.dispatch _ => w.regs := by
  cases op with
  | subscribe l f =>
    obtain ⟨m1, hm1, hstep⟩ := SimpleWorld.simple_step_subscribe T hs l f
    rw [hstep]
    have hfresh : w.mem.listeners l = none := by
      simpa [SimpleWorld.enabled] using he
    show m1.regs w.disp.dispatcher_ = _
    rw [DispatcherBase.createListener_regs hs.mem hfresh hm1]
    simp [SimpleWorld.regs]
  | drop l =>
    have hl : (w.mem.listeners l).isSome = true := by
      simpa [SimpleWorld.enabled] using he
    obtain ⟨m1, hm1, hstep⟩ := SimpleWorld.simple_step_drop T hl
    rw [hstep]
    show m1.regs w.disp.dispatcher_ = _
    rw [GuardedListener.destructor_regs hs.mem hm1]
    rfl
  | dispatch obj => rfl

theorem SimpleWorld.simple_regs_run {Callable T : Type} {w : SimpleWorld Callable}
    (hs : w.Sound) (ops : List (SimpleOp Callable T)) (ha : w.admissible ops = true) :
    (w.run ops).regs =
      w.regs.filter (fun r => !SimpleSpec.dropped r.1 ops) ++ SimpleSpec.registered ops := by
  induction ops generalizing w with
  | nil => simp [SimpleWorld.run, SimpleSpec.dropped, SimpleSpec.registered]
  | cons op rest ih =>
    simp only [SimpleWorld.admissible, Bool.and_eq_true] at ha
    have h1 := ih (SimpleWorld.simple_step_sound hs ha.1) ha.2
    have h2 := SimpleWorld.step_regs hs ha.1
    simp only [SimpleWorld.run]
    rw [h1, h2]
    cases op with
    | subscribe l f =>
      simp only [SimpleSpec.dropped, SimpleSpec.registered, List.filter_append]
      by_cases hd : SimpleSpec.dropped l rest = true
      · simp [hd, List.filter_cons]
      · simp [hd, List.filter_cons]
    | drop l =>
      simp only [SimpleSpec.dropped, SimpleSpec.registered, List.filter_filter]
      congr 1
      apply List.filter_congr
      intro r _
      by_cases hrl : r.1 = l
      · simp [hrl]
      · have e1 : (r.1 != l) = true := by simpa using hrl
        have e2 : (l == r.1) = false := by
          simpa using (fun e : l = r.1 => hrl e.symm)
        rw [e1, e2]
        simp
    | dispatch obj =>
      simp only [SimpleSpec.dropped, SimpleSpec.registered]

theorem SimpleWorld.simple_dispatch_eq {Callable T : Type} (throws : Callable → T → Bool)
    {w : SimpleWorld Callable} (hs : w.Sound) (obj : T) :
    w.disp.dispatch throws w.mem obj = roundOver throws obj w.regs := by
  obtain ⟨core, hc⟩ := Option.isSome_iff_exists.mp hs.core
  unfold SimpleDispatcher.dispatch
  simp only [hc]
  exact DispatcherBase.dispatch_nolock_eq throws hs.mem hc obj

/-! ### The `FilteredDispatcher`: one operation -/

theorem World.sound_init (K Callable : Type) [DecidableEq K] :
    (World.init K Callable).Sound := by
  constructor
  · exact Memory.sound_newCore (Memory.sound_empty Callable)
  · intro d hd
    simp only [World.init, Option.some.injEq] at hd
    subst hd
    simp [World.init, FilteredDispatcher.create, SimpleDispatcher.create, Memory.newCore]
  · intro d k c hd hk
    simp only [World.init, Option.some.injEq] at hd
    subst hd
    simp [FilteredDispatcher.create, mapFind] at hk
  · intro d k c hd hk
    simp only [World.init, Option.some.injEq] at hd
    subst hd
    simp [FilteredDispatcher.create, mapFind] at hk
  · intro d k1 k2 c hd hk
    simp only [World.init, Option.some.injEq] at hd
    subst hd
    simp [FilteredDispatcher.create, mapFind] at hk
  · intro c hc
    refine ⟨_, rfl, Or.inl ?_⟩
    by_cases h0 : c = 0
    · subst h0
      rfl
    · simp [World.init, FilteredDispatcher.create, SimpleDispatcher.create, Memory.newCore,
        Memory.empty, upd_ne _ _ h0] at hc

theorem World.Sound.of_mem {K Callable : Type} [DecidableEq K] {w : World K Callable}
    (hs : w.Sound) {m1 : Memory Callable} (hm : m1.Sound)
    (hc : ∀ c, (m1.cores c).isSome = (w.mem.cores c).isSome) :
    World.Sound { w with mem := m1 } := by
  constructor
  · exact hm
  · intro d hd
    show (m1.cores d.dispatcher_).isSome = true
    rw [hc]
    exact hs.base d hd
  · intro d k c hd hk
    show (m1.cores c).isSome = true
    rw [hc]
    exact hs.keyed d k c hd hk
  · exact hs.keyed_ne_base
  · exact hs.keyed_inj
  · intro c hcs
    have hcs2 : (m1.cores c).isSome = true := hcs
    rw [hc] at hcs2
    exact hs.owned c hcs2

theorem World.Sound.of_map {K Callable : Type} [DecidableEq K] {w : World K Callable}
    (hs : w.Sound) {d : FilteredDispatcher K} (hd : w.disp = some d)
    {fm : List (K × Option CorePtr)}
    (hfm : ∀ k c, mapFind fm k = some (some c) ↔ mapFind d.filtered_ k = some (some c)) :
    World.Sound { w with disp := some { d with filtered_ := fm } } := by
  constructor
  · exact hs.mem
  · intro d2 hd2
    simp only [Option.some.injEq] at hd2
    subst hd2
    exact hs.base d hd
  · intro d2 k c hd2 hk
    simp only [Option.some.injEq] at hd2
    subst hd2
    exact hs.keyed d k c hd ((hfm k c).mp hk)
  · intro d2 k c hd2 hk
    simp only [Option.some.injEq] at hd2
    subst hd2
    exact hs.keyed_ne_base d k c hd ((hfm k c).mp hk)
  · intro d2 k1 k2 c hd2 hk1 hk2
    simp only [Option.some.injEq] at hd2
    subst hd2
    exact hs.keyed_inj d k1 k2 c hd ((hfm k1 c).mp hk1) ((hfm k2 c).mp hk2)
  · intro c hcs
    obtain ⟨d2, hd2, hown⟩ := hs.owned c hcs
    rw [hd] at hd2
    simp only [Option.some.injEq] at hd2
    subst hd2
    refine ⟨_, rfl, ?_⟩
    rcases hown with h | ⟨k, hk⟩
    · exact Or.inl h
    · exact Or.inr ⟨k, (hfm k c).mpr hk⟩

theorem World.Sound.attach {K Callable : Type} [DecidableEq K] {w : World K Callable}
    (hs : w.Sound) {d : FilteredDispatcher K} (hd : w.disp = some d) {key : K}
    (hnone : ∀ c, mapFind d.filtered_ key ≠ some (some c))
    {fm : List (K × Option CorePtr)}
    (hkey : mapFind fm key = some (some w.mem.nextCore))
    (hother : ∀ k2, k2 ≠ key → mapFind fm k2 = mapFind d.filtered_ k2) :
    World.Sound ⟨(w.mem.newCore).1, some { d with filtered_ := fm }⟩ := by
  have hold : ∀ c, (w.mem.cores c).isSome = true → c ≠ w.mem.nextCore := by
    intro c hc e
    obtain ⟨core, hcore⟩ := Option.isSome_iff_exists.mp hc
    have := hs.mem.cores_lt c core hcore
    rw [e] at this
    exact Nat.lt_irrefl _ this
  have hkeep : ∀ c, (w.mem.cores c).isSome = true →
      ((w.mem.newCore).1.cores c).isSome = true := by
    intro c hc
    show (upd w.mem.cores w.mem.nextCore _ c).isSome = true
    rw [upd_ne _ _ (hold c hc)]
    exact hc
  have hnew : ((w.mem.newCore).1.cores w.mem.nextCore).isSome = true := by
    simp [Memory.newCore]
  have hfind : ∀ k c, mapFind fm k = some (some c) →
      (k = key ∧ c = w.mem.nextCore) ∨ (k ≠ key ∧ mapFind d.filtered_ k = some (some c)) := by
    intro k c hk
    by_cases hkk : k = key
    · subst hkk
      rw [hkey] at hk
      simp only [Option.some.injEq] at hk
      exact Or.inl ⟨rfl, hk.symm⟩
    · rw [hother k hkk] at hk
      exact Or.inr ⟨hkk, hk⟩
  constructor
  · exact Memory.sound_newCore hs.mem
  · intro d2 hd2
    simp only [Option.some.injEq] at hd2
    subst hd2
    exact hkeep _ (hs.base d hd)
  · intro d2 k c hd2 hk
    simp only [Option.some.injEq] at hd2
    subst hd2
    rcases hfind k c hk with ⟨_, hc⟩ | ⟨_, hk2⟩
    · rw [hc]
      exact hnew
    · exact hkeep _ (hs.keyed d k c hd hk2)
  · intro d2 k c hd2 hk
    simp only [Option.some.injEq] at hd2
    subst hd2
    rcases hfind k c hk with ⟨_, hc⟩ | ⟨_, hk2⟩
    · rw [hc]
      exact (hold _ (hs.base d hd)).symm
    · exact hs.keyed_ne_base d k c hd hk2
  · intro d2 k1 k2 c hd2 hk1 hk2
    simp only [Option.some.injEq] at hd2
    subst hd2
    rcases hfind k1 c hk1 with ⟨h1, hc1⟩ | ⟨h1, hf1⟩
    · rcases hfind k2 c hk2 with ⟨h2, _⟩ | ⟨_, hf2⟩
      · rw [h1, h2]
      · exact absurd hc1 (hold c (hs.keyed d k2 c hd hf2))
    · rcases hfind k2 c hk2 with ⟨_, hc2⟩ | ⟨_, hf2⟩
      · exact absurd hc2 (hold c (hs.keyed d k1 c hd hf1))
      · exact hs.keyed_inj d k1 k2 c hd hf1 hf2
  · intro c hcs
    refine ⟨_, rfl, ?_⟩
    by_cases hcn : c = w.mem.nextCore
    · exact Or.inr ⟨key, by rw [hcn]; exact hkey⟩
    · have hcs2 : (upd w.mem.cores w.mem.nextCore (some ⟨[]⟩) c).isSome = true := hcs
      rw [upd_ne _ _ hcn] at hcs2
      obtain ⟨d2, hd2, hown⟩ := hs.owned c hcs2
      rw [hd] at hd2
      simp only [Option.some.injEq] at hd2
      subst hd2
      rcases hown with h | ⟨k, hk⟩
      · exact Or.inl h
      · refine Or.inr ⟨k, ?_⟩
        have hkk : k ≠ key := by
          intro e
          subst e
          exact hnone c hk
        rw [hother k hkk]
        exact hk

theorem mem_ownedCores {K : Type} [DecidableEq K] {fm : List (K × Option CorePtr)} {k : K}
    {c : CorePtr} (h : mapFind fm k = some (some c)) : c ∈ ownedCores fm := by
  induction fm with
  | nil => simp [mapFind] at h
  | cons e rest ih =>
    obtain ⟨k1, v⟩ := e
    by_cases hk : k1 = k
    · simp only [mapFind, hk, if_true, Option.some.injEq] at h
      subst h
      simp [ownedCores]
    · simp only [mapFind, hk, if_false] at h
      have := ih h
      unfold ownedCores at this ⊢
      rw [List.filterMap_cons]
      cases v with
      | none => exact this
      | some c2 => exact List.mem_cons_of_mem _ this

theorem World.Sound.destroyed {K Callable : Type} [DecidableEq K] {w : World K Callable}
    (hs : w.Sound) {d : FilteredDispatcher K} (hd : w.disp = some d) :
    World.Sound ⟨d.destructor w.mem, (none : Option (FilteredDispatcher K))⟩ := by
  have hsub : ∀ c core, (d.destructor w.mem).cores c = some core →
      w.mem.cores c = some core := by
    intro c core hc
    simp only [FilteredDispatcher.destructor] at hc
    by_cases hcond : c ∈ ownedCores d.filtered_ ∨ c = d.dispatcher_
    · simp [hcond] at hc
    · simpa [hcond] using hc
  constructor
  · constructor
    · intro c core l hc hl
      exact hs.mem.live_of_mem c core l (hsub c core hc) hl
    · intro c core hc
      exact hs.mem.nodup c core (hsub c core hc)
    · intro c core hc
      exact hs.mem.cores_lt c core (hsub c core hc)
    · exact hs.mem.guard_lt
  · intro d2 hd2
    exact Option.noConfusion hd2
  · intro d2 k c hd2
    exact Option.noConfusion hd2
  · intro d2 k c hd2
    exact Option.noConfusion hd2
  · intro d2 k1 k2 c hd2
    exact Option.noConfusion hd2
  · intro c hcs
    exfalso
    obtain ⟨core, hcore⟩ := Option.isSome_iff_exists.mp hcs
    have hlive := hsub c core hcore
    obtain ⟨d2, hd2, hown⟩ := hs.owned c (by rw [hlive]; rfl)
    rw [hd] at hd2
    simp only [Option.some.injEq] at hd2
    subst hd2
    have hcond : c ∈ ownedCores d.filtered_ ∨ c = d.dispatcher_ := by
      rcases hown with h | ⟨k, hk⟩
      · exact Or.inr h
      · exact Or.inl (mem_ownedCores hk)
    have hc2 : (d.destructor w.mem).cores c = some core := hcore
    simp [FilteredDispatcher.destructor, hcond] at hc2

theorem FilteredDispatcher.createListener_key_spec {K Callable : Type} [DecidableEq K]
    (m : Memory Callable) (d : FilteredDispatcher K) (l : ListenerPtr) (key : K)
    (f : Callable)
    (hlive : ∀ c, mapFind d.filtered_ key = some (some c) → (m.cores c).isSome = true) :
    ∃ c m0 m1 fm, DispatcherBase.createListener m0 l c f = some m1 ∧
      d.createListener m l key f = some (m1, { d with filtered_ := fm }) ∧
      mapFind fm key = some (some c) ∧
      (∀ k2, k2 ≠ key → mapFind fm k2 = mapFind d.filtered_ k2) ∧
      ((mapFind d.filtered_ key = some (some c) ∧ m0 = m) ∨
        ((∀ c2, mapFind d.filtered_ key ≠ some (some c2)) ∧ m0 = (m.newCore).1 ∧
          c = m.nextCore)) := by
  by_cases hex : ∃ c, mapFind d.filtered_ key = some (some c)
  · obtain ⟨c, hf⟩ := hex
    obtain ⟨m1, hm1⟩ := Option.isSome_iff_exists.mp
      (DispatcherBase.createListener_isSome m l f (hlive c hf))
    refine ⟨c, m, m1, mapIndex d.filtered_ key, hm1, ?_, ?_, ?_, Or.inl ⟨hf, rfl⟩⟩
    · unfold FilteredDispatcher.createListener
      simp only [mapFind_mapIndex_self, hf]
      simp [hm1]
    · rw [mapFind_mapIndex_self, hf]
      rfl
    · intro k2 hk2
      exact mapFind_mapIndex_ne _ hk2
  · have hne : ∀ c2, mapFind d.filtered_ key ≠ some (some c2) := fun c2 h => hex ⟨c2, h⟩
    have hnew : ((m.newCore).1.cores (m.newCore).2).isSome = true := by
      simp [Memory.newCore]
    obtain ⟨mN, hmN⟩ := Option.isSome_iff_exists.mp
      (DispatcherBase.createListener_isSome (m.newCore).1 l f hnew)
    refine ⟨m.nextCore, (m.newCore).1, mN,
      mapSet (mapIndex d.filtered_ key) key (some m.nextCore), hmN, ?_,
      mapFind_mapSet_self _ _ _, ?_, Or.inr ⟨hne, rfl, rfl⟩⟩
    · unfold FilteredDispatcher.createListener
      cases hv : mapFind d.filtered_ key with
      | none =>
        simp only [mapFind_mapIndex_self, hv, Option.getD_none]
        rw [hmN]
        rfl
      | some p =>
        cases p with
        | none =>
          simp only [mapFind_mapIndex_self, hv, Option.getD_some]
          rw [hmN]
          rfl
        | some c2 => exact absurd hv (hne c2)
    · intro k2 hk2
      rw [mapFind_mapSet_ne _ _ hk2, mapFind_mapIndex_ne _ hk2]

theorem FilteredDispatcher.dispatch_fst {K Callable T : Type} [DecidableEq K]
    (throws : Callable → T → Bool) (keyOf : T → K) (m : Memory Callable)
    (d : FilteredDispatcher K) (obj : T) :
    (d.dispatch throws keyOf m obj).1
      = { d with filtered_ := mapIndex d.filtered_ (keyOf obj) } := by
  unfold FilteredDispatcher.dispatch
  simp only []
  split <;> rfl

theorem World.step_subscribe {K Callable T : Type} [DecidableEq K]
    (throws : Callable → T → Bool) (keyOf : T → K) {w : World K Callable} (hs : w.Sound)
    {d : FilteredDispatcher K} (hd : w.disp = some d) (l : ListenerPtr) (f : Callable) :
    ∃ m1, DispatcherBase.createListener w.mem l d.dispatcher_ f = some m1 ∧
      w.step throws keyOf (Op.subscribe l f) = { w with mem := m1 } := by
  obtain ⟨m1, hm1⟩ := Option.isSome_iff_exists.mp
    (DispatcherBase.createListener_isSome w.mem l f (hs.base d hd))
  refine ⟨m1, hm1, ?_⟩
  simp [World.step, hd, SimpleDispatcher.createListener, hm1]

theorem World.step_subscribeKey {K Callable T : Type} [DecidableEq K]
    (throws : Callable → T → Bool) (keyOf : T → K) {w : World K Callable} (hs : w.Sound)
    {d : FilteredDispatcher K} (hd : w.disp = some d) (l : ListenerPtr) (key : K)
    (f : Callable) :
    ∃ c m0 m1 fm, DispatcherBase.createListener m0 l c f = some m1 ∧
      w.step throws keyOf (Op.subscribeKey l key f)
        = ⟨m1, some { d with filtered_ := fm }⟩ ∧
      mapFind fm key = some (some c) ∧
      (∀ k2, k2 ≠ key → mapFind fm k2 = mapFind d.filtered_ k2) ∧
      ((mapFind d.filtered_ key = some (some c) ∧ m0 = w.mem) ∨
        ((∀ c2, mapFind d.filtered_ key ≠ some (some c2)) ∧ m0 = (w.mem.newCore).1 ∧
          c = w.mem.nextCore)) := by
  obtain ⟨c, m0, m1, fm, h1, h2, h3, h4, h5⟩ :=
    FilteredDispatcher.createListener_key_spec w.mem d l key f
      (fun c hc => hs.keyed d key c hd hc)
  refine ⟨c, m0, m1, fm, h1, ?_, h3, h4, h5⟩
  simp [World.step, hd, h2]

theorem World.step_dispatch {K Callable T : Type} [DecidableEq K]
    (throws : Callable → T → Bool) (keyOf : T → K) {w : World K Callable}
    {d : FilteredDispatcher K} (hd : w.disp = some d) (obj : T) :
    w.step throws keyOf (Op.dispatch obj)
      = { w with disp := some { d with filtered_ := mapIndex d.filtered_ (keyOf obj) } } := by
  simp [World.step, hd, FilteredDispatcher.dispatch_fst]

theorem World.step_drop {K Callable T : Type} [DecidableEq K]
    (throws : Callable → T → Bool) (keyOf : T → K) {w : World K Callable}
    {l : ListenerPtr} (hl : (w.mem.listeners l).isSome = true) :
    ∃ m1, GuardedListener.destructor w.mem l = some m1 ∧
      w.step throws keyOf (Op.drop l) = { w with mem := m1 } := by
  obtain ⟨m1, hm1⟩ := Option.isSome_iff_exists.mp (GuardedListener.destructor_isSome w.mem hl)
  refine ⟨m1, hm1, ?_⟩
  simp [World.step, hm1]

theorem World.step_destroy {K Callable T : Type} [DecidableEq K]
    (throws : Callable → T → Bool) (keyOf : T → K) {w : World K Callable}
    {d : FilteredDispatcher K} (hd : w.disp = some d) :
    w.step throws keyOf (Op.destroy) = ⟨d.destructor w.mem, none⟩ := by
  simp [World.step, hd]

theorem World.enabled_disp {K Callable T : Type} {w : World K Callable}
    {op : Op K Callable T} (he : w.enabled op = true) (hop : ∀ l, op ≠ Op.drop l) :
    ∃ d, w.disp = some d := by
  cases op with
  | subscribe l f =>
    simp only [World.enabled, Bool.and_eq_true] at he
    exact Option.isSome_iff_exists.mp he.1
  | subscribeKey l key f =>
    simp only [World.enabled, Bool.and_eq_true] at he
    exact Option.isSome_iff_exists.mp he.1
  | dispatch obj => exact Option.isSome_iff_exists.mp he
  | drop l => exact absurd rfl (hop l)
  | destroy => exact Option.isSome_iff_exists.mp he

theorem World.step_sound {K Callable T : Type} [DecidableEq K]
    (throws : Callable → T → Bool) (keyOf : T → K) {w : World K Callable} (hs : w.Sound)
    {op : Op K Callable T} (he : w.enabled op = true) :
    (w.step throws keyOf op).Sound := by
  cases op with
  | subscribe l f =>
    obtain ⟨d, hd⟩ := World.enabled_disp he (by simp)
    obtain ⟨m1, hm1, hstep⟩ := World.step_subscribe throws keyOf hs hd l f
    rw [hstep]
    have hfresh : w.mem.listeners l = none := by
      simp only [World.enabled, Bool.and_eq_true] at he
      simpa using he.2
    exact hs.of_mem (DispatcherBase.createListener_sound hs.mem hfresh hm1)
      (DispatcherBase.createListener_cores_isSome hm1)
  | subscribeKey l key f =>
    obtain ⟨d, hd⟩ := World.enabled_disp he (by simp)
    obtain ⟨c, m0, m1, fm, hm1, hstep, hkey, hother, hcase⟩ :=
      World.step_subscribeKey throws keyOf hs hd l key f
    rw [hstep]
    have hfresh : w.mem.listeners l = none := by
      simp only [World.enabled, Bool.and_eq_true] at he
      simpa using he.2
    rcases hcase with ⟨hold, hm0⟩ | ⟨hnone, hm0, hc⟩
    · subst hm0
      have h1 : World.Sound { w with disp := some { d with filtered_ := fm } } := by
        apply hs.of_map hd
        intro k c2
        by_cases hk : k = key
        · subst hk
          rw [hkey, hold]
        · rw [hother k hk]
      exact h1.of_mem (DispatcherBase.createListener_sound hs.mem hfresh hm1)
        (DispatcherBase.createListener_cores_isSome hm1)
    · subst hm0
      subst hc
      have h1 := hs.attach hd hnone hkey hother
      exact h1.of_mem (DispatcherBase.createListener_sound h1.mem hfresh hm1)
        (DispatcherBase.createListener_cores_isSome hm1)
  | dispatch obj =>
    obtain ⟨d, hd⟩ := World.enabled_disp he (by simp)
    rw [World.step_dispatch throws keyOf hd obj]
    exact hs.of_map hd (fun k c => mapFind_mapIndex_core _ _ _ _)
  | drop l =>
    obtain ⟨m1, hm1, hstep⟩ := World.step_drop throws keyOf he
    rw [hstep]
    exact hs.of_mem (GuardedListener.destructor_sound hs.mem hm1)
      (GuardedListener.destructor_cores_isSome hm1)
  | destroy =>
    obtain ⟨d, hd⟩ := World.enabled_disp he (by simp)
    rw [World.step_destroy throws keyOf hd]
    exact hs.destroyed hd

theorem World.run_sound {K Callable T : Type} [DecidableEq K]
    (throws : Callable → T → Bool) (keyOf : T → K) {w : World K Callable} (hs : w.Sound)
    (ops : List (Op K Callable T)) (ha : w.admissible throws keyOf ops = true) :
    (w.run throws keyOf ops).Sound := by
  induction ops generalizing w with
  | nil => exact hs
  | cons op rest ih =>
    simp only [World.admissible, Bool.and_eq_true] at ha
    exact ih (World.step_sound throws keyOf hs ha.1) ha.2

theorem Memory.regs_newCore {Callable : Type} (m : Memory Callable) (c2 : CorePtr) :
    (m.newCore).1.regs c2 = if c2 = m.nextCore then [] else m.regs c2 := by
  by_cases h : c2 = m.nextCore
  · subst h
    simp [Memory.regs, Memory.listenersOf, Memory.newCore]
  · simp [Memory.regs, Memory.listenersOf, Memory.newCore, upd_ne _ _ h, h]

theorem World.step_unfilteredRegs {K Callable T : Type} [DecidableEq K]
    (throws : Callable → T → Bool) (keyOf : T → K) {w : World K Callable} (hs : w.Sound)
    {op : Op K Callable T} (he : w.enabled op = true) :
    (w.step throws keyOf op).unfilteredRegs =
      match op with
      | Op.subscribe l f => w.unfilteredRegs ++ [(l, f)]
      | Op.drop l => w.unfilteredRegs.filter (fun r => r.1 != l)
      | Op.destroy => []
      | _ => w.unfilteredRegs := by
  have hs2 := World.step_sound throws keyOf hs he
  cases op with
  | subscribe l f =>
    obtain ⟨d, hd⟩ := World.enabled_disp he (by simp)
    obtain ⟨m1, hm1, hstep⟩ := World.step_subscribe throws keyOf hs hd l f
    have hfresh : w.mem.listeners l = none := by
      simp only [World.enabled, Bool.and_eq_true] at he
      simpa using he.2
    rw [hstep]
    simp only [World.unfilteredRegs, hd]
    rw [DispatcherBase.createListener_regs hs.mem hfresh hm1]
    simp
  | subscribeKey l key f =>
    obtain ⟨d, hd⟩ := World.enabled_disp he (by simp)
    obtain ⟨c, m0, m1, fm, hm1, hstep, hkey, hother, hcase⟩ :=
      World.step_subscribeKey throws keyOf hs hd l key f
    have hfresh : w.mem.listeners l = none := by
      simp only [World.enabled, Bool.and_eq_true] at he
      simpa using he.2
    rw [hstep] at hs2 ⊢
    have hne : d.dispatcher_ ≠ c := fun e =>
      hs2.keyed_ne_base _ key c rfl hkey e.symm
    simp only [World.unfilteredRegs, hd]
    rcases hcase with ⟨_, hm0⟩ | ⟨_, hm0, hc⟩
    · subst hm0
      rw [DispatcherBase.createListener_regs hs.mem hfresh hm1]
      simp [hne]
    · subst hm0
      rw [DispatcherBase.createListener_regs (Memory.sound_newCore hs.mem) hfresh hm1]
      rw [if_neg hne, Memory.regs_newCore, if_neg (by rw [← hc]; exact hne)]
  | dispatch obj =>
    obtain ⟨d, hd⟩ := World.enabled_disp he (by simp)
    rw [World.step_dispatch throws keyOf hd obj]
    simp [World.unfilteredRegs, hd]
  | drop l =>
    obtain ⟨m1, hm1, hstep⟩ := World.step_drop throws keyOf he
    rw [hstep]
    simp only [World.unfilteredRegs]
    cases hd : w.disp with
    | none => simp
    | some d =>
      simp only []
      rw [GuardedListener.destructor_regs hs.mem hm1]
  | destroy =>
    obtain ⟨d, hd⟩ := World.enabled_disp he (by simp)
    rw [World.step_destroy throws keyOf hd]
    simp [World.unfilteredRegs]

theorem World.step_keyedRegs {K Callable T : Type} [DecidableEq K]
    (throws : Callable → T → Bool) (keyOf : T → K) {w : World K Callable} (hs : w.Sound)
    {op : Op K Callable T} (he : w.enabled op = true) (k : K) :
    (w.step throws keyOf op).keyedRegs k =
      match op with
      | Op.subscribeKey l key f =>
        if key = k then w.keyedRegs k ++ [(l, f)] else w.keyedRegs k
      | Op.drop l => (w.keyedRegs k).filter (fun r => r.1 != l)
      | Op.destroy => []
      | _ => w.keyedRegs k := by
  have hs2 := World.step_sound throws keyOf hs he
  cases op with
  | subscribe l f =>
    obtain ⟨d, hd⟩ := World.enabled_disp he (by simp)
    obtain ⟨m1, hm1, hstep⟩ := World.step_subscribe throws keyOf hs hd l f
    have hfresh : w.mem.listeners l = none := by
      simp only [World.enabled, Bool.and_eq_true] at he
      simpa using he.2
    rw [hstep]
    simp only [World.keyedRegs, hd]
    cases hk : mapFind d.filtered_ k with
    | none => rfl
    | some p =>
      cases p with
      | none => rfl
      | some c =>
        simp only []
        rw [DispatcherBase.createListener_regs hs.mem hfresh hm1,
          if_neg (hs.keyed_ne_base d k c hd hk)]
  | subscribeKey l key f =>
    obtain ⟨d, hd⟩ := World.enabled_disp he (by simp)
    obtain ⟨c, m0, m1, fm, hm1, hstep, hkey, hother, hcase⟩ :=
      World.step_subscribeKey throws keyOf hs hd l key f
    have hfresh : w.mem.listeners l = none := by
      simp only [World.enabled, Bool.and_eq_true] at he
      simpa using he.2
    rw [hstep] at hs2 ⊢
    have hm0s : m0.Sound := by
      rcases hcase with ⟨_, hm0⟩ | ⟨_, hm0, _⟩
      · rw [hm0]
        exact hs.mem
      · rw [hm0]
        exact Memory.sound_newCore hs.mem
    have hfresh0 : m0.listeners l = none := by
      rcases hcase with ⟨_, hm0⟩ | ⟨_, hm0, _⟩
      · rw [hm0]
        exact hfresh
      · rw [hm0]
        exact hfresh
    have hregs := DispatcherBase.createListener_regs hm0s hfresh0 hm1
    have hm0c : m0.regs c = w.keyedRegs key := by
      simp only [World.keyedRegs, hd]
      rcases hcase with ⟨hold, hm0⟩ | ⟨hnone, hm0, hc⟩
      · rw [hold, hm0]
      · rw [hm0, hc, Memory.regs_newCore, if_pos rfl]
        cases hk : mapFind d.filtered_ key with
        | none => rfl
        | some p =>
          cases p with
          | none => rfl
          | some c2 => exact absurd hk (hnone c2)
    by_cases hkk : key = k
    · subst hkk
      simp only [World.keyedRegs, hkey, if_true]
      rw [hregs c, if_pos rfl, hm0c]
      simp only [World.keyedRegs, hd]
    · simp only [if_neg hkk]
      have hkk2 : k ≠ key := fun e => hkk e.symm
      simp only [World.keyedRegs, hd, hother k hkk2]
      cases hk : mapFind d.filtered_ k with
      | none => rfl
      | some p =>
        cases p with
        | none => rfl
        | some c2 =>
          simp only []
          have hfk : mapFind fm k = some (some c2) := by rw [hother k hkk2, hk]
          have hcc : c2 ≠ c := by
            intro e
            rw [e] at hfk
            exact hkk2 (hs2.keyed_inj _ k key c rfl hfk hkey)
          rw [hregs c2, if_neg hcc]
          rcases hcase with ⟨_, hm0⟩ | ⟨_, hm0, hc⟩
          · rw [hm0]
          · rw [hm0, Memory.regs_newCore, if_neg (by rw [← hc]; exact hcc)]
  | dispatch obj =>
    obtain ⟨d, hd⟩ := World.enabled_disp he (by simp)
    rw [World.step_dispatch throws keyOf hd obj]
    simp only [World.keyedRegs, hd]
    by_cases hkk : k = keyOf obj
    · subst hkk
      rw [mapFind_mapIndex_self]
      cases hk : mapFind d.filtered_ (keyOf obj) with
      | none => rfl
      | some p => rfl
    · rw [mapFind_mapIndex_ne _ hkk]
  | drop l =>
    obtain ⟨m1, hm1, hstep⟩ := World.step_drop throws keyOf he
    rw [hstep]
    simp only [World.keyedRegs]
    cases hd : w.disp with
    | none => simp
    | some d =>
      simp only []
      cases hk : mapFind d.filtered_ k with
      | none => rfl
      | some p =>
        cases p with
        | none => rfl
        | some c =>
          simp only []
          rw [GuardedListener.destructor_regs hs.mem hm1]
  | destroy =>
    obtain ⟨d, hd⟩ := World.enabled_disp he (by simp)
    rw [World.step_destroy throws keyOf hd]
    simp [World.keyedRegs]

/-! ### The `FilteredDispatcher` over a history of operations -/

theorem World.step_disp_none {K Callable T : Type} [DecidableEq K]
    (throws : Callable → T → Bool) (keyOf : T → K) {w : World K Callable}
    (h : w.disp = none) (op : Op K Callable T) : (w.step throws keyOf op).disp = none := by
  cases op with
  | subscribe l f => simp [World.step, h]
  | subscribeKey l key f => simp [World.step, h]
  | dispatch obj => simp [World.step, h]
  | drop l =>
    simp only [World.step]
    cases GuardedListener.destructor w.mem l <;> exact h
  | destroy => simp [World.step, h]

theorem World.run_disp_none {K Callable T : Type} [DecidableEq K]
    (throws : Callable → T → Bool) (keyOf : T → K) {w : World K Callable}
    (h : w.disp = none) (ops : List (Op K Callable T)) :
    (w.run throws keyOf ops).disp = none := by
  induction ops generalizing w with
  | nil => exact h
  | cons op rest ih => exact ih (World.step_disp_none throws keyOf h op)

theorem World.regs_run {K Callable T : Type} [DecidableEq K]
    (throws : Callable → T → Bool) (keyOf : T → K) {w : World K Callable} (hs : w.Sound)
    (ops : List (Op K Callable T)) (ha : w.admissible throws keyOf ops = true)
    (hfin : (w.run throws keyOf ops).disp.isSome = true) :
    (w.run throws keyOf ops).unfilteredRegs =
        w.unfilteredRegs.filter (fun r => !FilteredSpec.dropped r.1 ops)
          ++ FilteredSpec.unfiltered ops ∧
      ∀ k, (w.run throws keyOf ops).keyedRegs k =
        (w.keyedRegs k).filter (fun r => !FilteredSpec.dropped r.1 ops)
          ++ FilteredSpec.keyed k ops := by
  induction ops generalizing w with
  | nil =>
    simp [World.run, FilteredSpec.dropped, FilteredSpec.unfiltered, FilteredSpec.keyed]
  | cons op rest ih =>
    simp only [World.admissible, Bool.and_eq_true] at ha
    simp only [World.run] at hfin ⊢
    obtain ⟨ih1, ih2⟩ := ih (World.step_sound throws keyOf hs ha.1) ha.2 hfin
    have hu := World.step_unfilteredRegs throws keyOf hs ha.1
    have hk := World.step_keyedRegs throws keyOf hs ha.1
    have hdrop : ∀ (l : ListenerPtr) (L : List (ListenerPtr × Callable)),
        List.filter (fun r => !FilteredSpec.dropped r.1 rest)
            (List.filter (fun r => r.1 != l) L)
          = List.filter (fun r => !FilteredSpec.dropped r.1
              ((Op.drop l : Op K Callable T) :: rest)) L := by
      intro l L
      rw [List.filter_filter]
      apply List.filter_congr
      intro r _
      by_cases hrl : r.1 = l
      · simp [hrl, FilteredSpec.dropped]
      · have e1 : (r.1 != l) = true := by simpa using hrl
        have e2 : (l == r.1) = false := by
          simpa using (fun e : l = r.1 => hrl e.symm)
        simp only [FilteredSpec.dropped]
        rw [e1, e2]
        simp
    cases op with
    | subscribe l f =>
      refine ⟨?_, fun k => ?_⟩
      · rw [ih1, hu]
        simp only [FilteredSpec.dropped, FilteredSpec.unfiltered, List.filter_append]
        by_cases hd : FilteredSpec.dropped l rest = true
        · simp [hd, List.filter_cons]
        · simp [hd, List.filter_cons]
      · rw [ih2 k, hk k]
        simp only [FilteredSpec.dropped, FilteredSpec.keyed]
    | subscribeKey l key f =>
      refine ⟨?_, fun k => ?_⟩
      · rw [ih1, hu]
        simp only [FilteredSpec.dropped, FilteredSpec.unfiltered]
      · rw [ih2 k, hk k]
        simp only [FilteredSpec.dropped, FilteredSpec.keyed]
        by_cases hkk : key = k
        · by_cases hd : FilteredSpec.dropped l rest = true
          · simp [hkk, hd, List.filter_cons]
          · simp [hkk, hd, List.filter_cons]
        · simp [hkk]
    | dispatch obj =>
      refine ⟨?_, fun k => ?_⟩
      · rw [ih1, hu]
        simp only [FilteredSpec.dropped, FilteredSpec.unfiltered]
      · rw [ih2 k, hk k]
        simp only [FilteredSpec.dropped, FilteredSpec.keyed]
    | drop l =>
      refine ⟨?_, fun k => ?_⟩
      · rw [ih1, hu]
        simp only [hdrop, FilteredSpec.unfiltered]
      · rw [ih2 k, hk k]
        simp only [hdrop, FilteredSpec.keyed]
    | destroy =>
      exfalso
      obtain ⟨d, hd⟩ := World.enabled_disp ha.1 (by simp)
      have hnone : (w.step throws keyOf (Op.destroy : Op K Callable T)).disp = none := by
        rw [World.step_destroy throws keyOf hd]
      rw [World.run_disp_none throws keyOf hnone rest] at hfin
      simp at hfin

theorem World.dispatch_eq {K Callable T : Type} [DecidableEq K]
    (throws : Callable → T → Bool) (keyOf : T → K) {w : World K Callable} (hs : w.Sound)
    {d : FilteredDispatcher K} (hd : w.disp = some d) (obj : T) :
    (d.dispatch throws keyOf w.mem obj).2
      = roundOver throws obj (w.keyedRegs (keyOf obj) ++ w.unfilteredRegs) := by
  obtain ⟨core, hcore⟩ := Option.isSome_iff_exists.mp (hs.base d hd)
  have hbase : core.dispatch_nolock throws w.mem obj
      = roundOver throws obj w.unfilteredRegs := by
    rw [DispatcherBase.dispatch_nolock_eq throws hs.mem hcore obj]
    simp [World.unfilteredRegs, hd]
  have hkeyed : (match mapFind (mapIndex d.filtered_ (keyOf obj)) (keyOf obj) with
      | some (some ptr) =>
        (match w.mem.cores ptr with
         | some core => core.dispatch_nolock throws w.mem obj
         | none => (⟨[], Outcome.fault⟩ : Round Callable T))
      | _ => ⟨[], Outcome.returned⟩)
      = roundOver throws obj (w.keyedRegs (keyOf obj)) := by
    rw [mapFind_mapIndex_self]
    simp only [World.keyedRegs, hd]
    cases hk : mapFind d.filtered_ (keyOf obj) with
    | none => simp [roundOver]
    | some p =>
      cases p with
      | none => simp [roundOver]
      | some c =>
        obtain ⟨core2, hcore2⟩ := Option.isSome_iff_exists.mp (hs.keyed d _ c hd hk)
        simp only [Option.getD_some, hcore2]
        exact DispatcherBase.dispatch_nolock_eq throws hs.mem hcore2 obj
  unfold FilteredDispatcher.dispatch
  simp only [hkeyed, hcore, hbase]
  rw [roundOver_append]
  cases ho : (roundOver throws obj (w.keyedRegs (keyOf obj))).outcome <;> simp [ho]

/-! ### Histories: splitting, and what the specification lists contain -/

theorem SimpleWorld.simple_run_append {Callable T : Type} (w : SimpleWorld Callable)
    (A B : List (SimpleOp Callable T)) : w.run (A ++ B) = (w.run A).run B := by
  induction A generalizing w with
  | nil => rfl
  | cons op rest ih => exact ih (w.step op)

theorem SimpleWorld.simple_admissible_append {Callable T : Type} (w : SimpleWorld Callable)
    (A B : List (SimpleOp Callable T)) :
    w.admissible (A ++ B) = (w.admissible A && (w.run A).admissible B) := by
  induction A generalizing w with
  | nil => simp [SimpleWorld.admissible, SimpleWorld.run]
  | cons op rest ih =>
    simp only [List.cons_append, SimpleWorld.admissible, SimpleWorld.run, List.append_eq,
      Bool.and_assoc]
    rw [ih]

theorem World.run_append {K Callable T : Type} [DecidableEq K]
    (throws : Callable → T → Bool) (keyOf : T → K) (w : World K Callable)
    (A B : List (Op K Callable T)) :
    w.run throws keyOf (A ++ B) = (w.run throws keyOf A).run throws keyOf B := by
  induction A generalizing w with
  | nil => rfl
  | cons op rest ih => exact ih (w.step throws keyOf op)

theorem World.admissible_append {K Callable T : Type} [DecidableEq K]
    (throws : Callable → T → Bool) (keyOf : T → K) (w : World K Callable)
    (A B : List (Op K Callable T)) :
    w.admissible throws keyOf (A ++ B)
      = (w.admissible throws keyOf A && (w.run throws keyOf A).admissible throws keyOf B) := by
  induction A generalizing w with
  | nil => simp [World.admissible, World.run]
  | cons op rest ih =>
    simp only [List.cons_append, World.admissible, World.run, List.append_eq, Bool.and_assoc]
    rw [ih]

theorem SimpleWorld.regs_init (Callable : Type) : (SimpleWorld.init Callable).regs = [] := by
  simp [SimpleWorld.regs, SimpleWorld.init, SimpleDispatcher.create, Memory.newCore,
    Memory.regs, Memory.listenersOf]

theorem World.unfilteredRegs_init (K Callable : Type) :
    (World.init K Callable).unfilteredRegs = [] := by
  simp [World.unfilteredRegs, World.init, FilteredDispatcher.create, SimpleDispatcher.create,
    Memory.newCore, Memory.regs, Memory.listenersOf]

theorem World.keyedRegs_init (K Callable : Type) [DecidableEq K] (k : K) :
    (World.init K Callable).keyedRegs k = [] := by
  simp [World.keyedRegs, World.init, FilteredDispatcher.create, mapFind]

theorem SimpleWorld.simple_regs_run_init {Callable T : Type} (ops : List (SimpleOp Callable T))
    (ha : (SimpleWorld.init Callable).admissible ops = true) :
    ((SimpleWorld.init Callable).run ops).regs = SimpleSpec.registered ops := by
  rw [SimpleWorld.simple_regs_run (SimpleWorld.simple_sound_init Callable) ops ha, SimpleWorld.regs_init]
  simp

theorem World.regs_run_init {K Callable T : Type} [DecidableEq K]
    (throws : Callable → T → Bool) (keyOf : T → K) (ops : List (Op K Callable T))
    (ha : (World.init K Callable).admissible throws keyOf ops = true)
    (hfin : ((World.init K Callable).run throws keyOf ops).disp.isSome = true) :
    ((World.init K Callable).run throws keyOf ops).unfilteredRegs
        = FilteredSpec.unfiltered ops ∧
      ∀ k, ((World.init K Callable).run throws keyOf ops).keyedRegs k
        = FilteredSpec.keyed k ops := by
  obtain ⟨h1, h2⟩ := World.regs_run throws keyOf (World.sound_init K Callable) ops ha hfin
  refine ⟨?_, fun k => ?_⟩
  · rw [h1, World.unfilteredRegs_init]
    simp
  · rw [h2 k, World.keyedRegs_init]
    simp

theorem SimpleSpec.mem_registered {Callable T : Type} {ops : List (SimpleOp Callable T)}
    {r : ListenerPtr × Callable} (h : r ∈ SimpleSpec.registered ops) :
    SimpleOp.subscribe r.1 r.2 ∈ ops := by
  induction ops with
  | nil => simp [SimpleSpec.registered] at h
  | cons op rest ih =>
    cases op with
    | subscribe l f =>
      simp only [SimpleSpec.registered] at h
      by_cases hd : SimpleSpec.dropped l rest = true
      · simp only [hd, if_true] at h
        exact List.mem_cons_of_mem _ (ih h)
      · simp only [hd] at h
        rcases List.mem_cons.mp h with h1 | h1
        · subst h1
          exact List.mem_cons_self _ _
        · exact List.mem_cons_of_mem _ (ih h1)
    | drop l =>
      simp only [SimpleSpec.registered] at h
      exact List.mem_cons_of_mem _ (ih h)
    | dispatch obj =>
      simp only [SimpleSpec.registered] at h
      exact List.mem_cons_of_mem _ (ih h)

theorem FilteredSpec.mem_unfiltered {K Callable T : Type} {ops : List (Op K Callable T)}
    {r : ListenerPtr × Callable} (h : r ∈ FilteredSpec.unfiltered ops) :
    Op.subscribe r.1 r.2 ∈ ops := by
  induction ops with
  | nil => simp [FilteredSpec.unfiltered] at h
  | cons op rest ih =>
    cases op with
    | subscribe l f =>
      simp only [FilteredSpec.unfiltered] at h
      by_cases hd : FilteredSpec.dropped l rest = true
      · simp only [hd, if_true] at h
        exact List.mem_cons_of_mem _ (ih h)
      · simp only [hd] at h
        rcases List.mem_cons.mp h with h1 | h1
        · subst h1
          exact List.mem_cons_self _ _
        · exact List.mem_cons_of_mem _ (ih h1)
    | subscribeKey l key f =>
      simp only [FilteredSpec.unfiltered] at h
      exact List.mem_cons_of_mem _ (ih h)
    | dispatch obj =>
      simp only [FilteredSpec.unfiltered] at h
      exact List.mem_cons_of_mem _ (ih h)
    | drop l =>
      simp only [FilteredSpec.unfiltered] at h
      exact List.mem_cons_of_mem _ (ih h)
    | destroy =>
      simp only [FilteredSpec.unfiltered] at h
      exact List.mem_cons_of_mem _ (ih h)

theorem FilteredSpec.mem_keyed {K Callable T : Type} [DecidableEq K]
    {ops : List (Op K Callable T)} {k : K} {r : ListenerPtr × Callable}
    (h : r ∈ FilteredSpec.keyed k ops) : Op.subscribeKey r.1 k r.2 ∈ ops := by
  induction ops with
  | nil => simp [FilteredSpec.keyed] at h
  | cons op rest ih =>
    cases op with
    | subscribe l f =>
      simp only [FilteredSpec.keyed] at h
      exact List.mem_cons_of_mem _ (ih h)
    | subscribeKey l key f =>
      simp only [FilteredSpec.keyed] at h
      by_cases hc : key = k ∧ FilteredSpec.dropped l rest = false
      · rw [if_pos hc] at h
        rcases List.mem_cons.mp h with h1 | h1
        · subst h1
          rw [hc.1]
          exact List.mem_cons_self _ _
        · exact List.mem_cons_of_mem _ (ih h1)
      · rw [if_neg hc] at h
        exact List.mem_cons_of_mem _ (ih h)
    | dispatch obj =>
      simp only [FilteredSpec.keyed] at h
      exact List.mem_cons_of_mem _ (ih h)
    | drop l =>
      simp only [FilteredSpec.keyed] at h
      exact List.mem_cons_of_mem _ (ih h)
    | destroy =>
      simp only [FilteredSpec.keyed] at h
      exact List.mem_cons_of_mem _ (ih h)

/-! ### Claims -/

/-- C6. `DispatcherBase::remove(r)` yields the listener sequence with `r`
deleted and every other reference kept, in the original relative order: `r` no
longer occurs, the result is a subsequence of the original, and every other
reference occurs as often as before.  When `r` is absent the core is
unchanged, and removing `r` twice gives the same core as removing it once. -/
theorem DispatcherBase.remove_contract (core : DispatcherBase) (r : ListenerPtr) :
    r ∉ (core.remove r).listeners_ ∧
      (core.remove r).listeners_.Sublist core.listeners_ ∧
      (∀ x, x ≠ r → (core.remove r).listeners_.count x = core.listeners_.count x) ∧
      (r ∉ core.listeners_ → core.remove r = core) ∧
      (core.remove r).remove r = core.remove r := by
  obtain ⟨ls⟩ := core
  refine ⟨?_, ?_, ?_, ?_, ?_⟩
  · simp [DispatcherBase.remove]
  · exact List.filter_sublist ls
  · intro x hx
    simp only [DispatcherBase.remove]
    rw [List.count_filter]
    simpa using hx
  · intro hr
    simp only [DispatcherBase.remove, DispatcherBase.mk.injEq]
    rw [List.filter_eq_self]
    intro a ha
    have : a ≠ r := fun e => hr (e ▸ ha)
    simpa using this
  · simp [DispatcherBase.remove, List.filter_filter]

/-- C2. After any admissible history of subscriptions and handle drops on a
fresh `SimpleDispatcher`, one call of `dispatch(obj)` in which no registered
callable throws returns after calling exactly the currently registered
listeners (the subscriptions whose handle has not been dropped), each with
`obj`, in the order of their registration; the called listener objects are
pairwise distinct, so each is called once. -/
theorem SimpleDispatcher.dispatch_registered {Callable T : Type}
    (throws : Callable → T → Bool) (ops : List (SimpleOp Callable T)) (obj : T)
    (ha : (SimpleWorld.init Callable).admissible ops = true)
    (hno : ∀ r ∈ SimpleSpec.registered ops, throws r.2 obj = false) :
    (((SimpleWorld.init Callable).run ops).disp.dispatch throws
        ((SimpleWorld.init Callable).run ops).mem obj
      = ⟨(SimpleSpec.registered ops).map (toInvocation obj), Outcome.returned⟩) ∧
      ((SimpleSpec.registered ops).map Prod.fst).Nodup := by
  have hs := SimpleWorld.simple_run_sound (SimpleWorld.simple_sound_init Callable) ops ha
  have hregs := SimpleWorld.simple_regs_run_init ops ha
  refine ⟨?_, ?_⟩
  · rw [SimpleWorld.simple_dispatch_eq throws hs obj, hregs]
    exact roundOver_of_no_throw throws obj _ hno
  · rw [← hregs]
    show (List.map Prod.fst (Memory.regs _ _)).Nodup
    rw [Memory.regs_map_fst hs.mem]
    exact hs.mem.nodup_listenersOf _

/-- Witness for C2: subscribe at 10, 11 and 12, drop the handle of 11;
a dispatch of payload 7 calls the listeners at 10 and 12, in this order. -/
theorem SimpleDispatcher.dispatch_registered_witness :
    (((SimpleWorld.init Nat).run
        [SimpleOp.subscribe 10 100, SimpleOp.subscribe 11 101, SimpleOp.subscribe 12 102,
          (SimpleOp.drop 11 : SimpleOp Nat Nat)]).disp.dispatch (fun _ _ => false)
        ((SimpleWorld.init Nat).run
          [SimpleOp.subscribe 10 100, SimpleOp.subscribe 11 101, SimpleOp.subscribe 12 102,
            (SimpleOp.drop 11 : SimpleOp Nat Nat)]).mem 7
      = ⟨[⟨10, 100, 7⟩, ⟨12, 102, 7⟩], Outcome.returned⟩) ∧
      ([10, 12] : List ListenerPtr).Nodup :=
  SimpleDispatcher.dispatch_registered (fun _ _ => false)
    [SimpleOp.subscribe 10 100, SimpleOp.subscribe 11 101, SimpleOp.subscribe 12 102,
      SimpleOp.drop 11] 7 (by decide) (by intro r _; rfl)

theorem Memory.Sound.mem_regs {Callable : Type} {m : Memory Callable} (hs : m.Sound)
    {c : CorePtr} {r : ListenerPtr × Callable} (h : r ∈ m.regs c) :
    r.1 ∈ m.listenersOf c := by
  rw [← Memory.regs_map_fst hs c]
  exact List.mem_map_of_mem _ h

theorem Memory.Sound.regs_disjoint {Callable : Type} {m : Memory Callable} (hs : m.Sound)
    {c1 c2 : CorePtr} (hne : c1 ≠ c2) {r1 r2 : ListenerPtr × Callable}
    (h1 : r1 ∈ m.regs c1) (h2 : r2 ∈ m.regs c2) : r1.1 ≠ r2.1 := by
  intro e
  obtain ⟨g1, hg1, hc1⟩ := hs.live (hs.mem_regs h1)
  obtain ⟨g2, hg2, hc2⟩ := hs.live (hs.mem_regs h2)
  rw [e, hg2] at hg1
  cases hg1
  exact hne (hc1.symm.trans hc2)

theorem Memory.Sound.regs_nodup {Callable : Type} {m : Memory Callable} (hs : m.Sound)
    (c : CorePtr) : ((m.regs c).map Prod.fst).Nodup := by
  rw [Memory.regs_map_fst hs c]
  exact hs.nodup_listenersOf c

theorem World.Sound.keyed_unfiltered_disjoint {K Callable : Type} [DecidableEq K]
    {w : World K Callable} (hs : w.Sound) (k : K) {r1 r2 : ListenerPtr × Callable}
    (h1 : r1 ∈ w.keyedRegs k) (h2 : r2 ∈ w.unfilteredRegs) : r1.1 ≠ r2.1 := by
  unfold World.keyedRegs at h1
  unfold World.unfilteredRegs at h2
  cases hd : w.disp with
  | none => simp [hd] at h2
  | some d =>
    simp only [hd] at h1 h2
    cases hk : mapFind d.filtered_ k with
    | none => simp [hk] at h1
    | some p =>
      cases p with
      | none => simp [hk] at h1
      | some c =>
        simp only [hk] at h1
        exact hs.mem.regs_disjoint (hs.keyed_ne_base d k c hd hk) h1 h2

theorem World.Sound.keyed_keyed_disjoint {K Callable : Type} [DecidableEq K]
    {w : World K Callable} (hs : w.Sound) {k1 k2 : K} (hne : k1 ≠ k2)
    {r1 r2 : ListenerPtr × Callable}
    (h1 : r1 ∈ w.keyedRegs k1) (h2 : r2 ∈ w.keyedRegs k2) : r1.1 ≠ r2.1 := by
  unfold World.keyedRegs at h1 h2
  cases hd : w.disp with
  | none => simp [hd] at h2
  | some d =>
    simp only [hd] at h1 h2
    cases hk1 : mapFind d.filtered_ k1 with
    | none => simp [hk1] at h1
    | some p1 =>
      cases p1 with
      | none => simp [hk1] at h1
      | some c1 =>
        cases hk2 : mapFind d.filtered_ k2 with
        | none => simp [hk2] at h2
        | some p2 =>
          cases p2 with
          | none => simp [hk2] at h2
          | some c2 =>
            simp only [hk1] at h1
            simp only [hk2] at h2
            have hcc : c1 ≠ c2 := by
              intro e
              rw [e] at hk1
              exact hne (hs.keyed_inj d k1 k2 c2 hd hk1 hk2)
            exact hs.mem.regs_disjoint hcc h1 h2

theorem World.Sound.round_nodup {K Callable : Type} [DecidableEq K]
    {w : World K Callable} (hs : w.Sound) (k : K) :
    ((w.keyedRegs k ++ w.unfilteredRegs).map Prod.fst).Nodup := by
  rw [List.map_append, List.nodup_append]
  refine ⟨?_, ?_, ?_⟩
  · unfold World.keyedRegs
    cases hd : w.disp with
    | none => simp
    | some d =>
      simp only []
      cases hk : mapFind d.filtered_ k with
      | none => simp
      | some p =>
        cases p with
        | none => simp
        | some c => exact hs.mem.regs_nodup c
  · unfold World.unfilteredRegs
    cases hd : w.disp with
    | none => simp
    | some d => exact hs.mem.regs_nodup _
  · intro a ha hb
    obtain ⟨r1, hr1, e1⟩ := List.mem_map.mp ha
    obtain ⟨r2, hr2, e2⟩ := List.mem_map.mp hb
    exact hs.keyed_unfiltered_disjoint k hr1 hr2 (e1.trans e2.symm)

/-- C1. After any admissible history on a fresh `FilteredDispatcher` that
still exists, one call of `dispatch(obj)` in which no called callable throws
returns after calling exactly: first the listeners registered for the key of
`obj` and not dropped, in the order of their registration, then the unfiltered
listeners registered and not dropped, in the order of their registration.  The
called listener objects are pairwise distinct, so each is called once, and no
listener registered for another key is called. -/
theorem FilteredDispatcher.dispatch_order {K Callable T : Type} [DecidableEq K]
    (throws : Callable → T → Bool) (keyOf : T → K) (ops : List (Op K Callable T))
    (d : FilteredDispatcher K) (obj : T)
    (ha : (World.init K Callable).admissible throws keyOf ops = true)
    (hd : ((World.init K Callable).run throws keyOf ops).disp = some d)
    (hno : ∀ r ∈ FilteredSpec.keyed (keyOf obj) ops ++ FilteredSpec.unfiltered ops,
      throws r.2 obj = false) :
    ((d.dispatch throws keyOf ((World.init K Callable).run throws keyOf ops).mem obj).2
      = ⟨(FilteredSpec.keyed (keyOf obj) ops ++ FilteredSpec.unfiltered ops).map
          (toInvocation obj), Outcome.returned⟩) ∧
      ((FilteredSpec.keyed (keyOf obj) ops ++ FilteredSpec.unfiltered ops).map
        Prod.fst).Nodup ∧
      ∀ J, J ≠ keyOf obj → ∀ r ∈ FilteredSpec.keyed J ops,
        ∀ i ∈ (d.dispatch throws keyOf
            ((World.init K Callable).run throws keyOf ops).mem obj).2.calls,
          i.listener ≠ r.1 := by
  have hs := World.run_sound throws keyOf (World.sound_init K Callable) ops ha
  have hfin : ((World.init K Callable).run throws keyOf ops).disp.isSome = true := by
    rw [hd]
    rfl
  obtain ⟨hu, hk⟩ := World.regs_run_init throws keyOf ops ha hfin
  have hround := World.dispatch_eq throws keyOf hs hd obj
  rw [hu, hk] at hround
  have hnd := hs.round_nodup (keyOf obj)
  rw [hu, hk] at hnd
  refine ⟨?_, hnd, ?_⟩
  · rw [hround]
    exact roundOver_of_no_throw throws obj _ hno
  · intro J hJ r hr i hi
    rw [hround] at hi
    have hmem := roundOver_listener_mem throws obj _ hi
    rw [List.map_append, List.mem_append] at hmem
    rw [← hk J] at hr
    rcases hmem with h1 | h1
    · obtain ⟨r2, hr2, e2⟩ := List.mem_map.mp h1
      rw [← hk (keyOf obj)] at hr2
      rw [← e2]
      exact fun e => hs.keyed_keyed_disjoint hJ hr hr2 e.symm
    · obtain ⟨r2, hr2, e2⟩ := List.mem_map.mp h1
      rw [← hu] at hr2
      rw [← e2]
      exact fun e => hs.keyed_unfiltered_disjoint J hr hr2 e.symm

/-- Witness for C1, the scenario of the specification: an unfiltered listener
A at 10 and a listener B at 11 for key 5; a payload with key 5 is delivered to
B, then to A, and a payload with key 7 to A alone. -/
theorem FilteredDispatcher.dispatch_order_witness :
    (((⟨⟨0⟩, [(5, some 1)]⟩ : FilteredDispatcher Nat).dispatch (fun _ _ => false) id
        ((World.init Nat Nat).run (fun _ _ => false) id
          [Op.subscribe 10 100, (Op.subscribeKey 11 5 101 : Op Nat Nat Nat)]).mem 5).2
      = ⟨[⟨11, 101, 5⟩, ⟨10, 100, 5⟩], Outcome.returned⟩) ∧
    (((⟨⟨0⟩, [(5, some 1)]⟩ : FilteredDispatcher Nat).dispatch (fun _ _ => false) id
        ((World.init Nat Nat).run (fun _ _ => false) id
          [Op.subscribe 10 100, (Op.subscribeKey 11 5 101 : Op Nat Nat Nat)]).mem 7).2
      = ⟨[⟨10, 100, 7⟩], Outcome.returned⟩) :=
  ⟨(FilteredDispatcher.dispatch_order (fun _ _ => false) id
      [Op.subscribe 10 100, Op.subscribeKey 11 5 101] ⟨⟨0⟩, [(5, some 1)]⟩ 5
      (by decide) (by decide) (by intro r _; rfl)).1,
    (FilteredDispatcher.dispatch_order (fun _ _ => false) id
      [Op.subscribe 10 100, Op.subscribeKey 11 5 101] ⟨⟨0⟩, [(5, some 1)]⟩ 7
      (by decide) (by decide) (by intro r _; rfl)).1⟩

theorem SimpleWorld.simple_regs_after_drop {Callable T : Type} {w : SimpleWorld Callable}
    (hs : w.Sound) (l : ListenerPtr) (ops2 : List (SimpleOp Callable T))
    (ha : w.admissible (SimpleOp.drop l :: ops2) = true)
    (hre : ∀ f, SimpleOp.subscribe l f ∉ ops2) :
    l ∉ ((w.run (SimpleOp.drop l :: ops2)).regs).map Prod.fst := by
  rw [SimpleWorld.simple_regs_run hs _ ha]
  intro hmem
  obtain ⟨r, hr, e⟩ := List.mem_map.mp hmem
  rcases List.mem_append.mp hr with h1 | h1
  · have h2 := (List.mem_filter.mp h1).2
    simp [SimpleSpec.dropped, e] at h2
  · simp only [SimpleSpec.registered] at h1
    have h3 := SimpleSpec.mem_registered h1
    rw [e] at h3
    exact hre r.2 h3

theorem World.regs_after_drop {K Callable T : Type} [DecidableEq K]
    (throws : Callable → T → Bool) (keyOf : T → K) {w : World K Callable} (hs : w.Sound)
    (l : ListenerPtr) (ops2 : List (Op K Callable T))
    (ha : w.admissible throws keyOf (Op.drop l :: ops2) = true)
    (hfin : (w.run throws keyOf (Op.drop l :: ops2)).disp.isSome = true)
    (hre : ∀ f, Op.subscribe l f ∉ ops2) (hrek : ∀ k f, Op.subscribeKey l k f ∉ ops2)
    (k : K) :
    l ∉ ((w.run throws keyOf (Op.drop l :: ops2)).keyedRegs k
        ++ (w.run throws keyOf (Op.drop l :: ops2)).unfilteredRegs).map Prod.fst := by
  obtain ⟨hu, hk⟩ := World.regs_run throws keyOf hs _ ha hfin
  rw [hu, hk k]
  intro hmem
  obtain ⟨r, hr, e⟩ := List.mem_map.mp hmem
  rcases List.mem_append.mp hr with h0 | h0
  · rcases List.mem_append.mp h0 with h1 | h1
    · have h2 := (List.mem_filter.mp h1).2
      simp [FilteredSpec.dropped, e] at h2
    · simp only [FilteredSpec.keyed] at h1
      have h3 := FilteredSpec.mem_keyed h1
      rw [e] at h3
      exact hrek k r.2 h3
  · rcases List.mem_append.mp h0 with h1 | h1
    · have h2 := (List.mem_filter.mp h1).2
      simp [FilteredSpec.dropped, e] at h2
    · simp only [FilteredSpec.unfiltered] at h1
      have h3 := FilteredSpec.mem_unfiltered h1
      rw [e] at h3
      exact hre r.2 h3

/-- C3. Once the handle of the listener at `l` has been dropped, no later
dispatch calls it, whatever admissible operations follow, as long as no new
listener object is created at the address `l`; the dispatch touches no dead
object either (its outcome is not a fault).  First for the `SimpleDispatcher`,
then for the `FilteredDispatcher`. -/
theorem dropped_listener_never_invoked {K Callable T : Type} [DecidableEq K]
    (throws : Callable → T → Bool) (keyOf : T → K) :
    (∀ (ops1 ops2 : List (SimpleOp Callable T)) (l : ListenerPtr) (obj : T),
      (SimpleWorld.init Callable).admissible (ops1 ++ SimpleOp.drop l :: ops2) = true →
      (∀ f, SimpleOp.subscribe l f ∉ ops2) →
      (((SimpleWorld.init Callable).run (ops1 ++ SimpleOp.drop l :: ops2)).disp.dispatch
          throws ((SimpleWorld.init Callable).run (ops1 ++ SimpleOp.drop l :: ops2)).mem
          obj).outcome ≠ Outcome.fault ∧
        ∀ i ∈ (((SimpleWorld.init Callable).run
            (ops1 ++ SimpleOp.drop l :: ops2)).disp.dispatch throws
            ((SimpleWorld.init Callable).run (ops1 ++ SimpleOp.drop l :: ops2)).mem
            obj).calls, i.listener ≠ l) ∧
    (∀ (ops1 ops2 : List (Op K Callable T)) (l : ListenerPtr) (d : FilteredDispatcher K)
        (obj : T),
      (World.init K Callable).admissible throws keyOf (ops1 ++ Op.drop l :: ops2) = true →
      ((World.init K Callable).run throws keyOf (ops1 ++ Op.drop l :: ops2)).disp = some d →
      (∀ f, Op.subscribe l f ∉ ops2) → (∀ k f, Op.subscribeKey l k f ∉ ops2) →
      (d.dispatch throws keyOf
          ((World.init K Callable).run throws keyOf (ops1 ++ Op.drop l :: ops2)).mem
          obj).2.outcome ≠ Outcome.fault ∧
        ∀ i ∈ (d.dispatch throws keyOf
            ((World.init K Callable).run throws keyOf (ops1 ++ Op.drop l :: ops2)).mem
            obj).2.calls, i.listener ≠ l) := by
  constructor
  · intro ops1 ops2 l obj ha hre
    rw [SimpleWorld.simple_admissible_append, Bool.and_eq_true] at ha
    have hs1 := SimpleWorld.simple_run_sound (SimpleWorld.simple_sound_init Callable) ops1 ha.1
    have hs2 := SimpleWorld.simple_run_sound hs1 _ ha.2
    have hnot := SimpleWorld.simple_regs_after_drop hs1 l ops2 ha.2 hre
    rw [SimpleWorld.simple_run_append]
    rw [SimpleWorld.simple_dispatch_eq throws hs2 obj]
    refine ⟨roundOver_outcome_ne_fault throws obj _, ?_⟩
    intro i hi e
    have hmem := roundOver_listener_mem throws obj _ hi
    rw [e] at hmem
    exact hnot hmem
  · intro ops1 ops2 l d obj ha hd hre hrek
    rw [World.admissible_append, Bool.and_eq_true] at ha
    have hs1 := World.run_sound throws keyOf (World.sound_init K Callable) ops1 ha.1
    have hs2 := World.run_sound throws keyOf hs1 _ ha.2
    rw [World.run_append] at hd ⊢
    have hfin : (((World.init K Callable).run throws keyOf ops1).run throws keyOf
        (Op.drop l :: ops2)).disp.isSome = true := by
      rw [hd]
      rfl
    have hnot := World.regs_after_drop throws keyOf hs1 l ops2 ha.2 hfin hre hrek (keyOf obj)
    rw [World.dispatch_eq throws keyOf hs2 hd obj]
    refine ⟨roundOver_outcome_ne_fault throws obj _, ?_⟩
    intro i hi e
    have hmem := roundOver_listener_mem throws obj _ hi
    rw [e] at hmem
    exact hnot hmem

/-- Witness for C3, the scenario of the specification: subscribe C, drop its
handle, dispatch: C is not called.  On the `SimpleDispatcher` and, with a
key-scoped C, on the `FilteredDispatcher`. -/
theorem dropped_listener_never_invoked_witness :
    (∀ i ∈ (((SimpleWorld.init Nat).run
          ([SimpleOp.subscribe 10 100] ++ (SimpleOp.drop 10 : SimpleOp Nat Nat) :: [])
        ).disp.dispatch (fun _ _ => false)
        ((SimpleWorld.init Nat).run
          ([SimpleOp.subscribe 10 100] ++ (SimpleOp.drop 10 : SimpleOp Nat Nat) :: [])).mem
        7).calls, i.listener ≠ 10) ∧
    (∀ i ∈ ((⟨⟨0⟩, [(5, some 1)]⟩ : FilteredDispatcher Nat).dispatch (fun _ _ => false) id
        ((World.init Nat Nat).run (fun _ _ => false) id
          ([Op.subscribeKey 10 5 100] ++ (Op.drop 10 : Op Nat Nat Nat) :: [])).mem
        5).2.calls, i.listener ≠ 10) :=
  ⟨((dropped_listener_never_invoked (fun _ _ => false) (id : Nat → Nat)).1
      [SimpleOp.subscribe 10 100] [] 10 7 (by decide) (by simp)).2,
    ((dropped_listener_never_invoked (fun _ _ => false) (id : Nat → Nat)).2
      [Op.subscribeKey 10 5 100] [] 10 ⟨⟨0⟩, [(5, some 1)]⟩ 5 (by decide) (by decide)
      (by simp) (by simp)).2⟩

/-- C4, the code at the failing input: on a fresh `SimpleDispatcher`, after
one subscription and the drop of its handle, the core counts 0 listeners, and
`SimpleDispatcher::numListeners` hands no value to its caller: its body drops
the count of the core and ends without a `return`. -/
theorem SimpleDispatcher.numListeners_returns_no_value :
    (((SimpleWorld.init Nat).run
        [SimpleOp.subscribe 10 100, (SimpleOp.drop 10 : SimpleOp Nat Nat)]).mem.cores
      ((SimpleWorld.init Nat).run
        [SimpleOp.subscribe 10 100, (SimpleOp.drop 10 : SimpleOp Nat Nat)]).disp.dispatcher_).map
        DispatcherBase.numListeners = some 0 ∧
    SimpleDispatcher.numListeners
      ((SimpleWorld.init Nat).run
        [SimpleOp.subscribe 10 100, (SimpleOp.drop 10 : SimpleOp Nat Nat)]).mem
      ((SimpleWorld.init Nat).run
        [SimpleOp.subscribe 10 100, (SimpleOp.drop 10 : SimpleOp Nat Nat)]).disp = none := by
  constructor
  · decide
  · rfl

theorem World.all_cores_dead {K Callable : Type} [DecidableEq K] {w : World K Callable}
    (hs : w.Sound) (hd : w.disp = none) (c : CorePtr) : w.mem.cores c = none := by
  cases hc : w.mem.cores c with
  | none => rfl
  | some core =>
    obtain ⟨d, hd2, _⟩ := hs.owned c (by rw [hc]; rfl)
    rw [hd] at hd2
    exact Option.noConfusion hd2

/-- C5. After any admissible history on a `FilteredDispatcher`, dropping the
handle of a live listener (object `g` at address `l`) leaves the dispatcher
object as it is and ends the listener object.  If the core the listener was
registered on still exists, that core becomes `remove(l)` of itself and every
other core is unchanged; if that core has been destroyed, no core changes.
Once the dispatcher has been destroyed the core is destroyed, so the drop then
is of the second kind. -/
theorem GuardedListener.drop_in_either_order {K Callable T : Type} [DecidableEq K]
    (throws : Callable → T → Bool) (keyOf : T → K) (ops : List (Op K Callable T))
    (l : ListenerPtr) (g : GuardedListener Callable)
    (ha : (World.init K Callable).admissible throws keyOf ops = true)
    (hl : ((World.init K Callable).run throws keyOf ops).mem.listeners l = some g) :
    ((((World.init K Callable).run throws keyOf ops).step throws keyOf (Op.drop l)).disp
        = ((World.init K Callable).run throws keyOf ops).disp) ∧
      ((((World.init K Callable).run throws keyOf ops).step throws keyOf
        (Op.drop l)).mem.listeners l = none) ∧
      (∀ core, ((World.init K Callable).run throws keyOf ops).mem.cores g.guard_ = some core →
        (((World.init K Callable).run throws keyOf ops).step throws keyOf
            (Op.drop l)).mem.cores g.guard_ = some (core.remove l) ∧
          ∀ c, c ≠ g.guard_ →
            (((World.init K Callable).run throws keyOf ops).step throws keyOf
              (Op.drop l)).mem.cores c
              = ((World.init K Callable).run throws keyOf ops).mem.cores c) ∧
      (((World.init K Callable).run throws keyOf ops).mem.cores g.guard_ = none →
        (((World.init K Callable).run throws keyOf ops).step throws keyOf
            (Op.drop l)).mem.cores
          = ((World.init K Callable).run throws keyOf ops).mem.cores) ∧
      (((World.init K Callable).run throws keyOf ops).disp = none →
        ((World.init K Callable).run throws keyOf ops).mem.cores g.guard_ = none) := by
  have hs := World.run_sound throws keyOf (World.sound_init K Callable) ops ha
  generalize (World.init K Callable).run throws keyOf ops = w at hs hl ⊢
  have hsome : (w.mem.listeners l).isSome = true := by
    rw [hl]
    rfl
  obtain ⟨m1, hm1, hstep⟩ := World.step_drop throws keyOf hsome
  obtain ⟨g2, hg2, hlis, _, hcase⟩ := GuardedListener.destructor_spec hm1
  rw [hl] at hg2
  cases hg2
  rw [hstep]
  refine ⟨rfl, ?_, ?_, ?_, ?_⟩
  · show m1.listeners l = none
    rw [hlis]
    exact upd_same _ _ _
  · intro core hcore
    show m1.cores g.guard_ = _ ∧ ∀ c, c ≠ g.guard_ → m1.cores c = _
    rcases hcase with ⟨d, hd, hcores⟩ | ⟨hd, _⟩
    · rw [hcore] at hd
      cases hd
      rw [hcores]
      exact ⟨upd_same _ _ _, fun c hc => upd_ne _ _ hc⟩
    · rw [hcore] at hd
      exact Option.noConfusion hd
  · intro hnone
    show m1.cores = _
    rcases hcase with ⟨d, hd, _⟩ | ⟨_, hcores⟩
    · rw [hnone] at hd
      exact Option.noConfusion hd
    · exact hcores
  · intro hd
    exact World.all_cores_dead hs hd _

/-- Witness for C5: a listener for key 5 at address 11.  Dropped after the
dispatcher was destroyed, no core changes; dropped while the dispatcher
exists, its core (control block 1) loses the reference. -/
theorem GuardedListener.drop_in_either_order_witness :
    ((((World.init Nat Nat).run (fun _ _ => false) id
          [Op.subscribeKey 11 5 101, (Op.destroy : Op Nat Nat Nat)]).step
          (fun _ _ => false) id (Op.drop 11)).mem.cores
        = ((World.init Nat Nat).run (fun _ _ => false) id
          [Op.subscribeKey 11 5 101, (Op.destroy : Op Nat Nat Nat)]).mem.cores) ∧
    ((((World.init Nat Nat).run (fun _ _ => false) id
          [(Op.subscribeKey 11 5 101 : Op Nat Nat Nat)]).step
          (fun _ _ => false) id (Op.drop 11)).mem.cores 1
        = some (DispatcherBase.remove ⟨[11]⟩ 11)) :=
  ⟨(GuardedListener.drop_in_either_order (fun _ _ => false) id
      [Op.subscribeKey 11 5 101, Op.destroy] 11 ⟨101, 1⟩ (by decide) (by decide)).2.2.2.1
      (by decide),
    ((GuardedListener.drop_in_either_order (fun _ _ => false) id
      [Op.subscribeKey 11 5 101] 11 ⟨101, 1⟩ (by decide) (by decide)).2.2.1
      ⟨[11]⟩ (by decide)).1⟩

theorem mem_keys_iff {K V : Type} [DecidableEq K] (fm : List (K × V)) (k : K) :
    k ∈ fm.map Prod.fst ↔ (mapFind fm k).isSome = true := by
  induction fm with
  | nil => simp [mapFind]
  | cons e rest ih =>
    obtain ⟨k1, v⟩ := e
    by_cases h : k1 = k
    · simp [mapFind, h]
    · have h2 : ¬ k = k1 := fun e => h e.symm
      simp only [List.map_cons, List.mem_cons, h2, false_or, mapFind, h, if_false]
      exact ih

theorem World.step_entries {K Callable T : Type} [DecidableEq K]
    (throws : Callable → T → Bool) (keyOf : T → K) {w : World K Callable} (hs : w.Sound)
    {d : FilteredDispatcher K} (hd : w.disp = some d) {op : Op K Callable T}
    (he : w.enabled op = true) (hop : op ≠ Op.destroy) :
    ∃ d2, (w.step throws keyOf op).disp = some d2 ∧
      (∀ k, (mapFind d.filtered_ k).isSome = true → (mapFind d2.filtered_ k).isSome = true) ∧
      (∀ k c, mapFind d.filtered_ k = some (some c) → mapFind d2.filtered_ k = some (some c)) ∧
      (∀ k, (mapFind d2.filtered_ k).isSome = true →
        (mapFind d.filtered_ k).isSome = true ∨ (∃ l f, op = Op.subscribeKey l k f) ∨
          ∃ obj, op = Op.dispatch obj ∧ keyOf obj = k) ∧
      (∀ k c, mapFind d2.filtered_ k = some (some c) →
        mapFind d.filtered_ k = some (some c) ∨ ∃ l f, op = Op.subscribeKey l k f) := by
  cases op with
  | subscribe l f =>
    obtain ⟨m1, _, hstep⟩ := World.step_subscribe throws keyOf hs hd l f
    rw [hstep]
    exact ⟨d, hd, fun k h => h, fun k c h => h, fun k h => Or.inl h, fun k c h => Or.inl h⟩
  | subscribeKey l key f =>
    obtain ⟨c, m0, m1, fm, _, hstep, hkey, hother, hcase⟩ :=
      World.step_subscribeKey throws keyOf hs hd l key f
    rw [hstep]
    refine ⟨_, rfl, ?_, ?_, ?_, ?_⟩
    · intro k hk
      by_cases hkk : k = key
      · subst hkk
        show (mapFind fm k).isSome = true
        rw [hkey]
        rfl
      · show (mapFind fm k).isSome = true
        rw [hother k hkk]
        exact hk
    · intro k c0 hk
      show mapFind fm k = some (some c0)
      by_cases hkk : k = key
      · subst hkk
        rcases hcase with ⟨hold, _⟩ | ⟨hnone, _, _⟩
        · rw [hkey, ← hold, hk]
        · exact absurd hk (hnone c0)
      · rw [hother k hkk]
        exact hk
    · intro k hk
      by_cases hkk : k = key
      · subst hkk
        exact Or.inr (Or.inl ⟨l, f, rfl⟩)
      · have hk2 : (mapFind fm k).isSome = true := hk
        rw [hother k hkk] at hk2
        exact Or.inl hk2
    · intro k c0 hk
      by_cases hkk : k = key
      · subst hkk
        exact Or.inr ⟨l, f, rfl⟩
      · have hk2 : mapFind fm k = some (some c0) := hk
        rw [hother k hkk] at hk2
        exact Or.inl hk2
  | dispatch obj =>
    rw [World.step_dispatch throws keyOf hd obj]
    refine ⟨_, rfl, ?_, ?_, ?_, ?_⟩
    · intro k hk
      show (mapFind (mapIndex d.filtered_ (keyOf obj)) k).isSome = true
      by_cases hkk : k = keyOf obj
      · subst hkk
        rw [mapFind_mapIndex_self]
        rfl
      · rw [mapFind_mapIndex_ne _ hkk]
        exact hk
    · intro k c hk
      exact (mapFind_mapIndex_core _ _ _ _).mpr hk
    · intro k hk
      by_cases hkk : k = keyOf obj
      · exact Or.inr (Or.inr ⟨obj, rfl, hkk.symm⟩)
      · have hk2 : (mapFind (mapIndex d.filtered_ (keyOf obj)) k).isSome = true := hk
        rw [mapFind_mapIndex_ne _ hkk] at hk2
        exact Or.inl hk2
    · intro k c hk
      exact Or.inl ((mapFind_mapIndex_core _ _ _ _).mp hk)
  | drop l =>
    obtain ⟨m1, _, hstep⟩ := World.step_drop throws keyOf he
    rw [hstep]
    exact ⟨d, hd, fun k h => h, fun k c h => h, fun k h => Or.inl h, fun k c h => Or.inl h⟩
  | destroy => exact absurd rfl hop

theorem World.run_entries {K Callable T : Type} [DecidableEq K]
    (throws : Callable → T → Bool) (keyOf : T → K) {w : World K Callable} (hs : w.Sound)
    {d : FilteredDispatcher K} (hd : w.disp = some d) (ops : List (Op K Callable T))
    (ha : w.admissible throws keyOf ops = true) {d2 : FilteredDispatcher K}
    (hd2 : (w.run throws keyOf ops).disp = some d2) :
    (∀ k, (mapFind d.filtered_ k).isSome = true → (mapFind d2.filtered_ k).isSome = true) ∧
      (∀ k c, mapFind d.filtered_ k = some (some c) → mapFind d2.filtered_ k = some (some c)) ∧
      (∀ k, (mapFind d2.filtered_ k).isSome = true →
        (mapFind d.filtered_ k).isSome = true ∨ k ∈ FilteredSpec.subscribedKeys ops ∨
          k ∈ FilteredSpec.dispatchedKeys keyOf ops) ∧
      (∀ k c, mapFind d2.filtered_ k = some (some c) →
        mapFind d.filtered_ k = some (some c) ∨ k ∈ FilteredSpec.subscribedKeys ops) := by
  induction ops generalizing w d with
  | nil =>
    simp only [World.run] at hd2
    rw [hd] at hd2
    cases hd2
    exact ⟨fun k h => h, fun k c h => h, fun k h => Or.inl h, fun k c h => Or.inl h⟩
  | cons op rest ih =>
    simp only [World.admissible, Bool.and_eq_true] at ha
    simp only [World.run] at hd2
    have hop : op ≠ Op.destroy := by
      intro e
      subst e
      have hnone : (w.step throws keyOf (Op.destroy : Op K Callable T)).disp = none := by
        rw [World.step_destroy throws keyOf hd]
      rw [World.run_disp_none throws keyOf hnone rest] at hd2
      exact Option.noConfusion hd2
    obtain ⟨d1, hd1, hA, hB, hC, hD⟩ := World.step_entries throws keyOf hs hd ha.1 hop
    obtain ⟨iA, iB, iC, iD⟩ := ih (World.step_sound throws keyOf hs ha.1) hd1 ha.2 hd2
    refine ⟨fun k h => iA k (hA k h), fun k c h => iB k c (hB k c h), ?_, ?_⟩
    · intro k hk
      rcases iC k hk with h | h | h
      · rcases hC k h with h1 | ⟨l, f, h1⟩ | ⟨obj, h1, h2⟩
        · exact Or.inl h1
        · subst h1
          exact Or.inr (Or.inl (by simp [FilteredSpec.subscribedKeys]))
        · subst h1
          exact Or.inr (Or.inr (by simp [FilteredSpec.dispatchedKeys, h2]))
      · refine Or.inr (Or.inl ?_)
        cases op <;> simp [FilteredSpec.subscribedKeys, h]
      · refine Or.inr (Or.inr ?_)
        cases op <;> simp [FilteredSpec.dispatchedKeys, h]
    · intro k c hk
      rcases iD k c hk with h | h
      · rcases hD k c h with h1 | ⟨l, f, h1⟩
        · exact Or.inl h1
        · subst h1
          exact Or.inr (by simp [FilteredSpec.subscribedKeys])
      · refine Or.inr ?_
        cases op <;> simp [FilteredSpec.subscribedKeys, h]

/-- C7 as stated fails: on a fresh `FilteredDispatcher`, dispatching a payload
with key 7 leaves an entry for 7 in `filtered_` although no key-scoped
subscription was ever made. -/
theorem FilteredDispatcher.dispatch_creates_entry :
    ¬ (∀ k ∈ ((World.init Nat Nat).run (fun _ _ => false) id
          [(Op.dispatch 7 : Op Nat Nat Nat)]).keys,
        k ∈ FilteredSpec.subscribedKeys [(Op.dispatch 7 : Op Nat Nat Nat)]) := by
  decide

/-- C7, amended.  After any admissible history on a fresh `FilteredDispatcher`
that still exists: every key whose entry holds a core has had a key-scoped
subscription; every key with an entry has had a key-scoped subscription or was
the key of a dispatched payload (such a dispatch leaves an entry without a
core); and whatever admissible operations follow, while the dispatcher exists
every entry stays and every core stays the core of its key. -/
theorem FilteredDispatcher.map_growth {K Callable T : Type} [DecidableEq K]
    (throws : Callable → T → Bool) (keyOf : T → K) (ops ops2 : List (Op K Callable T))
    (d d2 : FilteredDispatcher K)
    (ha : (World.init K Callable).admissible throws keyOf (ops ++ ops2) = true)
    (hd : ((World.init K Callable).run throws keyOf ops).disp = some d)
    (hd2 : ((World.init K Callable).run throws keyOf (ops ++ ops2)).disp = some d2) :
    (∀ k c, mapFind d.filtered_ k = some (some c) → k ∈ FilteredSpec.subscribedKeys ops) ∧
      (∀ k ∈ ((World.init K Callable).run throws keyOf ops).keys,
        k ∈ FilteredSpec.subscribedKeys ops ∨ k ∈ FilteredSpec.dispatchedKeys keyOf ops) ∧
      (∀ k ∈ ((World.init K Callable).run throws keyOf ops).keys,
        k ∈ ((World.init K Callable).run throws keyOf (ops ++ ops2)).keys) ∧
      (∀ k c, mapFind d.filtered_ k = some (some c) →
        mapFind d2.filtered_ k = some (some c)) := by
  rw [World.admissible_append, Bool.and_eq_true] at ha
  rw [World.run_append] at hd2 ⊢
  have hs := World.run_sound throws keyOf (World.sound_init K Callable) ops ha.1
  obtain ⟨_, _, hC, hD⟩ := World.run_entries throws keyOf (World.sound_init K Callable)
    rfl ops ha.1 hd
  obtain ⟨hA2, hB2, _, _⟩ := World.run_entries throws keyOf hs hd ops2 ha.2 hd2
  have hinit : ∀ k : K, mapFind (FilteredDispatcher.create K
      (Memory.empty Callable)).2.filtered_ k = none := fun k => rfl
  refine ⟨?_, ?_, ?_, hB2⟩
  · intro k c hk
    rcases hD k c hk with h | h
    · rw [hinit] at h
      exact Option.noConfusion h
    · exact h
  · intro k hk
    simp only [World.keys, hd, mem_keys_iff] at hk
    rcases hC k hk with h | h
    · rw [hinit] at h
      exact Bool.noConfusion h
    · exact h
  · intro k hk
    simp only [World.keys, hd, mem_keys_iff] at hk
    simp only [World.keys, hd2, mem_keys_iff]
    exact hA2 k hk

/-- Witness for C7 amended: a subscription for key 5, then a dispatch of a
payload with key 7, then an unfiltered subscription.  Key 5, whose entry holds
a core, was subscribed; key 7, which has an entry, was subscribed or
dispatched; key 7 still has its entry afterwards. -/
theorem FilteredDispatcher.map_growth_witness :
    5 ∈ FilteredSpec.subscribedKeys
        [Op.subscribeKey 11 5 101, (Op.dispatch 7 : Op Nat Nat Nat)] ∧
      (7 ∈ FilteredSpec.subscribedKeys
          [Op.subscribeKey 11 5 101, (Op.dispatch 7 : Op Nat Nat Nat)] ∨
        7 ∈ FilteredSpec.dispatchedKeys id
          [Op.subscribeKey 11 5 101, (Op.dispatch 7 : Op Nat Nat Nat)]) ∧
      7 ∈ ((World.init Nat Nat).run (fun _ _ => false) id
        ([Op.subscribeKey 11 5 101, (Op.dispatch 7 : Op Nat Nat Nat)]
          ++ [Op.subscribe 12 102])).keys :=
  ⟨(FilteredDispatcher.map_growth (fun _ _ => false) id
      [Op.subscribeKey 11 5 101, Op.dispatch 7] [Op.subscribe 12 102]
      ⟨⟨0⟩, [(5, some 1), (7, none)]⟩ ⟨⟨0⟩, [(5, some 1), (7, none)]⟩
      (by decide) (by decide) (by decide)).1 5 1 (by decide),
    (FilteredDispatcher.map_growth (fun _ _ => false) id
      [Op.subscribeKey 11 5 101, Op.dispatch 7] [Op.subscribe 12 102]
      ⟨⟨0⟩, [(5, some 1), (7, none)]⟩ ⟨⟨0⟩, [(5, some 1), (7, none)]⟩
      (by decide) (by decide) (by decide)).2.1 7 (by decide),
    (FilteredDispatcher.map_growth (fun _ _ => false) id
      [Op.subscribeKey 11 5 101, Op.dispatch 7] [Op.subscribe 12 102]
      ⟨⟨0⟩, [(5, some 1), (7, none)]⟩ ⟨⟨0⟩, [(5, some 1), (7, none)]⟩
      (by decide) (by decide) (by decide)).2.2.1 7 (by decide)⟩

theorem World.Sound.unfiltered_eq {K Callable : Type} [DecidableEq K] {w : World K Callable}
    (hs : w.Sound) : w.unfiltered = w.unfilteredRegs.map Prod.fst := by
  unfold World.unfiltered World.unfilteredRegs
  cases hd : w.disp with
  | none => rfl
  | some d => exact (Memory.regs_map_fst hs.mem _).symm

theorem World.Sound.keyed_eq {K Callable : Type} [DecidableEq K] {w : World K Callable}
    (hs : w.Sound) (k : K) : w.keyed k = (w.keyedRegs k).map Prod.fst := by
  unfold World.keyed World.keyedRegs
  cases hd : w.disp with
  | none => rfl
  | some d =>
    simp only []
    cases hk : mapFind d.filtered_ k with
    | none => rfl
    | some p =>
      cases p with
      | none => rfl
      | some c => exact (Memory.regs_map_fst hs.mem _).symm

/-- C8. After any admissible history on a fresh `FilteredDispatcher` that
still exists, `createListener(key, f)` with the new listener object at `l`
leaves the core of `key` with its previous listener sequence (empty when the
key had no core) followed by `l`, and the object at `l` wraps `f` and guards
that core; a core the key already had is still the core of the key; for every
other key the entry and the listener sequence are unchanged, and so is the
listener sequence of the unfiltered core. -/
theorem FilteredDispatcher.createListener_frame {K Callable T : Type} [DecidableEq K]
    (throws : Callable → T → Bool) (keyOf : T → K) (ops : List (Op K Callable T))
    (d : FilteredDispatcher K) (l : ListenerPtr) (key : K) (f : Callable)
    (ha : (World.init K Callable).admissible throws keyOf ops = true)
    (hd : ((World.init K Callable).run throws keyOf ops).disp = some d)
    (he : ((World.init K Callable).run throws keyOf ops).enabled
      (Op.subscribeKey l key f : Op K Callable T) = true) :
    ((((World.init K Callable).run throws keyOf ops).step throws keyOf
        (Op.subscribeKey l key f)).keyed key
      = ((World.init K Callable).run throws keyOf ops).keyed key ++ [l]) ∧
    (∃ d2 c, (((World.init K Callable).run throws keyOf ops).step throws keyOf
        (Op.subscribeKey l key f)).disp = some d2 ∧
      mapFind d2.filtered_ key = some (some c) ∧
      (((World.init K Callable).run throws keyOf ops).step throws keyOf
        (Op.subscribeKey l key f)).mem.listeners l = some ⟨f, c⟩ ∧
      (∀ c0, mapFind d.filtered_ key = some (some c0) → c = c0) ∧
      d2.dispatcher_ = d.dispatcher_ ∧
      ∀ k2, k2 ≠ key → mapFind d2.filtered_ k2 = mapFind d.filtered_ k2) ∧
    (∀ k2, k2 ≠ key →
      (((World.init K Callable).run throws keyOf ops).step throws keyOf
          (Op.subscribeKey l key f)).keyed k2
        = ((World.init K Callable).run throws keyOf ops).keyed k2) ∧
    ((((World.init K Callable).run throws keyOf ops).step throws keyOf
        (Op.subscribeKey l key f)).unfiltered
      = ((World.init K Callable).run throws keyOf ops).unfiltered) := by
  have hs := World.run_sound throws keyOf (World.sound_init K Callable) ops ha
  generalize (World.init K Callable).run throws keyOf ops = w at hs hd he ⊢
  have hs2 := World.step_sound throws keyOf hs he
  have hk := World.step_keyedRegs throws keyOf hs he
  have hu := World.step_unfilteredRegs throws keyOf hs he
  refine ⟨?_, ?_, ?_, ?_⟩
  · rw [hs2.keyed_eq, hs.keyed_eq, hk key]
    simp
  · obtain ⟨c, m0, m1, fm, hm1, hstep, hkey, hother, hcase⟩ :=
      World.step_subscribeKey throws keyOf hs hd l key f
    rw [hstep]
    obtain ⟨_, _, _, hlis, _⟩ := DispatcherBase.createListener_spec hm1
    refine ⟨_, c, rfl, hkey, ?_, ?_, rfl, hother⟩
    · show m1.listeners l = _
      rw [hlis]
      exact upd_same _ _ _
    · intro c0 hc0
      rcases hcase with ⟨hold, _⟩ | ⟨hnone, _, _⟩
      · rw [hold] at hc0
        simpa using hc0
      · exact absurd hc0 (hnone c0)
  · intro k2 hk2
    have hne : ¬ key = k2 := fun e => hk2 e.symm
    rw [hs2.keyed_eq, hs.keyed_eq, hk k2]
    simp only [if_neg hne]
  · rw [hs2.unfiltered_eq, hs.unfiltered_eq, hu]

/-- Witness for C8: with listeners at 10 (unfiltered), 11 (key 5) and 12
(key 6) registered, a further subscription for key 5 at 13 makes the sequence
of key 5 `[11, 13]`. -/
theorem FilteredDispatcher.createListener_frame_witness :
    (((World.init Nat Nat).run (fun _ _ => false) id
        [Op.subscribe 10 100, Op.subscribeKey 11 5 101,
          (Op.subscribeKey 12 6 102 : Op Nat Nat Nat)]).step (fun _ _ => false) id
        (Op.subscribeKey 13 5 103)).keyed 5 = [11] ++ [13] :=
  (FilteredDispatcher.createListener_frame (fun _ _ => false) id
    [Op.subscribe 10 100, Op.subscribeKey 11 5 101, Op.subscribeKey 12 6 102]
    ⟨⟨0⟩, [(5, some 1), (6, some 2)]⟩ 13 5 103 (by decide) (by decide) (by decide)).1

theorem roundOver_cut {Callable T : Type} (throws : Callable → T → Bool) (obj : T)
    (regs pre post : List (ListenerPtr × Callable)) (x : ListenerPtr × Callable)
    (hsplit : regs = pre ++ x :: post) (hnd : (regs.map Prod.fst).Nodup)
    (hpre : ∀ r ∈ pre, throws r.2 obj = false) (hx : throws x.2 obj = true) :
    roundOver throws obj regs = ⟨(pre ++ [x]).map (toInvocation obj), Outcome.thrown⟩ ∧
      ∀ r ∈ post, ∀ i ∈ (roundOver throws obj regs).calls, i.listener ≠ r.1 := by
  have hr : roundOver throws obj regs
      = ⟨(pre ++ [x]).map (toInvocation obj), Outcome.thrown⟩ := by
    rw [hsplit]
    exact roundOver_of_throw throws obj pre post x hpre hx
  refine ⟨hr, ?_⟩
  intro r hrpost i hi e
  rw [hr] at hi
  obtain ⟨r2, hr2, e2⟩ := List.mem_map.mp hi
  have hsplit2 : regs = (pre ++ [x]) ++ post := by
    rw [hsplit]
    simp
  rw [hsplit2, List.map_append, List.nodup_append] at hnd
  have h1 : r2.1 ∈ (pre ++ [x]).map Prod.fst := List.mem_map_of_mem _ hr2
  have h2 : r.1 ∈ post.map Prod.fst := List.mem_map_of_mem _ hrpost
  have h3 : i.listener = r2.1 := by
    rw [← e2]
    rfl
  rw [h3] at e
  rw [e] at h1
  exact hnd.2.2 h1 h2

/-- C9. A listener call that throws ends the round with the exception
propagating to the caller of `dispatch`: with the registered listeners in
round order `pre ++ x :: post`, none of `pre` throwing and `x` throwing, the
round calls exactly `pre` and then `x`, each once (the listener objects are
pairwise distinct), its outcome is the throw, and no listener of `post` is
called; the registrations are the same after the round.  First for the
`SimpleDispatcher`; then for the `FilteredDispatcher`, where a throwing
key-specific listener leaves every unfiltered listener uncalled. -/
theorem dispatch_failure_propagates {K Callable T : Type} [DecidableEq K]
    (throws : Callable → T → Bool) (keyOf : T → K) :
    (∀ (ops : List (SimpleOp Callable T)) (obj : T)
        (pre post : List (ListenerPtr × Callable)) (x : ListenerPtr × Callable),
      (SimpleWorld.init Callable).admissible ops = true →
      SimpleSpec.registered ops = pre ++ x :: post →
      (∀ r ∈ pre, throws r.2 obj = false) → throws x.2 obj = true →
      (((SimpleWorld.init Callable).run ops).disp.dispatch throws
          ((SimpleWorld.init Callable).run ops).mem obj
        = ⟨(pre ++ [x]).map (toInvocation obj), Outcome.thrown⟩) ∧
      ((pre ++ x :: post).map Prod.fst).Nodup ∧
      (∀ r ∈ post, ∀ i ∈ (((SimpleWorld.init Callable).run ops).disp.dispatch throws
          ((SimpleWorld.init Callable).run ops).mem obj).calls, i.listener ≠ r.1) ∧
      ((SimpleWorld.init Callable).run ops).step (SimpleOp.dispatch obj)
        = (SimpleWorld.init Callable).run ops) ∧
    (∀ (ops : List (Op K Callable T)) (d : FilteredDispatcher K) (obj : T)
        (pre post : List (ListenerPtr × Callable)) (x : ListenerPtr × Callable),
      (World.init K Callable).admissible throws keyOf ops = true →
      ((World.init K Callable).run throws keyOf ops).disp = some d →
      FilteredSpec.keyed (keyOf obj) ops ++ FilteredSpec.unfiltered ops = pre ++ x :: post →
      (∀ r ∈ pre, throws r.2 obj = false) → throws x.2 obj = true →
      ((d.dispatch throws keyOf ((World.init K Callable).run throws keyOf ops).mem obj).2
        = ⟨(pre ++ [x]).map (toInvocation obj), Outcome.thrown⟩) ∧
      ((pre ++ x :: post).map Prod.fst).Nodup ∧
      (∀ r ∈ post, ∀ i ∈ (d.dispatch throws keyOf
          ((World.init K Callable).run throws keyOf ops).mem obj).2.calls,
        i.listener ≠ r.1) ∧
      (∀ post1, FilteredSpec.keyed (keyOf obj) ops = pre ++ x :: post1 →
        ∀ r ∈ FilteredSpec.unfiltered ops, ∀ i ∈ (d.dispatch throws keyOf
          ((World.init K Callable).run throws keyOf ops).mem obj).2.calls,
        i.listener ≠ r.1) ∧
      ((((World.init K Callable).run throws keyOf ops).step throws keyOf
          (Op.dispatch obj)).mem = ((World.init K Callable).run throws keyOf ops).mem) ∧
      ((((World.init K Callable).run throws keyOf ops).step throws keyOf
          (Op.dispatch obj)).unfilteredRegs = FilteredSpec.unfiltered ops) ∧
      ∀ k, (((World.init K Callable).run throws keyOf ops).step throws keyOf
          (Op.dispatch obj)).keyedRegs k = FilteredSpec.keyed k ops) := by
  constructor
  · intro ops obj pre post x ha hsplit hpre hx
    have hs := SimpleWorld.simple_run_sound (SimpleWorld.simple_sound_init Callable) ops ha
    have hregs := SimpleWorld.simple_regs_run_init ops ha
    have hnd : ((SimpleSpec.registered ops).map Prod.fst).Nodup := by
      rw [← hregs]
      exact hs.mem.regs_nodup _
    have hcut := roundOver_cut throws obj _ pre post x hsplit hnd hpre hx
    rw [SimpleWorld.simple_dispatch_eq throws hs obj, hregs]
    refine ⟨hcut.1, ?_, hcut.2, rfl⟩
    rw [← hsplit]
    exact hnd
  · intro ops d obj pre post x ha hd hsplit hpre hx
    have hs := World.run_sound throws keyOf (World.sound_init K Callable) ops ha
    have hfin : ((World.init K Callable).run throws keyOf ops).disp.isSome = true := by
      rw [hd]
      rfl
    obtain ⟨hu, hk⟩ := World.regs_run_init throws keyOf ops ha hfin
    have hnd := hs.round_nodup (keyOf obj)
    rw [hu, hk] at hnd
    have hcut := roundOver_cut throws obj _ pre post x hsplit hnd hpre hx
    have hround := World.dispatch_eq throws keyOf hs hd obj
    rw [hu, hk] at hround
    have hen : ((World.init K Callable).run throws keyOf ops).enabled
        (Op.dispatch obj : Op K Callable T) = true := hfin
    have hu2 := World.step_unfilteredRegs throws keyOf hs hen
    have hk2 := World.step_keyedRegs throws keyOf hs hen
    rw [hround]
    refine ⟨hcut.1, ?_, hcut.2, ?_, ?_, ?_, ?_⟩
    · rw [← hsplit]
      exact hnd
    · intro post1 hkeyed r hr
      apply hcut.2 r
      have hpost : post = post1 ++ FilteredSpec.unfiltered ops := by
        rw [hkeyed] at hsplit
        simp only [List.append_assoc, List.cons_append] at hsplit
        have h2 := List.append_cancel_left hsplit
        simp only [List.cons.injEq, true_and] at h2
        exact h2.symm
      rw [hpost]
      exact List.mem_append_right _ hr
    · rw [World.step_dispatch throws keyOf hd obj]
    · rw [hu2, hu]
    · intro k
      rw [hk2 k, hk k]

/-- Witness for C9: listeners at 10, 11, 12 wrapping callables 100, 101, 102,
of which 101 throws.  On the `SimpleDispatcher` the round calls 10 and 11 and
ends with the throw; on the `FilteredDispatcher`, with 11 registered for key 5
and 10 and 12 unfiltered, a payload with key 5 reaches 11 only. -/
theorem dispatch_failure_propagates_witness :
    (((SimpleWorld.init Nat).run
        [SimpleOp.subscribe 10 100, SimpleOp.subscribe 11 101,
          (SimpleOp.subscribe 12 102 : SimpleOp Nat Nat)]).disp.dispatch
        (fun f _ => f == 101)
        ((SimpleWorld.init Nat).run
          [SimpleOp.subscribe 10 100, SimpleOp.subscribe 11 101,
            (SimpleOp.subscribe 12 102 : SimpleOp Nat Nat)]).mem 7
      = ⟨([(10, 100)] ++ [(11, 101)]).map (toInvocation 7), Outcome.thrown⟩) ∧
    (((⟨⟨0⟩, [(5, some 1)]⟩ : FilteredDispatcher Nat).dispatch (fun f _ => f == 101) id
        ((World.init Nat Nat).run (fun f _ => f == 101) id
          [Op.subscribe 10 100, Op.subscribeKey 11 5 101,
            (Op.subscribe 12 102 : Op Nat Nat Nat)]).mem 5).2
      = ⟨([] ++ [(11, 101)]).map (toInvocation 5), Outcome.thrown⟩) :=
  ⟨((dispatch_failure_propagates (fun f _ => f == 101) (id : Nat → Nat)).1
      [SimpleOp.subscribe 10 100, SimpleOp.subscribe 11 101, SimpleOp.subscribe 12 102] 7
      [(10, 100)] [(12, 102)] (11, 101) (by decide) (by decide) (by decide) (by decide)).1,
    ((dispatch_failure_propagates (fun f _ => f == 101) (id : Nat → Nat)).2
      [Op.subscribe 10 100, Op.subscribeKey 11 5 101, Op.subscribe 12 102]
      ⟨⟨0⟩, [(5, some 1)]⟩ 5 [] [(10, 100), (12, 102)] (11, 101)
      (by decide) (by decide) (by decide) (by decide) (by decide)).1⟩

theorem SimpleWorld.count_eq {Callable : Type} {w : SimpleWorld Callable} (hs : w.Sound) :
    w.count = some w.regs.length := by
  obtain ⟨core, hc⟩ := Option.isSome_iff_exists.mp hs.core
  have h1 : w.regs.length = (w.mem.listenersOf w.disp.dispatcher_).length := by
    rw [← Memory.regs_map_fst hs.mem, List.length_map]
    rfl
  rw [h1]
  simp [SimpleWorld.count, hc, DispatcherBase.numListeners, Memory.listenersOf]

/-- C10. After any admissible history on a fresh `SimpleDispatcher`,
registering the same callable `f` twice (the two listener objects are at `l1`
and `l2`) gives two subscriptions: the addresses differ, the listener count of
the core grows by two, and a dispatch in which nothing throws makes the calls
it made before followed by a call of `f` at `l1` and a call of `f` at `l2`.
Dropping the handle of either leaves the other registered: the dispatch then
makes the calls it made before followed by the one call of `f` on the listener
that is left, and the count is one more than before. -/
theorem SimpleDispatcher.no_duplicate_detection {Callable T : Type}
    (throws : Callable → T → Bool) (ops : List (SimpleOp Callable T))
    (l1 l2 : ListenerPtr) (f : Callable) (obj : T)
    (ha : (SimpleWorld.init Callable).admissible
      (ops ++ [SimpleOp.subscribe l1 f, SimpleOp.subscribe l2 f]) = true)
    (hno : ∀ r ∈ SimpleSpec.registered ops, throws r.2 obj = false)
    (hf : throws f obj = false) :
    l1 ≠ l2 ∧
    (((SimpleWorld.init Callable).run
        (ops ++ [SimpleOp.subscribe l1 f, (SimpleOp.subscribe l2 f : SimpleOp Callable T)])).count
      = (((SimpleWorld.init Callable).run ops).count).map (fun n => n + 2)) ∧
    (((SimpleWorld.init Callable).run ops).count).isSome = true ∧
    (((SimpleWorld.init Callable).run ops).disp.dispatch throws
        ((SimpleWorld.init Callable).run ops).mem obj
      = ⟨(SimpleSpec.registered ops).map (toInvocation obj), Outcome.returned⟩) ∧
    (((SimpleWorld.init Callable).run
        (ops ++ [SimpleOp.subscribe l1 f, SimpleOp.subscribe l2 f])).disp.dispatch throws
        ((SimpleWorld.init Callable).run
          (ops ++ [SimpleOp.subscribe l1 f, SimpleOp.subscribe l2 f])).mem obj
      = ⟨(SimpleSpec.registered ops).map (toInvocation obj) ++ [⟨l1, f, obj⟩, ⟨l2, f, obj⟩],
          Outcome.returned⟩) ∧
    (((SimpleWorld.init Callable).run
        (ops ++ [SimpleOp.subscribe l1 f, SimpleOp.subscribe l2 f,
          SimpleOp.drop l1])).disp.dispatch throws
        ((SimpleWorld.init Callable).run
          (ops ++ [SimpleOp.subscribe l1 f, SimpleOp.subscribe l2 f,
            SimpleOp.drop l1])).mem obj
      = ⟨(SimpleSpec.registered ops).map (toInvocation obj) ++ [⟨l2, f, obj⟩],
          Outcome.returned⟩) ∧
    (((SimpleWorld.init Callable).run
        (ops ++ [SimpleOp.subscribe l1 f, SimpleOp.subscribe l2 f,
          SimpleOp.drop l2])).disp.dispatch throws
        ((SimpleWorld.init Callable).run
          (ops ++ [SimpleOp.subscribe l1 f, SimpleOp.subscribe l2 f,
            SimpleOp.drop l2])).mem obj
      = ⟨(SimpleSpec.registered ops).map (toInvocation obj) ++ [⟨l1, f, obj⟩],
          Outcome.returned⟩) ∧
    (((SimpleWorld.init Callable).run
        (ops ++ [SimpleOp.subscribe l1 f, SimpleOp.subscribe l2 f,
          (SimpleOp.drop l1 : SimpleOp Callable T)])).count
      = (((SimpleWorld.init Callable).run ops).count).map (fun n => n + 1)) := by
  have ha0 := ha
  rw [SimpleWorld.simple_admissible_append, Bool.and_eq_true] at ha0
  have hs0 := SimpleWorld.simple_run_sound (SimpleWorld.simple_sound_init Callable) ops ha0.1
  have hs2 := SimpleWorld.simple_run_sound (SimpleWorld.simple_sound_init Callable) _ ha
  have hr0 := SimpleWorld.simple_regs_run_init ops ha0.1
  have hr2 := SimpleWorld.simple_regs_run hs0 _ ha0.2
  rw [← SimpleWorld.simple_run_append] at hr2
  have hfilt : ∀ L : List (ListenerPtr × Callable),
      L.filter (fun r => !SimpleSpec.dropped r.1
        [SimpleOp.subscribe l1 f, (SimpleOp.subscribe l2 f : SimpleOp Callable T)]) = L := by
    intro L
    rw [List.filter_eq_self]
    intro a _
    simp [SimpleSpec.dropped]
  rw [hfilt, hr0] at hr2
  have hreg2 : SimpleSpec.registered
      [SimpleOp.subscribe l1 f, (SimpleOp.subscribe l2 f : SimpleOp Callable T)]
      = [(l1, f), (l2, f)] := by
    simp [SimpleSpec.registered, SimpleSpec.dropped]
  rw [hreg2] at hr2
  -- the addresses of the registrations are pairwise distinct
  have hnd := hs2.mem.regs_nodup
    ((SimpleWorld.init Callable).run
      (ops ++ [SimpleOp.subscribe l1 f, (SimpleOp.subscribe l2 f : SimpleOp Callable T)])
    ).disp.dispatcher_
  have hnd2 : ((SimpleSpec.registered ops ++ [(l1, f), (l2, f)]).map Prod.fst).Nodup := by
    rw [← hr2]
    exact hnd
  rw [List.map_append, List.nodup_append] at hnd2
  obtain ⟨_, hn12, hdisj⟩ := hnd2
  have hl12 : l1 ≠ l2 := by
    intro e
    simp [e] at hn12
  have hold1 : ∀ r ∈ SimpleSpec.registered ops, r.1 ≠ l1 := by
    intro r hr e
    exact hdisj (List.mem_map_of_mem Prod.fst hr) (by simp [e])
  have hold2 : ∀ r ∈ SimpleSpec.registered ops, r.1 ≠ l2 := by
    intro r hr e
    exact hdisj (List.mem_map_of_mem Prod.fst hr) (by simp [e])
  -- the world after one more drop
  have hlive : ∀ l, l = l1 ∨ l = l2 →
      (((SimpleWorld.init Callable).run
        (ops ++ [SimpleOp.subscribe l1 f, (SimpleOp.subscribe l2 f : SimpleOp Callable T)])
        ).mem.listeners l).isSome = true := by
    intro l hl
    have hmem : l ∈ (((SimpleWorld.init Callable).run
        (ops ++ [SimpleOp.subscribe l1 f, (SimpleOp.subscribe l2 f : SimpleOp Callable T)])
        ).regs).map Prod.fst := by
      rw [hr2]
      rcases hl with e | e <;> simp [e]
    rw [SimpleWorld.regs, Memory.regs_map_fst hs2.mem] at hmem
    obtain ⟨g, hg, _⟩ := hs2.mem.live hmem
    rw [hg]
    rfl
  have hdrop : ∀ l, l = l1 ∨ l = l2 →
      (((SimpleWorld.init Callable).run
        (ops ++ [SimpleOp.subscribe l1 f, (SimpleOp.subscribe l2 f : SimpleOp Callable T)])
        ).step (SimpleOp.drop l : SimpleOp Callable T)).Sound ∧
      (((SimpleWorld.init Callable).run
        (ops ++ [SimpleOp.subscribe l1 f, (SimpleOp.subscribe l2 f : SimpleOp Callable T)])
        ).step (SimpleOp.drop l : SimpleOp Callable T)).regs
        = (SimpleSpec.registered ops ++ [(l1, f), (l2, f)]).filter (fun r => r.1 != l) := by
    intro l hl
    have hen : ((SimpleWorld.init Callable).run
        (ops ++ [SimpleOp.subscribe l1 f, (SimpleOp.subscribe l2 f : SimpleOp Callable T)])
        ).enabled (SimpleOp.drop l : SimpleOp Callable T) = true := hlive l hl
    refine ⟨SimpleWorld.simple_step_sound hs2 hen, ?_⟩
    rw [SimpleWorld.step_regs hs2 hen, hr2]
  have hkeep : ∀ l, (∀ r ∈ SimpleSpec.registered ops, r.1 ≠ l) →
      (SimpleSpec.registered ops).filter (fun r => r.1 != l) = SimpleSpec.registered ops := by
    intro l h
    rw [List.filter_eq_self]
    intro a ha
    simpa using h a ha
  have hrun3 : ∀ l, (SimpleWorld.init Callable).run
      (ops ++ [SimpleOp.subscribe l1 f, SimpleOp.subscribe l2 f,
        (SimpleOp.drop l : SimpleOp Callable T)])
      = ((SimpleWorld.init Callable).run
        (ops ++ [SimpleOp.subscribe l1 f, (SimpleOp.subscribe l2 f : SimpleOp Callable T)])
        ).step (SimpleOp.drop l : SimpleOp Callable T) := by
    intro l
    have e : ops ++ [SimpleOp.subscribe l1 f, SimpleOp.subscribe l2 f,
        (SimpleOp.drop l : SimpleOp Callable T)]
        = (ops ++ [SimpleOp.subscribe l1 f, SimpleOp.subscribe l2 f]) ++ [SimpleOp.drop l] := by
      simp
    rw [e, SimpleWorld.simple_run_append]
    rfl
  have hno2 : ∀ r ∈ SimpleSpec.registered ops ++ [(l1, f), (l2, f)],
      throws r.2 obj = false := by
    intro r hr
    rcases List.mem_append.mp hr with h | h
    · exact hno r h
    · simp only [List.mem_cons, List.mem_singleton, List.not_mem_nil, or_false] at h
      rcases h with e | e <;> rw [e] <;> exact hf
  have hregs1 : ((SimpleWorld.init Callable).run
        (ops ++ [SimpleOp.subscribe l1 f, (SimpleOp.subscribe l2 f : SimpleOp Callable T)])
        |>.step (SimpleOp.drop l1 : SimpleOp Callable T)).regs
      = SimpleSpec.registered ops ++ [(l2, f)] := by
    rw [(hdrop l1 (Or.inl rfl)).2, List.filter_append, hkeep l1 hold1]
    have hl21 : ¬ l2 = l1 := fun e => hl12 e.symm
    simp [List.filter_cons, hl21]
  have hregs2 : ((SimpleWorld.init Callable).run
        (ops ++ [SimpleOp.subscribe l1 f, (SimpleOp.subscribe l2 f : SimpleOp Callable T)])
        |>.step (SimpleOp.drop l2 : SimpleOp Callable T)).regs
      = SimpleSpec.registered ops ++ [(l1, f)] := by
    rw [(hdrop l2 (Or.inr rfl)).2, List.filter_append, hkeep l2 hold2]
    simp [List.filter_cons, hl12]
  refine ⟨hl12, ?_, ?_, ?_, ?_, ?_, ?_, ?_⟩
  · rw [SimpleWorld.count_eq hs2, SimpleWorld.count_eq hs0, hr2, hr0]
    simp
  · rw [SimpleWorld.count_eq hs0]
    rfl
  · rw [SimpleWorld.simple_dispatch_eq throws hs0 obj, hr0]
    exact roundOver_of_no_throw throws obj _ hno
  · rw [SimpleWorld.simple_dispatch_eq throws hs2 obj, hr2,
      roundOver_of_no_throw throws obj _ hno2]
    simp [toInvocation]
  · rw [hrun3 l1, SimpleWorld.simple_dispatch_eq throws (hdrop l1 (Or.inl rfl)).1 obj, hregs1,
      roundOver_of_no_throw throws obj _ (fun r hr => hno2 r (by
        rcases List.mem_append.mp hr with h | h
        · exact List.mem_append_left _ h
        · exact List.mem_append_right _ (by simp at h; simp [h])))]
    simp [toInvocation]
  · rw [hrun3 l2, SimpleWorld.simple_dispatch_eq throws (hdrop l2 (Or.inr rfl)).1 obj, hregs2,
      roundOver_of_no_throw throws obj _ (fun r hr => hno2 r (by
        rcases List.mem_append.mp hr with h | h
        · exact List.mem_append_left _ h
        · exact List.mem_append_right _ (by simp at h; simp [h])))]
    simp [toInvocation]
  · rw [hrun3 l1, SimpleWorld.count_eq (hdrop l1 (Or.inl rfl)).1, hregs1,
      SimpleWorld.count_eq hs0, hr0]
    simp

/-- Witness for C10: on a fresh `SimpleDispatcher` the callable 100 is
registered at 10 and at 11; a dispatch calls it twice, and after the handle of
10 is dropped, once. -/
theorem SimpleDispatcher.no_duplicate_detection_witness :
    (((SimpleWorld.init Nat).run
        ([] ++ [SimpleOp.subscribe 10 100, (SimpleOp.subscribe 11 100 : SimpleOp Nat Nat)])
        ).disp.dispatch (fun _ _ => false)
        ((SimpleWorld.init Nat).run
          ([] ++ [SimpleOp.subscribe 10 100, (SimpleOp.subscribe 11 100 : SimpleOp Nat Nat)])
          ).mem 7
      = ⟨[] ++ [⟨10, 100, 7⟩, ⟨11, 100, 7⟩], Outcome.returned⟩) ∧
    (((SimpleWorld.init Nat).run
        ([] ++ [SimpleOp.subscribe 10 100, SimpleOp.subscribe 11 100,
          (SimpleOp.drop 10 : SimpleOp Nat Nat)])).disp.dispatch (fun _ _ => false)
        ((SimpleWorld.init Nat).run
          ([] ++ [SimpleOp.subscribe 10 100, SimpleOp.subscribe 11 100,
            (SimpleOp.drop 10 : SimpleOp Nat Nat)])).mem 7
      = ⟨[] ++ [⟨11, 100, 7⟩], Outcome.returned⟩) :=
  ⟨(SimpleDispatcher.no_duplicate_detection (fun _ _ => false) [] 10 11 100 7
      (by decide) (by simp [SimpleSpec.registered]) rfl).2.2.2.2.1,
    (SimpleDispatcher.no_duplicate_detection (fun _ _ => false) [] 10 11 100 7
      (by decide) (by simp [SimpleSpec.registered]) rfl).2.2.2.2.2.1⟩

/-! ### Dropping the handle of a listed listener -/

theorem filter_ne_eq_erase {L : List ListenerPtr} (hnd : L.Nodup) (l : ListenerPtr) :
    L.filter (fun x => x != l) = L.erase l := by
  induction L with
  | nil => rfl
  | cons a rest ih =>
    have hnd2 := List.nodup_cons.mp hnd
    by_cases h : a = l
    · subst h
      rw [List.erase_cons_head]
      rw [List.filter_cons_of_neg (by simp)]
      rw [List.filter_eq_self]
      intro x hx
      have : x ≠ a := fun e => hnd2.1 (e ▸ hx)
      simpa using this
    · rw [List.filter_cons_of_pos (by simpa using h), ih hnd2.2]
      rw [List.erase_cons_tail (by simpa using h)]

theorem Memory.Sound.drop_listed_mem {Callable : Type} {m : Memory Callable} (hs : m.Sound)
    {c : CorePtr} {core : DispatcherBase} {l : ListenerPtr} (hc : m.cores c = some core)
    (hl : l ∈ core.listeners_) :
    ∃ m1, GuardedListener.destructor m l = some m1 ∧
      m1.cores = upd m.cores c (some (core.remove l)) ∧
      m1.listeners = upd m.listeners l none ∧
      (core.remove l).listeners_ = core.listeners_.erase l ∧
      (core.remove l).listeners_.length + 1 = core.listeners_.length := by
  obtain ⟨g, hg, hgc⟩ := hs.live_of_mem c core l hc hl
  obtain ⟨m1, hm1⟩ := Option.isSome_iff_exists.mp
    (GuardedListener.destructor_isSome m (by rw [hg]; rfl))
  obtain ⟨g2, hg2, hlis, _, hcase⟩ := GuardedListener.destructor_spec hm1
  rw [hg] at hg2
  cases hg2
  have herase : (core.remove l).listeners_ = core.listeners_.erase l :=
    filter_ne_eq_erase (hs.nodup c core hc) l
  refine ⟨m1, hm1, ?_, hlis, herase, ?_⟩
  · rcases hcase with ⟨d, hd, hcores⟩ | ⟨hd, _⟩
    · rw [hgc, hc] at hd
      cases hd
      rw [hcores, hgc]
    · rw [hgc, hc] at hd
      exact Option.noConfusion hd
  · rw [herase, List.length_erase_of_mem hl]
    have := List.length_pos_of_mem hl
    omega

/-- C14. After any admissible history of subscriptions, key-scoped
subscriptions, dispatches, handle drops and the destruction of the dispatcher,
every reference in the listener sequence of a core that exists refers to a
listener object that is alive, and that object guards this very core; so a
dispatch on the dispatcher, while it exists, never reaches a dead object. -/
theorem DispatcherBase.listed_listeners_alive {K Callable T : Type} [DecidableEq K]
    (throws : Callable → T → Bool) (keyOf : T → K) (ops : List (Op K Callable T))
    (c : CorePtr) (core : DispatcherBase) (l : ListenerPtr)
    (ha : (World.init K Callable).admissible throws keyOf ops = true)
    (hc : ((World.init K Callable).run throws keyOf ops).mem.cores c = some core)
    (hl : l ∈ core.listeners_) :
    (∃ g, ((World.init K Callable).run throws keyOf ops).mem.listeners l = some g ∧
        g.guard_ = c) ∧
      ∀ d obj, ((World.init K Callable).run throws keyOf ops).disp = some d →
        (d.dispatch throws keyOf ((World.init K Callable).run throws keyOf ops).mem
          obj).2.outcome ≠ Outcome.fault := by
  have hs := World.run_sound throws keyOf (World.sound_init K Callable) ops ha
  refine ⟨hs.mem.live_of_mem c core l hc hl, ?_⟩
  intro d obj hd
  rw [World.dispatch_eq throws keyOf hs hd obj]
  exact roundOver_outcome_ne_fault throws obj _

/-- Witness for C14: after subscriptions at 10 (unfiltered) and 11 (key 5), a
dispatch and the drop of 10, the core of key 5 lists 11, and 11 is alive. -/
theorem DispatcherBase.listed_listeners_alive_witness :
    ∃ g, ((World.init Nat Nat).run (fun _ _ => false) id
        [Op.subscribe 10 100, Op.subscribeKey 11 5 101, Op.dispatch 7,
          (Op.drop 10 : Op Nat Nat Nat)]).mem.listeners 11 = some g ∧ g.guard_ = 1 :=
  (DispatcherBase.listed_listeners_alive (fun _ _ => false) id
    [Op.subscribe 10 100, Op.subscribeKey 11 5 101, Op.dispatch 7, Op.drop 10]
    1 ⟨[11]⟩ 11 (by decide) (by decide) (by decide)).1

/-- C17. When every registration places the new listener object at an address
where no listener is alive (the history is admissible), then after the history
no core lists a reference twice, no reference is listed by two different
cores, and dropping the handle of a listed listener leaves its core with the
same sequence without that reference, one element shorter. -/
theorem DispatcherBase.no_duplicate_references {K Callable T : Type} [DecidableEq K]
    (throws : Callable → T → Bool) (keyOf : T → K) (ops : List (Op K Callable T))
    (ha : (World.init K Callable).admissible throws keyOf ops = true) :
    (∀ c core, ((World.init K Callable).run throws keyOf ops).mem.cores c = some core →
        core.listeners_.Nodup) ∧
      (∀ c1 c2 core1 core2 l,
        ((World.init K Callable).run throws keyOf ops).mem.cores c1 = some core1 →
        ((World.init K Callable).run throws keyOf ops).mem.cores c2 = some core2 →
        l ∈ core1.listeners_ → l ∈ core2.listeners_ → c1 = c2) ∧
      (∀ c core l, ((World.init K Callable).run throws keyOf ops).mem.cores c = some core →
        l ∈ core.listeners_ →
        ∃ core2, (((World.init K Callable).run throws keyOf ops).step throws keyOf
            (Op.drop l)).mem.cores c = some core2 ∧
          core2.listeners_ = core.listeners_.erase l ∧
          core2.listeners_.length + 1 = core.listeners_.length) := by
  have hs := World.run_sound throws keyOf (World.sound_init K Callable) ops ha
  generalize (World.init K Callable).run throws keyOf ops = w at hs ⊢
  refine ⟨hs.mem.nodup, ?_, ?_⟩
  · intro c1 c2 core1 core2 l h1 h2 hl1 hl2
    obtain ⟨g1, hg1, e1⟩ := hs.mem.live_of_mem c1 core1 l h1 hl1
    obtain ⟨g2, hg2, e2⟩ := hs.mem.live_of_mem c2 core2 l h2 hl2
    rw [hg1] at hg2
    cases hg2
    exact e1.symm.trans e2
  · intro c core l hc hl
    obtain ⟨m1, hm1, hcores, _, herase, hlen⟩ := hs.mem.drop_listed_mem hc hl
    have hstep : w.step throws keyOf (Op.drop l) = { w with mem := m1 } := by
      simp [World.step, hm1]
    rw [hstep]
    refine ⟨core.remove l, ?_, herase, hlen⟩
    show m1.cores c = _
    rw [hcores]
    exact upd_same _ _ _

/-- Witness for C17: two listeners for key 5 at 11 and 12 and one unfiltered
at 10; the sequence of key 5 is free of repetitions, and dropping the handle of
11 leaves it one element shorter. -/
theorem DispatcherBase.no_duplicate_references_witness :
    ([11, 12] : List ListenerPtr).Nodup ∧
      ∃ core2, (((World.init Nat Nat).run (fun _ _ => false) id
          [Op.subscribe 10 100, Op.subscribeKey 11 5 101,
            (Op.subscribeKey 12 5 102 : Op Nat Nat Nat)]).step (fun _ _ => false) id
          (Op.drop 11)).mem.cores 1 = some core2 ∧
        core2.listeners_ = ([11, 12] : List ListenerPtr).erase 11 ∧
        core2.listeners_.length + 1 = ([11, 12] : List ListenerPtr).length :=
  ⟨(DispatcherBase.no_duplicate_references (fun _ _ => false) id
      [Op.subscribe 10 100, Op.subscribeKey 11 5 101,
        (Op.subscribeKey 12 5 102 : Op Nat Nat Nat)]
      (by decide)).1 1 ⟨[11, 12]⟩ (by decide),
    (DispatcherBase.no_duplicate_references (fun _ _ => false) id
      [Op.subscribe 10 100, Op.subscribeKey 11 5 101,
        (Op.subscribeKey 12 5 102 : Op Nat Nat Nat)]
      (by decide)).2.2 1 ⟨[11, 12]⟩ 11 (by decide) (by decide)⟩

theorem World.drop_listed {K Callable T : Type} [DecidableEq K]
    (throws : Callable → T → Bool) (keyOf : T → K) {w : World K Callable} (hs : w.Sound)
    {c : CorePtr} {l : ListenerPtr} (hl : l ∈ w.mem.listenersOf c) :
    (w.step throws keyOf (Op.drop l)).disp = w.disp ∧
      (w.step throws keyOf (Op.drop l)).mem.listenersOf c = (w.mem.listenersOf c).erase l ∧
      (∀ c2, c2 ≠ c → (w.step throws keyOf (Op.drop l)).mem.cores c2 = w.mem.cores c2) ∧
      (w.step throws keyOf (Op.drop l)).mem.listeners l = none ∧
      ∀ l2, l2 ≠ l → (w.step throws keyOf (Op.drop l)).mem.listeners l2
        = w.mem.listeners l2 := by
  have hc : ∃ core, w.mem.cores c = some core ∧ l ∈ core.listeners_ := by
    unfold Memory.listenersOf at hl
    cases hcore : w.mem.cores c with
    | none => simp [hcore] at hl
    | some core =>
      simp only [hcore] at hl
      exact ⟨core, rfl, hl⟩
  obtain ⟨core, hcore, hmem⟩ := hc
  obtain ⟨m1, hm1, hcores, hlis, herase, _⟩ := hs.mem.drop_listed_mem hcore hmem
  have hstep : w.step throws keyOf (Op.drop l) = { w with mem := m1 } := by
    simp [World.step, hm1]
  rw [hstep]
  refine ⟨rfl, ?_, ?_, ?_, ?_⟩
  · show m1.listenersOf c = _
    simp only [Memory.listenersOf, hcores, upd_same, hcore]
    exact herase
  · intro c2 hc2
    show m1.cores c2 = _
    rw [hcores]
    exact upd_ne _ _ hc2
  · show m1.listeners l = none
    rw [hlis]
    exact upd_same _ _ _
  · intro l2 hl2
    show m1.listeners l2 = _
    rw [hlis]
    exact upd_ne _ _ hl2

/-- C15. After any admissible history on a `FilteredDispatcher` that still
exists, dropping the handle of a listener listed for `key` removes that one
reference from the sequence of the core of `key` and changes no other core;
the dispatcher object, and with it the keys and entries of `filtered_`, is
unchanged, and so are the sequence of every other key and the unfiltered
sequence.  Dropping the handle of an unfiltered listener removes that one
reference from the unfiltered sequence and changes no other core, the
dispatcher object or the sequence of any key. -/
theorem GuardedListener.drop_changes_own_core_only {K Callable T : Type} [DecidableEq K]
    (throws : Callable → T → Bool) (keyOf : T → K) (ops : List (Op K Callable T))
    (d : FilteredDispatcher K) (l : ListenerPtr)
    (ha : (World.init K Callable).admissible throws keyOf ops = true)
    (hd : ((World.init K Callable).run throws keyOf ops).disp = some d) :
    (∀ key, l ∈ ((World.init K Callable).run throws keyOf ops).keyed key →
      ∃ c, mapFind d.filtered_ key = some (some c) ∧
        (((World.init K Callable).run throws keyOf ops).step throws keyOf
            (Op.drop l)).keyed key
          = (((World.init K Callable).run throws keyOf ops).keyed key).erase l ∧
        (∀ c2, c2 ≠ c →
          (((World.init K Callable).run throws keyOf ops).step throws keyOf
            (Op.drop l)).mem.cores c2
            = ((World.init K Callable).run throws keyOf ops).mem.cores c2) ∧
        (((World.init K Callable).run throws keyOf ops).step throws keyOf
            (Op.drop l)).disp = some d ∧
        (((World.init K Callable).run throws keyOf ops).step throws keyOf
            (Op.drop l)).keys = ((World.init K Callable).run throws keyOf ops).keys ∧
        (((World.init K Callable).run throws keyOf ops).step throws keyOf
            (Op.drop l)).unfiltered
          = ((World.init K Callable).run throws keyOf ops).unfiltered ∧
        ∀ k2, k2 ≠ key →
          (((World.init K Callable).run throws keyOf ops).step throws keyOf
              (Op.drop l)).keyed k2
            = ((World.init K Callable).run throws keyOf ops).keyed k2) ∧
    (l ∈ ((World.init K Callable).run throws keyOf ops).unfiltered →
      (((World.init K Callable).run throws keyOf ops).step throws keyOf
          (Op.drop l)).unfiltered
        = (((World.init K Callable).run throws keyOf ops).unfiltered).erase l ∧
      (∀ c2, c2 ≠ d.dispatcher_ →
        (((World.init K Callable).run throws keyOf ops).step throws keyOf
          (Op.drop l)).mem.cores c2
          = ((World.init K Callable).run throws keyOf ops).mem.cores c2) ∧
      (((World.init K Callable).run throws keyOf ops).step throws keyOf
          (Op.drop l)).disp = some d ∧
      ∀ k, (((World.init K Callable).run throws keyOf ops).step throws keyOf
            (Op.drop l)).keyed k
          = ((World.init K Callable).run throws keyOf ops).keyed k) := by
  have hs := World.run_sound throws keyOf (World.sound_init K Callable) ops ha
  generalize (World.init K Callable).run throws keyOf ops = w at hs hd ⊢
  have hsame : ∀ c c2, c2 ≠ c →
      (∀ c3, c3 ≠ c → (w.step throws keyOf (Op.drop l)).mem.cores c3 = w.mem.cores c3) →
      (w.step throws keyOf (Op.drop l)).mem.listenersOf c2 = w.mem.listenersOf c2 := by
    intro c c2 hne h
    simp only [Memory.listenersOf, h c2 hne]
  constructor
  · intro key hl
    have hcase : ∃ c, mapFind d.filtered_ key = some (some c) ∧ l ∈ w.mem.listenersOf c := by
      simp only [World.keyed, hd] at hl
      cases hk : mapFind d.filtered_ key with
      | none => simp [hk] at hl
      | some p =>
        cases p with
        | none => simp [hk] at hl
        | some c =>
          simp only [hk] at hl
          exact ⟨c, rfl, hl⟩
    obtain ⟨c, hkc, hlc⟩ := hcase
    obtain ⟨hdisp, herase, hcores, _, _⟩ := World.drop_listed throws keyOf hs hlc
    rw [hd] at hdisp
    refine ⟨c, hkc, ?_, hcores, hdisp, ?_, ?_, ?_⟩
    · simp only [World.keyed, hdisp, hd, hkc]
      exact herase
    · simp only [World.keys, hdisp, hd]
    · simp only [World.unfiltered, hdisp, hd]
      exact hsame c _ (fun e => hs.keyed_ne_base d key c hd hkc e.symm) hcores
    · intro k2 hk2
      simp only [World.keyed, hdisp, hd]
      cases hk : mapFind d.filtered_ k2 with
      | none => rfl
      | some p =>
        cases p with
        | none => rfl
        | some c2 =>
          simp only []
          refine hsame c c2 ?_ hcores
          intro e
          rw [e] at hk
          exact hk2 (hs.keyed_inj d k2 key c hd hk hkc)
  · intro hl
    have hlc : l ∈ w.mem.listenersOf d.dispatcher_ := by
      simpa only [World.unfiltered, hd] using hl
    obtain ⟨hdisp, herase, hcores, _, _⟩ := World.drop_listed throws keyOf hs hlc
    rw [hd] at hdisp
    refine ⟨?_, hcores, hdisp, ?_⟩
    · simp only [World.unfiltered, hdisp, hd]
      exact herase
    · intro k
      simp only [World.keyed, hdisp, hd]
      cases hk : mapFind d.filtered_ k with
      | none => rfl
      | some p =>
        cases p with
        | none => rfl
        | some c2 =>
          simp only []
          exact hsame _ c2 (hs.keyed_ne_base d k c2 hd hk) hcores

/-- Witness for C15: listeners at 10 (unfiltered), 11 (key 5) and 12 (key 6);
dropping the handle of 11 empties the sequence of key 5 and leaves the
unfiltered sequence and the sequence of key 6 as they are. -/
theorem GuardedListener.drop_changes_own_core_only_witness :
    ∃ c, mapFind ([(5, some 1), (6, some 2)] : List (Nat × Option CorePtr)) 5
        = some (some c) ∧
      (((World.init Nat Nat).run (fun _ _ => false) id
          [Op.subscribe 10 100, Op.subscribeKey 11 5 101,
            (Op.subscribeKey 12 6 102 : Op Nat Nat Nat)]).step (fun _ _ => false) id
          (Op.drop 11)).keyed 5
        = (((World.init Nat Nat).run (fun _ _ => false) id
          [Op.subscribe 10 100, Op.subscribeKey 11 5 101,
            (Op.subscribeKey 12 6 102 : Op Nat Nat Nat)]).keyed 5).erase 11 ∧
      (∀ c2, c2 ≠ c →
        (((World.init Nat Nat).run (fun _ _ => false) id
          [Op.subscribe 10 100, Op.subscribeKey 11 5 101,
            (Op.subscribeKey 12 6 102 : Op Nat Nat Nat)]).step (fun _ _ => false) id
          (Op.drop 11)).mem.cores c2
          = ((World.init Nat Nat).run (fun _ _ => false) id
            [Op.subscribe 10 100, Op.subscribeKey 11 5 101,
              (Op.subscribeKey 12 6 102 : Op Nat Nat Nat)]).mem.cores c2) ∧
      (((World.init Nat Nat).run (fun _ _ => false) id
          [Op.subscribe 10 100, Op.subscribeKey 11 5 101,
            (Op.subscribeKey 12 6 102 : Op Nat Nat Nat)]).step (fun _ _ => false) id
          (Op.drop 11)).disp = some ⟨⟨0⟩, [(5, some 1), (6, some 2)]⟩ ∧
      (((World.init Nat Nat).run (fun _ _ => false) id
          [Op.subscribe 10 100, Op.subscribeKey 11 5 101,
            (Op.subscribeKey 12 6 102 : Op Nat Nat Nat)]).step (fun _ _ => false) id
          (Op.drop 11)).keys
        = ((World.init Nat Nat).run (fun _ _ => false) id
          [Op.subscribe 10 100, Op.subscribeKey 11 5 101,
            (Op.subscribeKey 12 6 102 : Op Nat Nat Nat)]).keys ∧
      (((World.init Nat Nat).run (fun _ _ => false) id
          [Op.subscribe 10 100, Op.subscribeKey 11 5 101,
            (Op.subscribeKey 12 6 102 : Op Nat Nat Nat)]).step (fun _ _ => false) id
          (Op.drop 11)).unfiltered
        = ((World.init Nat Nat).run (fun _ _ => false) id
          [Op.subscribe 10 100, Op.subscribeKey 11 5 101,
            (Op.subscribeKey 12 6 102 : Op Nat Nat Nat)]).unfiltered ∧
      ∀ k2, k2 ≠ 5 →
        (((World.init Nat Nat).run (fun _ _ => false) id
            [Op.subscribe 10 100, Op.subscribeKey 11 5 101,
              (Op.subscribeKey 12 6 102 : Op Nat Nat Nat)]).step (fun _ _ => false) id
            (Op.drop 11)).keyed k2
          = ((World.init Nat Nat).run (fun _ _ => false) id
            [Op.subscribe 10 100, Op.subscribeKey 11 5 101,
              (Op.subscribeKey 12 6 102 : Op Nat Nat Nat)]).keyed k2 :=
  (GuardedListener.drop_changes_own_core_only (fun _ _ => false) id
    [Op.subscribe 10 100, Op.subscribeKey 11 5 101, Op.subscribeKey 12 6 102]
    ⟨⟨0⟩, [(5, some 1), (6, some 2)]⟩ 11 (by decide) (by decide)).1 5 (by decide)

theorem mapIndex_idem {K : Type} [DecidableEq K] (fm : List (K × Option CorePtr)) (key : K) :
    mapIndex (mapIndex fm key) key = mapIndex fm key := by
  have h := mapFind_mapIndex_self fm key
  generalize mapIndex fm key = fm1 at h ⊢
  unfold mapIndex
  rw [h]

theorem FilteredDispatcher.createListener_after_index {K Callable : Type} [DecidableEq K]
    (m : Memory Callable) (d : FilteredDispatcher K) (l : ListenerPtr) (key : K)
    (f : Callable) :
    FilteredDispatcher.createListener m { d with filtered_ := mapIndex d.filtered_ key } l key f
      = d.createListener m l key f := by
  unfold FilteredDispatcher.createListener
  simp only [mapIndex_idem]

theorem World.step_dispatch_subscribeKey {K Callable T : Type} [DecidableEq K]
    (throws : Callable → T → Bool) (keyOf : T → K) {w : World K Callable} (hs : w.Sound)
    (obj : T) (l : ListenerPtr) (f : Callable)
    (he : w.enabled (Op.dispatch obj : Op K Callable T) = true) :
    (w.step throws keyOf (Op.dispatch obj)).step throws keyOf
        (Op.subscribeKey l (keyOf obj) f)
      = w.step throws keyOf (Op.subscribeKey l (keyOf obj) f) := by
  obtain ⟨d, hd⟩ := World.enabled_disp he (by simp)
  obtain ⟨c, m0, m1, fm, _, hr, _, _, _⟩ :=
    FilteredDispatcher.createListener_key_spec w.mem d l (keyOf obj) f
      (fun c hc => hs.keyed d _ c hd hc)
  rw [World.step_dispatch throws keyOf hd obj]
  simp only [World.step, FilteredDispatcher.createListener_after_index, hd, hr]

/-- C16. After any admissible history on a fresh `FilteredDispatcher` in which
the key of `obj` has no registered listener, a dispatch of `obj` followed by
`createListener(key, f)` leaves the very state that the subscription alone
leaves; a further dispatch of a payload with that key, in which nothing
throws, calls the new listener first and then the unfiltered listeners in the
order of their registration, and the new listener object is none of them. -/
theorem FilteredDispatcher.dispatch_then_subscribe {K Callable T : Type} [DecidableEq K]
    (throws : Callable → T → Bool) (keyOf : T → K) (ops : List (Op K Callable T))
    (obj obj2 : T) (l : ListenerPtr) (f : Callable) (d2 : FilteredDispatcher K)
    (ha : (World.init K Callable).admissible throws keyOf
      (ops ++ [Op.dispatch obj, Op.subscribeKey l (keyOf obj) f]) = true)
    (hnone : FilteredSpec.keyed (keyOf obj) ops = [])
    (hkey : keyOf obj2 = keyOf obj)
    (hd2 : ((World.init K Callable).run throws keyOf
      (ops ++ [Op.dispatch obj, Op.subscribeKey l (keyOf obj) f])).disp = some d2)
    (hf : throws f obj2 = false)
    (hno : ∀ r ∈ FilteredSpec.unfiltered ops, throws r.2 obj2 = false) :
    ((World.init K Callable).run throws keyOf
        (ops ++ [Op.dispatch obj, Op.subscribeKey l (keyOf obj) f])
      = (World.init K Callable).run throws keyOf
        (ops ++ [Op.subscribeKey l (keyOf obj) f])) ∧
    ((d2.dispatch throws keyOf ((World.init K Callable).run throws keyOf
        (ops ++ [Op.dispatch obj, Op.subscribeKey l (keyOf obj) f])).mem obj2).2
      = ⟨⟨l, f, obj2⟩ :: (FilteredSpec.unfiltered ops).map (toInvocation obj2),
          Outcome.returned⟩) ∧
    ∀ r ∈ FilteredSpec.unfiltered ops, r.1 ≠ l := by
  have ha0 := ha
  rw [World.admissible_append, Bool.and_eq_true] at ha0
  obtain ⟨ha1, ha2⟩ := ha0
  have hs1 := World.run_sound throws keyOf (World.sound_init K Callable) ops ha1
  have hs2 := World.run_sound throws keyOf (World.sound_init K Callable) _ ha
  have hfin2 : ((World.init K Callable).run throws keyOf
      (ops ++ [Op.dispatch obj, Op.subscribeKey l (keyOf obj) f])).disp.isSome = true := by
    rw [hd2]
    rfl
  have hen : ((World.init K Callable).run throws keyOf ops).enabled
      (Op.dispatch obj : Op K Callable T) = true := by
    simp only [World.admissible, Bool.and_eq_true] at ha2
    exact ha2.1
  have hfin1 : ((World.init K Callable).run throws keyOf ops).disp.isSome = true := hen
  obtain ⟨hu1, hk1⟩ := World.regs_run_init throws keyOf ops ha1 hfin1
  rw [World.run_append] at hfin2
  obtain ⟨hu2, hk2⟩ := World.regs_run throws keyOf hs1 _ ha2 hfin2
  rw [← World.run_append] at hu2 hk2
  have hk2K := hk2 (keyOf obj)
  rw [hk1, hnone] at hk2K
  rw [hu1] at hu2
  have hfilt : ∀ L : List (ListenerPtr × Callable),
      L.filter (fun r => !FilteredSpec.dropped r.1
        [Op.dispatch obj, (Op.subscribeKey l (keyOf obj) f : Op K Callable T)]) = L := by
    intro L
    rw [List.filter_eq_self]
    intro a _
    simp [FilteredSpec.dropped]
  rw [hfilt] at hu2
  simp only [List.filter_nil, List.nil_append, FilteredSpec.keyed, FilteredSpec.dropped,
    FilteredSpec.unfiltered, List.append_nil, and_self, if_true] at hk2K hu2
  have hround := World.dispatch_eq throws keyOf hs2 hd2 obj2
  rw [hkey, hk2K, hu2] at hround
  have hnd := hs2.round_nodup (keyOf obj)
  rw [hk2K, hu2] at hnd
  refine ⟨?_, ?_, ?_⟩
  · rw [World.run_append, World.run_append]
    simp only [World.run]
    exact World.step_dispatch_subscribeKey throws keyOf hs1 obj l f hen
  · rw [hround, roundOver_of_no_throw]
    · rfl
    · intro r hr
      rcases List.mem_append.mp hr with h | h
      · simp only [List.mem_singleton] at h
        rw [h]
        exact hf
      · exact hno r h
  · intro r hr e
    simp only [List.singleton_append, List.map_cons, List.nodup_cons, List.mem_map] at hnd
    exact hnd.1 ⟨r, hr, e⟩

/-- Witness for C16: with an unfiltered listener at 10, a payload with key 5
is dispatched while key 5 has no listener; then a listener for key 5 is
registered at 11 and a payload with key 5 is dispatched again. -/
theorem FilteredDispatcher.dispatch_then_subscribe_witness :
    ((⟨⟨0⟩, [(5, some 1)]⟩ : FilteredDispatcher Nat).dispatch (fun _ _ => false) id
        ((World.init Nat Nat).run (fun _ _ => false) id
          ([Op.subscribe 10 100]
            ++ [Op.dispatch 5, (Op.subscribeKey 11 (id 5) 101 : Op Nat Nat Nat)])).mem 5).2
      = ⟨⟨11, 101, 5⟩ :: ([(10, 100)] : List (ListenerPtr × Nat)).map (toInvocation 5),
          Outcome.returned⟩ :=
  (FilteredDispatcher.dispatch_then_subscribe (fun _ _ => false) id
    [Op.subscribe 10 100] 5 5 11 101 ⟨⟨0⟩, [(5, some 1)]⟩
    (by decide) (by decide) rfl (by decide) rfl (by intro r _; rfl)).2.1

/-! ### The interface facade -/

theorem World.step_dispatch_frame {K Callable T : Type} [DecidableEq K]
    (throws : Callable → T → Bool) (keyOf : T → K) (w : World K Callable) (obj : T) :
    (w.step throws keyOf (Op.dispatch obj)).mem = w.mem ∧
      (w.step throws keyOf (Op.dispatch obj)).unfiltered = w.unfiltered ∧
      ∀ k, (w.step throws keyOf (Op.dispatch obj)).keyed k = w.keyed k := by
  cases hd : w.disp with
  | none =>
    have hstep : w.step throws keyOf (Op.dispatch obj) = w := by
      simp [World.step, hd]
    rw [hstep]
    exact ⟨rfl, rfl, fun _ => rfl⟩
  | some d =>
    rw [World.step_dispatch throws keyOf hd obj]
    refine ⟨rfl, ?_, ?_⟩
    · simp [World.unfiltered, hd]
    · intro k
      simp only [World.keyed, hd]
      by_cases hkk : k = keyOf obj
      · subst hkk
        rw [mapFind_mapIndex_self]
        cases hk : mapFind d.filtered_ (keyOf obj) with
        | none => rfl
        | some p => rfl
      · rw [mapFind_mapIndex_ne _ hkk]

theorem World.run_dispatch_frame {K Callable T : Type} [DecidableEq K]
    (throws : Callable → T → Bool) (keyOf : T → K) (w : World K Callable)
    (objs : List T) :
    (w.run throws keyOf (objs.map (fun o => Op.dispatch o))).mem = w.mem ∧
      (w.run throws keyOf (objs.map (fun o => Op.dispatch o))).unfiltered = w.unfiltered ∧
      ∀ k, (w.run throws keyOf (objs.map (fun o => Op.dispatch o))).keyed k = w.keyed k := by
  induction objs generalizing w with
  | nil => exact ⟨rfl, rfl, fun _ => rfl⟩
  | cons o rest ih =>
    obtain ⟨h1, h2, h3⟩ := World.step_dispatch_frame throws keyOf w o
    obtain ⟨i1, i2, i3⟩ := ih (w.step throws keyOf (Op.dispatch o))
    simp only [List.map_cons, World.run]
    exact ⟨i1.trans h1, i2.trans h2, fun k => (i3 k).trans (h3 k)⟩

theorem SimpleWorld.simple_run_dispatch_frame {Callable T : Type} (w : SimpleWorld Callable)
    (objs : List T) :
    w.run (objs.map (fun o => (SimpleOp.dispatch o : SimpleOp Callable T))) = w := by
  induction objs with
  | nil => rfl
  | cons o rest ih =>
    simp only [List.map_cons, SimpleWorld.run, SimpleWorld.step]
    exact ih

theorem DispatchedInterface.deliver_frame {D Frame State FrameDelegate StateDelegate : Type}
    (throws : FrameDelegate → Frame → Bool) (keyOf : Frame → Nat)
    (self : DispatchedInterface D FrameDelegate StateDelegate)
    (r : DriverResult D Frame State) :
    (self.deliver throws keyOf r).frame_dispatcher_.mem = self.frame_dispatcher_.mem ∧
      (self.deliver throws keyOf r).frame_dispatcher_.unfiltered
        = self.frame_dispatcher_.unfiltered ∧
      (∀ k, (self.deliver throws keyOf r).frame_dispatcher_.keyed k
        = self.frame_dispatcher_.keyed k) ∧
      (self.deliver throws keyOf r).state_dispatcher_ = self.state_dispatcher_ := by
  obtain ⟨h1, h2, h3⟩ := World.run_dispatch_frame throws keyOf self.frame_dispatcher_ r.frames
  exact ⟨h1, h2, h3, SimpleWorld.simple_run_dispatch_frame self.state_dispatcher_ r.states⟩

/-- C11, the code for every input: `DispatchedInterface::translateError`
leaves in `str` the string the driver's `translateError` wrote, and hands no
value to its caller: its body drops the driver's result and ends without a
`return`. -/
theorem DispatchedInterface.translateError_returns_no_value
    {D Frame State FrameDelegate StateDelegate : Type}
    (drv : Driver D Frame State) (throws : FrameDelegate → Frame → Bool)
    (keyOf : Frame → Nat) (self : DispatchedInterface D FrameDelegate StateDelegate)
    (internal_error : Nat) (str : String) :
    (self.translateError drv throws keyOf internal_error str).2.2
        = (drv.translateError self.driver_ internal_error str).2 ∧
      (self.translateError drv throws keyOf internal_error str).2.1 = none :=
  ⟨rfl, rfl⟩

/-- C12. `init(device, bitrate)`, `send(msg)` and `recover()` of
`DispatchedInterface` return the value the driver's operation of the same name
returns for the same arguments, and each leaves the listener sequences of the
frame dispatcher (unfiltered and of every key), the listener objects and the
state dispatcher as they were. -/
theorem DispatchedInterface.forwards_result
    {D Frame State FrameDelegate StateDelegate : Type}
    (drv : Driver D Frame State) (throws : FrameDelegate → Frame → Bool)
    (keyOf : Frame → Nat) (self : DispatchedInterface D FrameDelegate StateDelegate)
    (device : String) (bitrate : Nat) (msg : Frame) :
    ((self.init drv throws keyOf device bitrate).2
        = (drv.init self.driver_ device bitrate).value ∧
      (self.init drv throws keyOf device bitrate).1.frame_dispatcher_.mem
        = self.frame_dispatcher_.mem ∧
      (self.init drv throws keyOf device bitrate).1.frame_dispatcher_.unfiltered
        = self.frame_dispatcher_.unfiltered ∧
      (∀ k, (self.init drv throws keyOf device bitrate).1.frame_dispatcher_.keyed k
        = self.frame_dispatcher_.keyed k) ∧
      (self.init drv throws keyOf device bitrate).1.state_dispatcher_
        = self.state_dispatcher_) ∧
    ((self.send drv throws keyOf msg).2 = (drv.send self.driver_ msg).value ∧
      (self.send drv throws keyOf msg).1.frame_dispatcher_.mem
        = self.frame_dispatcher_.mem ∧
      (self.send drv throws keyOf msg).1.frame_dispatcher_.unfiltered
        = self.frame_dispatcher_.unfiltered ∧
      (∀ k, (self.send drv throws keyOf msg).1.frame_dispatcher_.keyed k
        = self.frame_dispatcher_.keyed k) ∧
      (self.send drv throws keyOf msg).1.state_dispatcher_ = self.state_dispatcher_) ∧
    ((self.recover drv throws keyOf).2 = (drv.recover self.driver_).value ∧
      (self.recover drv throws keyOf).1.frame_dispatcher_.mem
        = self.frame_dispatcher_.mem ∧
      (self.recover drv throws keyOf).1.frame_dispatcher_.unfiltered
        = self.frame_dispatcher_.unfiltered ∧
      (∀ k, (self.recover drv throws keyOf).1.frame_dispatcher_.keyed k
        = self.frame_dispatcher_.keyed k) ∧
      (self.recover drv throws keyOf).1.state_dispatcher_ = self.state_dispatcher_) := by
  refine ⟨?_, ?_, ?_⟩
  · have h := DispatchedInterface.deliver_frame throws keyOf self
      (drv.init self.driver_ device bitrate)
    unfold DispatchedInterface.init
    cases hv : (drv.init self.driver_ device bitrate).value
    · simp only [Bool.false_eq_true, if_false]
      exact ⟨trivial, h⟩
    · simp only [if_true]
      exact ⟨trivial, h⟩
  · exact ⟨rfl, DispatchedInterface.deliver_frame throws keyOf self (drv.send self.driver_ msg)⟩
  · exact ⟨rfl, DispatchedInterface.deliver_frame throws keyOf self (drv.recover self.driver_)⟩

end ipa_can
